import Mathlib

/-!
# KDb alter-table planner: embedding and verified properties

Shallow embedding of `KDbAlterTableHandler` (src/src/KDbAlter.cpp) and of the helpers of
src/src/KDb.cpp it calls: the requirement classifier, the action model, the backward
simplification pass and the execution engine.

Conventions of the embedding
* `QString` and `QByteArray` are lists of characters; a `QByteArray` holds Latin-1 characters.
* C++ `int` values are `Int`; requirement and constraint bit sets are `Nat` with `|||`, `&&&`, `^^^`.
* Objects reached through pointers are values; an in-place update of `*this` is returned as
  the updated value next to the updated working map.
* `QHash` and `QMap` are association lists without duplicate keys; only look-up, insertion,
  removal and iteration are used, and no result of the planner depends on the iteration order.
* Code that the planner calls and that is not among the sources (setters of `KDbField`, the
  case-insensitive comparison and the lower-casing of `QString`, the clock) is a member of
  the structure `External`, so that a theorem stated for every `External` holds for Qt.
-/

namespace KDb

/-! ## Qt value types -/

/-- QString, as the list of its characters. -/
abbrev QString := List Char

/-- QByteArray, as the list of its bytes read as Latin-1 characters. -/
abbrev QByteArray := List Char

/-- QString::toLatin1: characters outside Latin-1 become question marks (one per UTF-16 unit). -/
def toLatin1 (s : QString) : QByteArray :=
  s.flatMap fun c =>
    if c.toNat < 256 then [c] else if c.toNat < 65536 then ['?'] else ['?', '?']

/-- Lower-case form of one Latin-1 character, as used by QByteArray::toLower. -/
def lowerLatin1 (c : Char) : Char :=
  if (65 ≤ c.toNat ∧ c.toNat ≤ 90) ∨ (192 ≤ c.toNat ∧ c.toNat ≤ 222 ∧ c.toNat ≠ 215)
  then Char.ofNat (c.toNat + 32) else c

/-- QByteArray::toLower, which folds the letters of the Latin-1 range. -/
def toLower (b : QByteArray) : QByteArray := b.map lowerLatin1

/-- QHash::value and QMap::find: the value stored under the key, if any. -/
def hashValue {K V : Type} [DecidableEq K] : List (K × V) → K → Option V
  | [], _ => none
  | (k, v) :: rest, key => if k = key then some v else hashValue rest key

/-- QHash::insert: replaces the value of an existing key, adds the pair otherwise. -/
def hashInsert {K V : Type} [DecidableEq K] : List (K × V) → K → V → List (K × V)
  | [], key, val => [(key, val)]
  | (k, v) :: rest, key, val =>
    if k = key then (k, val) :: rest else (k, v) :: hashInsert rest key val

/-- QHash::remove and QHash::take: drops the key. -/
def hashRemove {K V : Type} [DecidableEq K] (h : List (K × V)) (key : K) : List (K × V) :=
  h.filter fun e => decide (e.1 ≠ key)

/-- Decimal text of an integer (QString::number). -/
def intToQString (i : Int) : QString :=
  if i < 0 then '-' :: Nat.toDigits 10 i.natAbs else Nat.toDigits 10 i.toNat

/-- Value of a string of decimal digits; none when a character is not a digit. -/
def parseDigits : List Char → Nat → Option Nat
  | [], acc => some acc
  | c :: rest, acc =>
    if 48 ≤ c.toNat ∧ c.toNat ≤ 57 then parseDigits rest (acc * 10 + (c.toNat - 48)) else none

/-- QString::toInt for an optional sign followed by decimal digits, within the 32-bit range. -/
def parseInt (s : QString) : Option Int :=
  let signed : Option Int :=
    match s with
    | [] => none
    | '-' :: rest => if rest.isEmpty then none else (parseDigits rest 0).map fun n => - (n : Int)
    | '+' :: rest => if rest.isEmpty then none else (parseDigits rest 0).map fun n => (n : Int)
    | _ => (parseDigits s 0).map fun n => (n : Int)
  signed.bind fun i => if -2147483648 ≤ i ∧ i ≤ 2147483647 then some i else none

/-- QVariant, restricted to the kinds of value the planner creates or converts: the invalid
variant, bool, int, double (integral values only), string, byte array (none is the null
array) and a date or time carried as its text. -/
inductive QVariant
  | invalid
  | bool (b : Bool)
  | int (i : Int)
  | double (x : Int)
  | string (s : QString)
  | byteArray (b : Option QByteArray)
  | dateTime (text : QString)
  deriving DecidableEq, Repr

namespace QVariant

/-- QVariant::isNull. -/
def isNull : QVariant → Bool
  | invalid => true
  | byteArray none => true
  | _ => false

/-- QVariant::toString. -/
def toString : QVariant → QString
  | invalid => []
  | bool b => if b then "true".toList else "false".toList
  | int i => intToQString i
  | double x => intToQString x
  | string s => s
  | byteArray b => b.getD []
  | dateTime t => t

/-- QVariant::toBool: a text is false when it is empty, "0" or the word "false" in any letter
case (only the Latin letters lower-case to the letters of that word). -/
def toBool : QVariant → Bool
  | invalid => false
  | bool b => b
  | int i => i ≠ 0
  | double x => x ≠ 0
  | string s => !(s.isEmpty || s == "0".toList || toLower s == "false".toList)
  | byteArray b => !((b.getD []).isEmpty || b.getD [] == "0".toList || toLower (b.getD []) == "false".toList)
  | dateTime _ => false

/-- QVariant::toInt(&ok): the converted value and the ok flag. -/
def toInt : QVariant → Int × Bool
  | invalid => (0, false)
  | bool b => (if b then 1 else 0, true)
  | int i => (i, true)
  | double x => (x, true)
  | string s => match parseInt s with
    | some i => (i, true)
    | none => (0, false)
  | byteArray b => match parseInt (b.getD []) with
    | some i => (i, true)
    | none => (0, false)
  | dateTime _ => (0, false)

end QVariant

/-! ## Requirement flags and the classifier -/

/-- Modelled from the spec: the enum AlteringRequirements is declared in KDbAlter.h, which is
not among the sources; the spec describes four independent flags, here four single bits. -/
def PhysicalAlteringRequired : Nat := 1

/-- Modelled from the spec: flag of the enum AlteringRequirements (see PhysicalAlteringRequired). -/
def DataConversionRequired : Nat := 2

/-- Modelled from the spec: flag of the enum AlteringRequirements (see PhysicalAlteringRequired). -/
def MainSchemaAlteringRequired : Nat := 4

/-- Modelled from the spec: flag of the enum AlteringRequirements (see PhysicalAlteringRequired). -/
def ExtendedSchemaAlteringRequired : Nat := 8

/-- Modelled from the spec: SchemaAlteringRequired is the union of the main and extended flags. -/
def SchemaAlteringRequired : Nat := ExtendedSchemaAlteringRequired ||| MainSchemaAlteringRequired

/-- Macro I of KDb_AlterTableHandlerStatic: one flag under the lower-cased name. -/
def I (types : List (QByteArray × Nat)) (name : QByteArray) (type : Nat) : List (QByteArray × Nat) :=
  hashInsert types (toLower name) type

/-- Macro I2 of KDb_AlterTableHandlerStatic: two flags, plus the main-schema flag whenever the
physical flag is among them. -/
def I2 (types : List (QByteArray × Nat)) (name : QByteArray) (type1 type2 : Nat) :
    List (QByteArray × Nat) :=
  let flag := type1 ||| type2
  let flag := if flag &&& PhysicalAlteringRequired ≠ 0 then flag ||| MainSchemaAlteringRequired else flag
  hashInsert types (toLower name) flag

/-- Table built by the constructor of KDb_AlterTableHandlerStatic (KDB_UNFINISHED undefined). -/
def KDb_alteringTypeForProperty : List (QByteArray × Nat) :=
  let t : List (QByteArray × Nat) := []
  let t := I2 t "name".toList PhysicalAlteringRequired MainSchemaAlteringRequired
  let t := I2 t "type".toList PhysicalAlteringRequired DataConversionRequired
  let t := I t "caption".toList MainSchemaAlteringRequired
  let t := I t "description".toList MainSchemaAlteringRequired
  let t := I2 t "unsigned".toList PhysicalAlteringRequired DataConversionRequired
  let t := I2 t "maxLength".toList PhysicalAlteringRequired DataConversionRequired
  let t := I2 t "precision".toList PhysicalAlteringRequired DataConversionRequired
  let t := I t "defaultWidth".toList ExtendedSchemaAlteringRequired
  let t := I t "defaultValue".toList MainSchemaAlteringRequired
  let t := I2 t "primaryKey".toList PhysicalAlteringRequired DataConversionRequired
  let t := I2 t "unique".toList PhysicalAlteringRequired DataConversionRequired
  let t := I2 t "notNull".toList PhysicalAlteringRequired DataConversionRequired
  let t := I2 t "allowEmpty".toList PhysicalAlteringRequired MainSchemaAlteringRequired
  let t := I2 t "autoIncrement".toList PhysicalAlteringRequired DataConversionRequired
  let t := I2 t "indexed".toList PhysicalAlteringRequired DataConversionRequired
  let t := I t "visibleDecimalPlaces".toList ExtendedSchemaAlteringRequired
  t

/-- Set built by the constructor of KDb_ExtendedProperties (KDb.cpp). -/
def KDb_extendedProperties : List QByteArray :=
  ["visibledecimalplaces".toList, "rowsource".toList, "rowsourcetype".toList,
   "rowsourcevalues".toList, "boundcolumn".toList, "visiblecolumn".toList,
   "columnwidths".toList, "showcolumnheaders".toList, "listrows".toList,
   "limittolist".toList, "displaywidget".toList]

/-- KDb::isExtendedTableFieldProperty. -/
def isExtendedTableFieldProperty (propertyName : QByteArray) : Bool :=
  KDb_extendedProperties.contains (toLower propertyName)

/-- Keys inserted by KDb::getProperties(nullptr, ..), lower-cased by the constructor of
KDb_LookupFieldSchemaProperties. -/
def KDb_lookupFieldSchemaProperties : List QByteArray :=
  ["rowSource".toList, "rowSourceType".toList, "rowSourceValues".toList, "boundColumn".toList,
   "visibleColumn".toList, "columnWidths".toList, "showColumnHeaders".toList,
   "listRows".toList, "limitToList".toList, "displayWidget".toList].map toLower

/-- KDb::isLookupFieldSchemaProperty. -/
def isLookupFieldSchemaProperty (propertyName : QByteArray) : Bool :=
  KDb_lookupFieldSchemaProperties.contains (toLower propertyName)

/-- KDbAlterTableHandler::alteringTypeForProperty; a result of 0 is the "not found" outcome. -/
def alteringTypeForProperty (propertyName : QByteArray) : Nat :=
  let res := (hashValue KDb_alteringTypeForProperty (toLower propertyName)).getD 0
  if res = 0 then
    if isExtendedTableFieldProperty propertyName then ExtendedSchemaAlteringRequired else res
  else res

/-! ## Fields (KDbField.h) -/

/-- KDbField::Type. -/
inductive FieldType
  | InvalidType | Byte | ShortInteger | Integer | BigInteger | Boolean | Date | DateTime | Time
  | Float | Double | Text | LongText | BLOB | Null | Asterisk | Enum | Map | Tuple
  deriving DecidableEq, Repr

namespace FieldType

/-- Numeric value of the enumerator. -/
def toInt : FieldType → Int
  | InvalidType => 0 | Byte => 1 | ShortInteger => 2 | Integer => 3 | BigInteger => 4
  | Boolean => 5 | Date => 6 | DateTime => 7 | Time => 8 | Float => 9 | Double => 10
  | Text => 11 | LongText => 12 | BLOB => 13 | Null => 128 | Asterisk => 129 | Enum => 130
  | Map => 131 | Tuple => 132

/-- KDbField::LastType. -/
def LastType : Int := 13

end FieldType

/-- KDb::intToFieldType. -/
def intToFieldType (type : Int) : FieldType :=
  if type < FieldType.InvalidType.toInt ∨ type > FieldType.LastType then FieldType.InvalidType
  else match type with
    | 1 => .Byte | 2 => .ShortInteger | 3 => .Integer | 4 => .BigInteger | 5 => .Boolean
    | 6 => .Date | 7 => .DateTime | 8 => .Time | 9 => .Float | 10 => .Double | 11 => .Text
    | 12 => .LongText | 13 => .BLOB | _ => .InvalidType

/-- KDbField::Constraint AutoInc. -/
def AutoInc : Nat := 1
/-- KDbField::Constraint Unique. -/
def Unique : Nat := 2
/-- KDbField::Constraint PrimaryKey. -/
def PrimaryKey : Nat := 4
/-- KDbField::Constraint ForeignKey. -/
def ForeignKey : Nat := 8
/-- KDbField::Constraint NotNull. -/
def NotNull : Nat := 16
/-- KDbField::Constraint NotEmpty. -/
def NotEmpty : Nat := 32
/-- KDbField::Constraint Indexed. -/
def Indexed : Nat := 64
/-- KDbField::Option Unsigned. -/
def Unsigned : Nat := 1

/-- KDbField::MaxLengthStrategy. -/
inductive MaxLengthStrategy
  | DefaultMaxLength | DefinedMaxLength
  deriving DecidableEq, Repr

/-- Data members of KDbField that the planner reads or writes. Expressions, the owning field
list and enum hints are not part of the embedding. -/
structure KDbField where
  name : QString
  type : FieldType
  constraints : Nat := 0
  options : Nat := 0
  maxLengthStrategy : MaxLengthStrategy := .DefinedMaxLength
  maxLength : Int := 0
  precision : Int := 0
  visibleDecimalPlaces : Int := -1
  defaultValue : QVariant := .invalid
  caption : QString := []
  description : QString := []
  customProperties : List (QByteArray × QVariant) := []
  deriving DecidableEq, Repr

namespace KDbField

/-- KDbField::isNotNull. -/
def isNotNull (f : KDbField) : Bool := f.constraints &&& NotNull ≠ 0

/-- KDbField::isNotEmpty. -/
def isNotEmpty (f : KDbField) : Bool := f.constraints &&& NotEmpty ≠ 0

/-- Modelled from the spec: KDbField::isAutoIncrementAllowed is defined in KDbField.cpp, which
is not among the sources; its declaration documents "returns true for integer field type". -/
def isAutoIncrementAllowed (t : FieldType) : Bool :=
  t = .Byte ∨ t = .ShortInteger ∨ t = .Integer ∨ t = .BigInteger

/-- Modelled from the spec: KDbField::isFPNumericType is defined in KDbField.cpp, which is not
among the sources; the floating-point types are Float and Double. -/
def isFPNumericType (t : FieldType) : Bool := t = .Float ∨ t = .Double

/-- Modelled from the spec: KDbField::setType (KDbField.cpp, not among the sources) "sets type
t for this field"; fields of a table carry no expression. -/
def setType (f : KDbField) (t : FieldType) : KDbField := { f with type := t }

/-- Modelled from the spec: KDbField::setName (KDbField.cpp, not among the sources) "sets name
for this field". -/
def setName (f : KDbField) (name : QString) : KDbField := { f with name := name }

/-- KDbField::setOptions (inline in KDbField.h). -/
def setOptions (f : KDbField) (options : Nat) : KDbField := { f with options := options }

/-- KDbField::setCaption (inline in KDbField.h). -/
def setCaption (f : KDbField) (caption : QString) : KDbField := { f with caption := caption }

/-- KDbField::setDescription (inline in KDbField.h). -/
def setDescription (f : KDbField) (description : QString) : KDbField :=
  { f with description := description }

/-- Modelled from the spec: KDbField::setMaxLengthStrategy (KDbField.cpp, not among the
sources) sets the strategy and "does not affect maxLength property". -/
def setMaxLengthStrategy (f : KDbField) (s : MaxLengthStrategy) : KDbField :=
  { f with maxLengthStrategy := s }

/-- Modelled from the spec: KDbField::setVisibleDecimalPlaces (KDbField.cpp, not among the
sources) "sets number of decimal places that should be visible to the user". -/
def setVisibleDecimalPlaces (f : KDbField) (p : Int) : KDbField :=
  { f with visibleDecimalPlaces := p }

/-- Modelled from the spec: KDbField::setDefaultValue(const QVariant&) (KDbField.cpp, not among
the sources) "sets default value for this field; setting null value removes the default". -/
def setDefaultValue (f : KDbField) (def_ : QVariant) : KDbField := { f with defaultValue := def_ }

/-- Modelled from the spec: KDbField::setCustomProperty (KDbField.cpp, not among the sources)
"sets value for custom property". -/
def setCustomProperty (f : KDbField) (propertyName : QByteArray) (value : QVariant) : KDbField :=
  { f with customProperties := hashInsert f.customProperties propertyName value }

end KDbField

/-- Behaviour of code that is called by the planner but is not among the sources. The three
setters are declared in KDbField.h with side conditions ("enforces implied constraints",
"only works for Text type", "only works for floating-point types") whose implementation is in
KDbField.cpp; each is given here by the value it stores. The remaining members stand for the
lookup-schema class, the clock, the debug printer of a field and the two case-insensitive
operations of QString, which fold the letters of all of Unicode by the tables of Qt. -/
structure External where
  /-- Constraint word stored by KDbField::setConstraints(c). -/
  constraintsFor : KDbField → Nat → Nat
  /-- Length stored by KDbField::setMaxLength(n). -/
  maxLengthFor : KDbField → Int → Int
  /-- Precision stored by KDbField::setPrecision(p). -/
  precisionFor : KDbField → Int → Int
  /-- Whether a lookup-schema property can be set on a field of a table
  (field->table() is set and KDbLookupFieldSchema::setProperty succeeds). -/
  lookupSetProperty : QByteArray → QVariant → Bool
  /-- QDate::currentDate() as a variant. -/
  currentDate : QVariant
  /-- QDateTime::currentDateTime() as a variant. -/
  currentDateTime : QVariant
  /-- QTime::currentTime() as a variant. -/
  currentTime : QVariant
  /-- KDbUtils::debugString<KDbField>. -/
  fieldDebugString : KDbField → QString
  /-- Whether QString::compare(other, Qt::CaseInsensitive) returns 0. -/
  caseInsensitiveEqual : QString → QString → Bool
  /-- QString::toLower. -/
  lowerCased : QString → QString

/-- KDbField::setConstraints, through the external behaviour. -/
def KDbField.setConstraints (ext : External) (f : KDbField) (c : Nat) : KDbField :=
  { f with constraints := ext.constraintsFor f c }

/-- KDbField::setMaxLength, through the external behaviour; the strategy is reset to
DefinedMaxLength as the declaration documents. -/
def KDbField.setMaxLength (ext : External) (f : KDbField) (n : Int) : KDbField :=
  { f with maxLength := ext.maxLengthFor f n, maxLengthStrategy := .DefinedMaxLength }

/-- KDbField::setPrecision, through the external behaviour. -/
def KDbField.setPrecision (ext : External) (f : KDbField) (p : Int) : KDbField :=
  { f with precision := ext.precisionFor f p }

/-! ## Field property helpers (KDb.cpp) -/

/-- KDb::supportsVisibleDecimalPlacesProperty. -/
def supportsVisibleDecimalPlacesProperty (type : FieldType) : Bool :=
  KDbField.isFPNumericType type

/-- Static function setIntToFieldType of KDb.cpp: the flag and the updated field. -/
def setIntToFieldType (field : KDbField) (value : QVariant) : Bool × KDbField :=
  let (intType, ok) := value.toInt
  if !ok then (false, field)
  else if intToFieldType intType = FieldType.InvalidType then (false, field)
  else (true, field.setType (intToFieldType intType))

/-- Macro SET_BOOLEAN_FLAG: sets the flag, then clears it again when the value is false. -/
def SET_BOOLEAN_FLAG (constraints flag : Nat) (value : Bool) : Nat :=
  let constraints := constraints ||| flag
  if !value then constraints ^^^ flag else constraints

/-- KDb::setFieldProperties: the returned flag and the field as left by the call. The final
lookup-schema step only touches the table that owns the field and is not part of the result. -/
def setFieldProperties (ext : External) (field : KDbField) (values : List (QByteArray × QVariant)) :
    Bool × KDbField :=
  let find := hashValue values
  let typed : Bool × KDbField :=
    match find "type".toList with
    | some v => setIntToFieldType field v
    | none => (true, field)
  if !typed.1 then (false, typed.2) else
  let field := typed.2
  let constraints := field.constraints
  let constraints := match find "primaryKey".toList with
    | some v => SET_BOOLEAN_FLAG constraints PrimaryKey v.toBool
    | none => constraints
  let constraints := match find "indexed".toList with
    | some v => SET_BOOLEAN_FLAG constraints Indexed v.toBool
    | none => constraints
  let constraints := match find "autoIncrement".toList with
    | some v =>
      if KDbField.isAutoIncrementAllowed field.type then SET_BOOLEAN_FLAG constraints AutoInc v.toBool
      else constraints
    | none => constraints
  let constraints := match find "unique".toList with
    | some v => SET_BOOLEAN_FLAG constraints Unique v.toBool
    | none => constraints
  let constraints := match find "notNull".toList with
    | some v => SET_BOOLEAN_FLAG constraints NotNull v.toBool
    | none => constraints
  let constraints := match find "allowEmpty".toList with
    | some v => SET_BOOLEAN_FLAG constraints NotEmpty (!v.toBool)
    | none => constraints
  let field := field.setConstraints ext constraints
  let options : Nat := 0
  let options := match find "unsigned".toList with
    | some v =>
      let options := options ||| Unsigned
      if !v.toBool then options ^^^ Unsigned else options
    | none => options
  let field := field.setOptions options
  let field := match find "name".toList with
    | some v => field.setName v.toString
    | none => field
  let field := match find "caption".toList with
    | some v => field.setCaption v.toString
    | none => field
  let field := match find "description".toList with
    | some v => field.setDescription v.toString
    | none => field
  let lengthSet : Bool × KDbField := match find "maxLength".toList with
    | some v => if v.isNull then (true, field.setMaxLength ext 0)
                else (v.toInt.2, field.setMaxLength ext v.toInt.1)
    | none => (true, field)
  if !lengthSet.1 then (false, lengthSet.2) else
  let field := lengthSet.2
  let field := match find "maxLengthIsDefault".toList with
    | some v => if v.toBool then field.setMaxLengthStrategy .DefaultMaxLength else field
    | none => field
  let precisionSet : Bool × KDbField := match find "precision".toList with
    | some v => if v.isNull then (true, field.setPrecision ext 0)
                else (v.toInt.2, field.setPrecision ext v.toInt.1)
    | none => (true, field)
  if !precisionSet.1 then (false, precisionSet.2) else
  let field := precisionSet.2
  let field := match find "defaultValue".toList with
    | some v => field.setDefaultValue v
    | none => field
  let placesSet : Bool × KDbField := match find "visibleDecimalPlaces".toList with
    | some v =>
      if supportsVisibleDecimalPlacesProperty field.type then
        if v.isNull then (true, field.setVisibleDecimalPlaces (-1))
        else (v.toInt.2, field.setVisibleDecimalPlaces v.toInt.1)
      else (true, field)
    | none => (true, field)
  if !placesSet.1 then (false, placesSet.2) else
  (true, placesSet.2)

/-- Macro GET_INT of KDb::setFieldProperty. -/
def GET_INT (value : QVariant) (method : Int → KDbField) (field : KDbField) : Bool × KDbField :=
  if !value.toInt.2 then (false, field) else (true, method value.toInt.1)

/-- KDb::setFieldProperty on a field that exists: the returned flag and the updated field.
The lookup-schema branch changes the owning table only; its success is external. -/
def setFieldProperty (ext : External) (field : KDbField) (propertyName : QByteArray)
    (value : QVariant) : Bool × KDbField :=
  if propertyName.isEmpty then (false, field)
  else if isExtendedTableFieldProperty propertyName then
    if "visibleDecimalPlaces".toList = propertyName
        ∧ supportsVisibleDecimalPlacesProperty field.type = true then
      GET_INT value field.setVisibleDecimalPlaces field
    else if isLookupFieldSchemaProperty propertyName then
      if ext.lookupSetProperty propertyName value then (true, field) else (false, field)
    else (false, field)
  else
    if "type".toList = propertyName then setIntToFieldType field value
    else
    let constraints := field.constraints
    if "primaryKey".toList = propertyName then
      (true, field.setConstraints ext (SET_BOOLEAN_FLAG constraints PrimaryKey value.toBool))
    else if "indexed".toList = propertyName then
      (true, field.setConstraints ext (SET_BOOLEAN_FLAG constraints Indexed value.toBool))
    else if "autoIncrement".toList = propertyName
        ∧ KDbField.isAutoIncrementAllowed field.type = true then
      (true, field.setConstraints ext (SET_BOOLEAN_FLAG constraints AutoInc value.toBool))
    else if "unique".toList = propertyName then
      (true, field.setConstraints ext (SET_BOOLEAN_FLAG constraints Unique value.toBool))
    else if "notNull".toList = propertyName then
      (true, field.setConstraints ext (SET_BOOLEAN_FLAG constraints NotNull value.toBool))
    else if "allowEmpty".toList = propertyName then
      (true, field.setConstraints ext (SET_BOOLEAN_FLAG constraints NotEmpty (!value.toBool)))
    else if "unsigned".toList = propertyName then
      let options : Nat := 0 ||| Unsigned
      let options := if !value.toBool then options ^^^ Unsigned else options
      (true, field.setOptions options)
    else if "name".toList = propertyName then
      if value.toString.isEmpty then (false, field) else (true, field.setName value.toString)
    else if "caption".toList = propertyName then (true, field.setCaption value.toString)
    else if "description".toList = propertyName then (true, field.setDescription value.toString)
    else if "maxLength".toList = propertyName then GET_INT value (field.setMaxLength ext) field
    else
    let field := if "maxLengthIsDefault".toList = propertyName
      then field.setMaxLengthStrategy .DefaultMaxLength else field
    if "precision".toList = propertyName then GET_INT value (field.setPrecision ext) field
    else if "defaultValue".toList = propertyName then (true, field.setDefaultValue value)
    else (false, field.setCustomProperty propertyName value)

/-- Vector filled by the constructor of KDb_EmptyValueForFieldTypeCache: LastType + 1 null
variants, then one QVector::insert (which shifts the tail) per ADD line. -/
def KDb_emptyValueForFieldTypeCache : List QVariant :=
  let values : List QVariant := List.replicate 14 QVariant.invalid
  let values := values.insertIdx 1 (.int 0)
  let values := values.insertIdx 2 (.int 0)
  let values := values.insertIdx 3 (.int 0)
  let values := values.insertIdx 4 (.int 0)
  let values := values.insertIdx 5 (.bool false)
  let values := values.insertIdx 9 (.double 0)
  let values := values.insertIdx 10 (.double 0)
  let values := values.insertIdx 11 (.string [' '])
  let values := values.insertIdx 12 (.string [' '])
  let values := values.insertIdx 13 (.byteArray none)
  values

/-- Index used by both placeholder look-ups: the type when it is at most LastType, else 0. -/
def cacheIndex (type : FieldType) : Nat :=
  if type.toInt ≤ FieldType.LastType then type.toInt.toNat else 0

/-- KDb::emptyValueForFieldType. -/
def emptyValueForFieldType (ext : External) (type : FieldType) : QVariant :=
  let val := KDb_emptyValueForFieldTypeCache.getD (cacheIndex type) .invalid
  if !val.isNull then val
  else if type = .Date then ext.currentDate
  else if type = .DateTime then ext.currentDateTime
  else if type = .Time then ext.currentTime
  else .invalid

/-- One round of the loop in the constructor of KDb_NotEmptyValueForFieldTypeCache. -/
def notEmptyCacheStep (ext : External) (values : List QVariant) (i : Nat) : List QVariant :=
  if i = 6 ∨ i = 7 ∨ i = 8 then values
  else if i = 11 ∨ i = 12 then values.insertIdx i (.string [])
  else if i = 13 then values.insertIdx i (.byteArray none)
  else values.insertIdx i (emptyValueForFieldType ext (intToFieldType i))

/-- Vector filled by the constructor of KDb_NotEmptyValueForFieldTypeCache. -/
def KDb_notEmptyValueForFieldTypeCache (ext : External) : List QVariant :=
  (List.range' 1 13).foldl (notEmptyCacheStep ext) (List.replicate 14 QVariant.invalid)

/-- KDb::notEmptyValueForFieldType. -/
def notEmptyValueForFieldType (ext : External) (type : FieldType) : QVariant :=
  let val := (KDb_notEmptyValueForFieldTypeCache ext).getD (cacheIndex type) .invalid
  if !val.isNull then val
  else if type = .Date then ext.currentDate
  else if type = .DateTime then ext.currentDateTime
  else if type = .Time then ext.currentTime
  else .invalid

/-! ## Action model (KDbAlter.cpp) -/

/-- The four concrete action classes with the members each adds to FieldActionBase. -/
inductive ActionKind
  | changeFieldProperty (propertyName : QString) (newValue : QVariant)
  | removeField
  | insertField (index : Int) (field : KDbField)
  | moveFieldPosition (index : Int)
  deriving DecidableEq, Repr

/-- An action object: the members of ActionBase and FieldActionBase, and the concrete class. -/
structure Action where
  alteringRequirements : Nat := 0
  order : Int := -1
  fieldUID : Int
  fieldName : QString
  kind : ActionKind
  deriving DecidableEq, Repr

/-- Constructor ChangeFieldPropertyAction(fieldName, propertyName, newValue, uid). -/
def ChangeFieldPropertyAction (fieldName propertyName : QString) (newValue : QVariant)
    (uid : Int) : Action :=
  { fieldUID := uid, fieldName := fieldName, kind := .changeFieldProperty propertyName newValue }

/-- Constructor RemoveFieldAction(fieldName, uid). -/
def RemoveFieldAction (fieldName : QString) (uid : Int) : Action :=
  { fieldUID := uid, fieldName := fieldName, kind := .removeField }

/-- Constructor InsertFieldAction(fieldIndex, field, uid): the field name is the name of the
field definition. -/
def InsertFieldAction (fieldIndex : Int) (field : KDbField) (uid : Int) : Action :=
  { fieldUID := uid, fieldName := field.name, kind := .insertField fieldIndex field }

/-- Constructor MoveFieldPositionAction(fieldIndex, fieldName, uid). -/
def MoveFieldPositionAction (fieldIndex : Int) (fieldName : QString) (uid : Int) : Action :=
  { fieldUID := uid, fieldName := fieldName, kind := .moveFieldPosition fieldIndex }

/-- Actions of one field by key: a property name, ":remove:" or ":insert:". -/
abbrev ActionDict := List (QByteArray × Action)

/-- Action dictionaries by field UID. -/
abbrev ActionDictDict := List (Int × ActionDict)

namespace Action

/-- The updateAlteringRequirements overrides of the four classes. -/
def updateAlteringRequirements (a : Action) : Action :=
  match a.kind with
  | .changeFieldProperty propertyName _ =>
    { a with alteringRequirements := alteringTypeForProperty (toLatin1 propertyName) }
  | .removeField => { a with alteringRequirements := PhysicalAlteringRequired }
  | .insertField _ _ => { a with alteringRequirements := PhysicalAlteringRequired }
  | .moveFieldPosition _ => { a with alteringRequirements := MainSchemaAlteringRequired }

/-- Result of dynamic_cast to ChangeFieldPropertyAction: true when the cast succeeds. -/
def isChangeFieldProperty (a : Action) : Bool :=
  match a.kind with
  | .changeFieldProperty _ _ => true
  | _ => false

/-- FieldActionBase::setFieldName. -/
def setFieldName (a : Action) (fieldName : QString) : Action := { a with fieldName := fieldName }

/-- Case 1b of ChangeFieldPropertyAction::simplifyActions: every action of the dictionary gets
the field name of this action. -/
def renameAll (dict : ActionDict) (fieldName : QString) : ActionDict :=
  dict.map fun e => (e.1, e.2.setFieldName fieldName)

/-- ChangeFieldPropertyAction::simplifyActions for an action of that class with the given
property name and new value: the action as left by the call and the updated map. -/
def simplifyChangeFieldProperty (this : Action) (m_propertyName : QString) (m_newValue : QVariant)
    (fieldActions : ActionDictDict) : Action × ActionDictDict :=
  let actionsLikeThis := hashValue fieldActions this.fieldUID
  if m_propertyName = "name".toList then
    let newName := toLatin1 m_newValue.toString
    let renameActionLikeThis : Option Action := actionsLikeThis.bind fun d => hashValue d newName
    let cast : Option QVariant := renameActionLikeThis.bind fun r =>
      match r.kind with
      | .changeFieldProperty _ otherValue => some otherValue
      | _ => none
    match cast with
    | some otherValue =>
      let this1 := { this with kind := .changeFieldProperty m_propertyName otherValue }
      match actionsLikeThis with
      | some d => (this1, hashInsert fieldActions this.fieldUID (renameAll d this.fieldName))
      | none => (this1, fieldActions)
    | none =>
      let removeActionForThisField : Option Action :=
        actionsLikeThis.bind fun d => hashValue d ":remove:".toList
      if removeActionForThisField.isSome then
        match actionsLikeThis with
        | some d => (this, hashInsert fieldActions this.fieldUID (renameAll d this.fieldName))
        | none => (this, fieldActions)
      else
        let dict := actionsLikeThis.getD []
        (this, hashInsert fieldActions this.fieldUID (hashInsert dict (toLatin1 m_propertyName) this))
  else
    let removeActionForThisField : Option Action :=
      actionsLikeThis.bind fun d => hashValue d ":remove:".toList
    if removeActionForThisField.isSome then (this, fieldActions)
    else
      let nextActionsLikeThis := hashValue fieldActions this.fieldUID
      match nextActionsLikeThis with
      | none =>
        (this, hashInsert fieldActions this.fieldUID (hashInsert [] (toLatin1 m_propertyName) this))
      | some d =>
        if (hashValue d (toLatin1 m_propertyName)).isNone then
          (this, hashInsert fieldActions this.fieldUID (hashInsert d (toLatin1 m_propertyName) this))
        else (this, fieldActions)

/-- RemoveFieldAction::simplifyActions. -/
def simplifyRemoveField (this : Action) (fieldActions : ActionDictDict) : Action × ActionDictDict :=
  let actionsLikeThis := (hashValue fieldActions this.fieldUID).getD []
  (this, hashInsert fieldActions this.fieldUID (hashInsert actionsLikeThis ":remove:".toList this))

/-- Loop of InsertFieldAction::simplifyActions over the actions recorded for the field: the
field name of this action after the loop, the collected values and the kept actions. -/
def collectChanges : ActionDict → QString → List (QByteArray × QVariant) → ActionDict →
    QString × List (QByteArray × QVariant) × ActionDict
  | [], fieldName, values, kept => (fieldName, values, kept)
  | (key, a) :: rest, fieldName, values, kept =>
    match a.kind with
    | .changeFieldProperty propertyName newValue =>
      let fieldName := if propertyName = "name".toList then newValue.toString else fieldName
      collectChanges rest fieldName (hashInsert values (toLatin1 propertyName) newValue) kept
    | _ => collectChanges rest fieldName values (hashInsert kept key a)

/-- InsertFieldAction::simplifyActions for an action of that class with the given index and
field definition. -/
def simplifyInsertField (ext : External) (this : Action) (m_index : Int) (m_field : KDbField)
    (fieldActions : ActionDictDict) : Action × ActionDictDict :=
  let actionsForThisField := hashValue fieldActions this.fieldUID
  let removeActionForThisField : Option Action :=
    actionsForThisField.bind fun d => hashValue d ":remove:".toList
  if removeActionForThisField.isSome then
    (this, hashInsert fieldActions this.fieldUID
      (hashRemove (actionsForThisField.getD []) ":remove:".toList))
  else
    match actionsForThisField with
    | some d =>
      let (fieldName, values, newActionsForThisField) := collectChanges d this.fieldName [] []
      let fieldActions := hashInsert (hashRemove fieldActions this.fieldUID) this.fieldUID
        newActionsForThisField
      let this1 := this.setFieldName fieldName
      let this2 : Action × KDbField :=
        if !values.isEmpty then
          let r := setFieldProperties ext m_field values
          if r.1 then ({ this1 with fieldName := r.2.name }, r.2) else (this1, m_field)
        else (this1, m_field)
      let newAction : Action := { this2.1 with kind := .insertField m_index this2.2 }
      (newAction, hashInsert fieldActions this.fieldUID
        (hashInsert newActionsForThisField ":insert:".toList newAction))
    | none =>
      (this, hashInsert fieldActions this.fieldUID (hashInsert [] ":insert:".toList this))

/-- Virtual call action->simplifyActions(fieldActions); MoveFieldPositionAction does nothing. -/
def simplifyActions (ext : External) (this : Action) (fieldActions : ActionDictDict) :
    Action × ActionDictDict :=
  match this.kind with
  | .changeFieldProperty propertyName newValue =>
    simplifyChangeFieldProperty this propertyName newValue fieldActions
  | .removeField => simplifyRemoveField this fieldActions
  | .insertField index field => simplifyInsertField ext this index field fieldActions
  | .moveFieldPosition _ => (this, fieldActions)

/-- Virtual call action->shouldBeRemoved(fieldActions): the override of
ChangeFieldPropertyAction compares the field name with the new value by QString::compare with
Qt::CaseInsensitive, which is given by the external behaviour; the other classes inherit the
default of ActionBase. Modelled from the spec: that default is declared
in KDbAlter.h, which is not among the sources; it keeps the action (returns false). -/
def shouldBeRemoved (ext : External) (a : Action) : Bool :=
  match a.kind with
  | .changeFieldProperty _ newValue => ext.caseInsensitiveEqual a.fieldName newValue.toString
  | _ => false

end Action

/-- Backward loop of KDbAlterTableHandler::execute: simplifyActions is called on the actions
from the last to the first; returns the list as left by the calls and the map. -/
def simplifyLoop (ext : External) : List Action → ActionDictDict → List Action × ActionDictDict
  | [], fieldActions => ([], fieldActions)
  | a :: rest, fieldActions =>
    let later := simplifyLoop ext rest fieldActions
    let r := a.simplifyActions ext later.2
    (r.1 :: later.1, r.2)

/-! ## Table schema and connection -/

/-- Modelled from the spec: KDbTableSchema and KDbFieldList are not among the sources. A table
schema is its name and the ordered list of its fields; each field object is paired with a
number standing for its address, so that a field can still be reached after it was renamed. -/
structure KDbTableSchema where
  name : QString
  fields : List (Nat × KDbField)
  deriving DecidableEq, Repr

namespace KDbTableSchema

/-- Modelled from the spec: KDbTableSchema::field(name), the first field with that name; the
field list of this repository (fieldlist.cpp) keys fields by the QString::toLower form of the
name, which is given by the external behaviour. -/
def field (ext : External) (t : KDbTableSchema) (name : QString) : Option Nat :=
  (t.fields.find? fun e => ext.lowerCased e.2.name == ext.lowerCased name).map fun e => e.1

/-- Modelled from the spec: the field object at an address, if the table still holds it. -/
def fieldAt (t : KDbTableSchema) (ptr : Nat) : Option KDbField :=
  (t.fields.find? fun e => e.1 == ptr).map fun e => e.2

/-- Modelled from the spec: in-place update of the field object at an address. -/
def setFieldAt (t : KDbTableSchema) (ptr : Nat) (f : KDbField) : KDbTableSchema :=
  { t with fields := t.fields.map fun e => if e.1 == ptr then (e.1, f) else e }

/-- Modelled from the spec: KDbTableSchema::fieldCount. -/
def fieldCount (t : KDbTableSchema) : Int := t.fields.length

/-- Address given to a newly allocated field: one that no field of the table has. -/
def freshAddress (t : KDbTableSchema) : Nat := (t.fields.map fun e => e.1).foldl max 0 + 1

/-- Modelled from the spec: KDbTableSchema::insertField(index, field) adds the field at the
index; an index outside 0..fieldCount adds nothing (fieldlist.cpp: "index out of range"). -/
def insertField (t : KDbTableSchema) (index : Int) (f : KDbField) : KDbTableSchema :=
  if index < 0 ∨ index > t.fieldCount then t
  else { t with fields := t.fields.insertIdx index.toNat (t.freshAddress, f) }

/-- Modelled from the spec: KDbTableSchema::removeField(field) deletes the field. -/
def removeField (t : KDbTableSchema) (ptr : Nat) : KDbTableSchema :=
  { t with fields := t.fields.filter fun e => e.1 != ptr }

/-- Modelled from the spec: KDbTableSchema::renameField(field, newName) renames the field. -/
def renameField (t : KDbTableSchema) (ptr : Nat) (newName : QString) : KDbTableSchema :=
  { t with fields := t.fields.map fun e => if e.1 == ptr then (e.1, e.2.setName newName) else e }

/-- Modelled from the spec: KDbTableSchema::setName. -/
def setName (t : KDbTableSchema) (name : QString) : KDbTableSchema := { t with name := name }

end KDbTableSchema

/-- Calls of the connection that write to storage, as recorded by the connection model. -/
inductive StorageCall
  | createTable (table : KDbTableSchema)
  | storeExtendedTableSchemaData (table : KDbTableSchema)
  | executeSQL (sql : QString)
  | alterTableName (table : KDbTableSchema) (newName : QString) (replace : Bool)
  | storeMainFieldSchema (field : KDbField)
  deriving DecidableEq, Repr

/-- Modelled from the spec: KDbConnection and the driver are not among the sources. The
connection holds the table schemas it knows (one per physical table), records every storage
call, and answers each call as its outcome members say; the two driver functions give the
escaped form of an identifier and the SQL literal of a value. -/
structure KDbConnection where
  isReadOnly : Bool
  isDatabaseUsed : Bool
  tables : List KDbTableSchema
  calls : List StorageCall := []
  createTableOk : Bool := true
  storeExtendedTableSchemaDataOk : Bool := true
  executeSQLOk : Bool := true
  alterTableNameOk : Bool := true
  storeMainFieldSchemaOk : Bool := true
  escapeIdentifier : QString → QString
  valueToSQL : FieldType → QVariant → QString

namespace KDbConnection

/-- Modelled from the spec: KDbConnection::tableSchema(name), the table of that name if any. -/
def tableSchema (c : KDbConnection) (tableName : QString) : Option KDbTableSchema :=
  c.tables.find? fun t => t.name == tableName

/-- Replaces the first table of the given name, the table object the handler works on. -/
def replaceTable : List KDbTableSchema → QString → KDbTableSchema → List KDbTableSchema
  | [], _, _ => []
  | t :: rest, name, t1 => if t.name == name then t1 :: rest else t :: replaceTable rest name t1

/-- Modelled from the spec: KDbConnection::createTable creates the physical table and keeps
its schema, or fails and creates nothing. -/
def createTable (c : KDbConnection) (table : KDbTableSchema) : Bool × KDbConnection :=
  let c := { c with calls := c.calls ++ [StorageCall.createTable table] }
  if c.createTableOk then (true, { c with tables := c.tables ++ [table] }) else (false, c)

/-- Modelled from the spec: KDbConnection::storeExtendedTableSchemaData. -/
def storeExtendedTableSchemaData (c : KDbConnection) (table : KDbTableSchema) :
    Bool × KDbConnection :=
  (c.storeExtendedTableSchemaDataOk,
    { c with calls := c.calls ++ [StorageCall.storeExtendedTableSchemaData table] })

/-- Modelled from the spec: KDbConnection::executeSQL runs one statement. -/
def executeSQL (c : KDbConnection) (sql : QString) : Bool × KDbConnection :=
  (c.executeSQLOk, { c with calls := c.calls ++ [StorageCall.executeSQL sql] })

/-- Modelled from the spec: KDbConnection::alterTableName(table, newName, replace) gives the
table the new name, dropping the table that had this name when replace is set. -/
def alterTableName (c : KDbConnection) (table : KDbTableSchema) (newName : QString)
    (replace : Bool) : Bool × KDbConnection :=
  let c := { c with calls := c.calls ++ [StorageCall.alterTableName table newName replace] }
  if c.alterTableNameOk ∧ (replace ∨ (c.tableSchema newName).isNone) then
    let others := c.tables.filter fun t => t.name != newName && t.name != table.name
    (true, { c with tables := others ++ [table.setName newName] })
  else (false, c)

/-- Modelled from the spec: KDbConnection::storeMainFieldSchema writes the catalog row of a
field. -/
def storeMainFieldSchema (c : KDbConnection) (field : KDbField) : Bool × KDbConnection :=
  (c.storeMainFieldSchemaOk, { c with calls := c.calls ++ [StorageCall.storeMainFieldSchema field] })

end KDbConnection

/-! ## Execution engine (KDbAlterTableHandler::execute) -/

/-- The type tristate of the sources: true, false or cancelled. -/
inductive tristate
  | true | false | cancelled
  deriving DecidableEq, Repr

/-- Conversion of a bool to tristate. -/
def tristate.ofBool (b : Bool) : tristate := if b then .true else .false

/-- Ways in which a run of the embedded code yields no result: the supply of rand() values
given to the run is used up before a free temporary name is found, or the C++ code
dereferences a null or dangling field pointer. -/
inductive Abort
  | outOfRandomNumbers
  | undefinedBehaviour
  deriving DecidableEq, Repr

/-- The map "from new value to old value" kept by execute for the data copy. -/
abbrev FieldHash := List (QString × QString)

/-- QHash<QString, QString>::value: the empty string when the key is absent. -/
def FieldHash.value (h : FieldHash) (key : QString) : QString := (hashValue h key).getD []

namespace Action

/-- ChangeFieldPropertyAction::updateTableSchema; field is the pointer passed by execute
(none is the null pointer). -/
def updateTableSchemaChange (ext : External) (m_propertyName : QString) (newValue : QVariant)
    (table : KDbTableSchema) (field : Option Nat) (fieldHash : FieldHash) :
    Except Abort (tristate × KDbTableSchema × FieldHash) :=
  if SchemaAlteringRequired &&& alteringTypeForProperty (toLatin1 m_propertyName) ≠ 0 then
    match field with
    | none => .ok (.false, table, fieldHash)
    | some ptr =>
      match table.fieldAt ptr with
      | none => .error .undefinedBehaviour
      | some f =>
        let r := setFieldProperty ext f (toLatin1 m_propertyName) newValue
        .ok (tristate.ofBool r.1, table.setFieldAt ptr r.2, fieldHash)
  else if m_propertyName = "name".toList then
    match field.bind table.fieldAt, field with
    | some f, some ptr =>
      let fieldHash := if fieldHash.value f.name = f.name then hashRemove fieldHash f.name
        else fieldHash
      let fieldHash := hashInsert fieldHash newValue.toString f.name
      .ok (.true, table.renameField ptr newValue.toString, fieldHash)
    | _, _ => .error .undefinedBehaviour
  else .ok (.cancelled, table, fieldHash)

/-- RemoveFieldAction::updateTableSchema. -/
def updateTableSchemaRemove (table : KDbTableSchema) (field : Option Nat) (fieldHash : FieldHash) :
    Except Abort (tristate × KDbTableSchema × FieldHash) :=
  match field.bind table.fieldAt, field with
  | some f, some ptr => .ok (.true, table.removeField ptr, hashRemove fieldHash f.name)
  | _, _ => .error .undefinedBehaviour

/-- InsertFieldAction::updateTableSchema. -/
def updateTableSchemaInsert (m_index : Int) (m_field : KDbField) (table : KDbTableSchema)
    (fieldMap : FieldHash) : Except Abort (tristate × KDbTableSchema × FieldHash) :=
  .ok (.true, table.insertField m_index m_field, hashRemove fieldMap m_field.name)

/-- Virtual call action->updateTableSchema(table, field, fieldHash). Modelled from the spec:
MoveFieldPositionAction inherits the default of ActionBase, declared in KDbAlter.h which is
not among the sources; it changes nothing and succeeds. -/
def updateTableSchema (ext : External) (a : Action) (table : KDbTableSchema) (field : Option Nat)
    (fieldHash : FieldHash) : Except Abort (tristate × KDbTableSchema × FieldHash) :=
  match a.kind with
  | .changeFieldProperty propertyName newValue =>
    updateTableSchemaChange ext propertyName newValue table field fieldHash
  | .removeField => updateTableSchemaRemove table field fieldHash
  | .insertField index f => updateTableSchemaInsert index f table fieldHash
  | .moveFieldPosition _ => .ok (.true, table, fieldHash)

/-- The debugString overrides of the four classes, with QString::arg read as insertion of the
argument at its place marker. -/
def debugString (ext : External) (a : Action) (showUID showFieldDebug : Bool) : QString :=
  let uidText := if showUID then " (UID=".toList ++ intToQString a.fieldUID ++ ")".toList else []
  match a.kind with
  | .changeFieldProperty propertyName newValue =>
    "Set \"".toList ++ propertyName ++ "\" property for table field \"".toList ++ a.fieldName
      ++ "\" to \"".toList ++ newValue.toString ++ "\"".toList ++ uidText
  | .removeField => "Remove table field \"".toList ++ a.fieldName ++ "\"".toList ++ uidText
  | .insertField index f =>
    "Insert table field \"".toList ++ f.name ++ "\" at position ".toList ++ intToQString index
      ++ uidText
      ++ (if showFieldDebug then " (".toList ++ ext.fieldDebugString f ++ ")".toList else [])
  | .moveFieldPosition index =>
    "Move table field \"".toList ++ a.fieldName ++ "\" to position ".toList
      ++ intToQString index ++ uidText

end Action

/-- Modelled from the spec: ExecutionArguments is declared in KDbAlter.h, which is not among
the sources; the members are those execute reads and writes. A debugString of none is the
null pointer. -/
structure ExecutionArguments where
  debugString : Option QString := none
  onlyComputeRequirements : Bool := false
  requirements : Nat := 0
  result : tristate := .false
  simulate : Bool := false
  deriving DecidableEq, Repr

/-- Effect of the debugAction calls of execute on the argument block: the text is appended
to *args->debugString when that pointer is set. -/
def ExecutionArguments.traced (args : ExecutionArguments) (text : QString) : ExecutionArguments :=
  { args with debugString := args.debugString.map fun s => s ++ text }

/-- State of KDbAlterTableHandler: the action list of its private part and the connection
(none is the null pointer). -/
structure KDbAlterTableHandler where
  actions : List Action
  conn : Option KDbConnection

/-- Body of the first loop of execute: the action gets its requirements and its order. -/
def numberAction (a : Action) (allActionsCount : Int) : Action :=
  { a.updateAlteringRequirements with order := allActionsCount }

/-- First loop of execute: every action gets its requirements and its position as order. -/
def numberActions : List Action → Int → List Action
  | [], _ => []
  | a :: rest, allActionsCount =>
    numberAction a allActionsCount :: numberActions rest (allActionsCount + 1)

/-- Variables written by the loop of execute that sorts the surviving actions. -/
structure PlanState where
  actionsVector : List (Option Action)
  currentActionsCount : Int := 0
  requirements : Nat := 0
  fieldsWithChangedMainSchema : List QString := []
  deriving DecidableEq, Repr

/-- Body of the inner loop of execute over the actions of one field. -/
def planStep (ext : External) (st : PlanState) (a : Action) : PlanState :=
  let st := { st with currentActionsCount := st.currentActionsCount + 1 }
  if a.shouldBeRemoved ext then st
  else
    let r := a.alteringRequirements
    { st with
      actionsVector := st.actionsVector.set a.order.toNat (some a)
      requirements := st.requirements ||| r
      fieldsWithChangedMainSchema :=
        if r &&& MainSchemaAlteringRequired ≠ 0 ∧ a.isChangeFieldProperty = true
            ∧ ¬ a.fieldName ∈ st.fieldsWithChangedMainSchema
        then st.fieldsWithChangedMainSchema ++ [a.fieldName]
        else st.fieldsWithChangedMainSchema }

/-- The two nested loops of execute over the map of simplified actions. -/
def planActions (ext : External) (fieldActions : ActionDictDict) (allActionsCount : Nat) :
    PlanState :=
  fieldActions.foldl (fun st e => e.2.foldl (fun st e2 => planStep ext st e2.2) st)
    { actionsVector := List.replicate allActionsCount none }

/-- Text added to *args->debugString by the calls of debugAction over the sorted actions. -/
def debugTrace (ext : External) (actionsVector : List (Option Action)) : QString :=
  actionsVector.flatMap fun slot =>
    match slot with
    | some a =>
      let s := a.debugString ext false true
      if s.isEmpty then [] else s ++ ['\n']
    | none => []

/-- Loop of execute that looks for a temporary table name the connection does not know; the
list is the supply of results of rand(), two per attempt. -/
def tempDestTableName (conn : KDbConnection) (name : QString) : List Nat → Except Abort QString
  | r1 :: r2 :: rest =>
    let candidate := name ++ "_temp".toList ++ Nat.toDigits 16 r1 ++ Nat.toDigits 16 r2
    if (conn.tableSchema candidate).isNone then .ok candidate
    else tempDestTableName conn name rest
  | _ => .error .outOfRandomNumbers

/-- Variables of the loop of execute that updates the table schema in memory. -/
structure MutationState where
  lastUID : Int := -1
  currentField : Option Nat := none
  table : KDbTableSchema
  fieldHash : FieldHash
  deriving DecidableEq, Repr

/-- Loop of execute that applies the sorted actions to the table schema: the result of the
last updateTableSchema call (true when every call succeeded) and the variables. -/
def updateSchemaLoop (ext : External) :
    List (Option Action) → MutationState → Except Abort (tristate × MutationState)
  | [], st => .ok (.true, st)
  | none :: rest, st => updateSchemaLoop ext rest st
  | some action :: rest, st =>
    let st :=
      if st.lastUID ≠ action.fieldUID then
        let currentField := st.table.field ext action.fieldName
        { st with currentField := currentField
                  lastUID := if currentField.isSome then action.fieldUID else -1 }
      else st
    let action :=
      match action.kind with
      | .insertField index f =>
        if index > st.table.fieldCount then
          { action with kind := .insertField st.table.fieldCount f }
        else action
      | _ => action
    match action.updateTableSchema ext st.table st.currentField st.fieldHash with
    | .error e => .error e
    | .ok (result, table, fieldHash) =>
      let st := { st with table := table, fieldHash := fieldHash }
      if result ≠ .true then .ok (result, st) else updateSchemaLoop ext rest st

/-- Variables of the loop of execute that builds the INSERT ... SELECT statement. -/
structure CopyState where
  first : Bool := true
  sql : QString
  sourceFields : QString := []
  deriving DecidableEq, Repr

/-- Source expression chosen for a destination field; empty when the field is left out. -/
def sourceSQLString (ext : External) (conn : KDbConnection) (fieldHash : FieldHash)
    (f : KDbField) : QString :=
  let renamedFieldName := fieldHash.value f.name
  let type := f.type
  if !renamedFieldName.isEmpty then conn.escapeIdentifier renamedFieldName
  else if !f.defaultValue.isNull then conn.valueToSQL type f.defaultValue
  else if f.isNotNull then conn.valueToSQL type (emptyValueForFieldType ext type)
  else if f.isNotEmpty then conn.valueToSQL type (notEmptyValueForFieldType ext type)
  else []

/-- Body of the loop over the fields of the new table. -/
def copyStep (ext : External) (conn : KDbConnection) (fieldHash : FieldHash) (st : CopyState)
    (f : KDbField) : CopyState :=
  let source := sourceSQLString ext conn fieldHash f
  if !source.isEmpty then
    let st := if st.first then { st with first := false }
      else { st with sql := st.sql ++ ", ".toList, sourceFields := st.sourceFields ++ ", ".toList }
    { st with sql := st.sql ++ conn.escapeIdentifier f.name
              sourceFields := st.sourceFields ++ source }
  else st

/-- The "INSERT INTO ... SELECT ... FROM ..." statement built by execute. -/
def copyStatement (ext : External) (conn : KDbConnection) (newTable : KDbTableSchema)
    (fieldHash : FieldHash) (oldTable : KDbTableSchema) : QString :=
  let st := (newTable.fields.map fun e => e.2).foldl (copyStep ext conn fieldHash)
    { sql := "INSERT INTO ".toList ++ conn.escapeIdentifier newTable.name ++ " (".toList }
  st.sql ++ ") SELECT ".toList ++ st.sourceFields ++ " FROM ".toList ++ oldTable.name

/-- Loop of the in-place path over the fields with a changed main schema. -/
def storeChangedFields (ext : External) (newTable : KDbTableSchema) :
    List QString → KDbConnection → Bool × KDbConnection
  | [], conn => (true, conn)
  | name :: rest, conn =>
    match (newTable.field ext name).bind newTable.fieldAt with
    | some f =>
      let r := conn.storeMainFieldSchema f
      if !r.1 then (false, r.2) else storeChangedFields ext newTable rest r.2
    | none => storeChangedFields ext newTable rest conn

/-- The pointer returned by execute: null, the table object of the connection, or the newly
allocated table object. -/
inductive ReturnedTable
  | null
  | oldTable (t : KDbTableSchema)
  | newTable (t : KDbTableSchema)
  deriving DecidableEq, Repr

/-- What a call of execute leaves behind: the returned pointer, the argument block and the
handler with its action list and connection. -/
structure Executed where
  returned : ReturnedTable
  args : ExecutionArguments
  handler : KDbAlterTableHandler

/-- Commit part of execute for a non-zero aggregate (from "Create a new KDbTableSchema" to the
end): the rebuild path when recreateTable is set, the in-place path otherwise. On the
in-place path newTable is the table object of the connection, so every change made to it is
a change of the connection's table. -/
def commitActions (ext : External) (conn : KDbConnection) (actions : List Action)
    (oldTable : KDbTableSchema) (plan : PlanState) (args : ExecutionArguments)
    (rands : List Nat) : Except Abort Executed :=
  let recreateTable : Bool := plan.requirements &&& PhysicalAlteringRequired ≠ 0
  let named : Except Abort KDbTableSchema :=
    if recreateTable then
      (tempDestTableName conn oldTable.name rands).map fun n => oldTable.setName n
    else .ok oldTable
  match named with
  | .error e => .error e
  | .ok newTable =>
  let fieldHash : FieldHash :=
    (newTable.fields.map fun e => e.2).foldl (fun h f => hashInsert h f.name f.name) []
  match updateSchemaLoop ext plan.actionsVector { table := newTable, fieldHash := fieldHash } with
  | .error e => .error e
  | .ok (result, st) =>
  let newTable := st.table
  let conn := if recreateTable then conn
    else { conn with tables := KDbConnection.replaceTable conn.tables oldTable.name newTable }
  if result ≠ .true then
    .ok { returned := .null, args := { args with result := result },
          handler := { actions := actions, conn := some conn } }
  else
  let failed (conn : KDbConnection) : Except Abort Executed :=
    .ok { returned := .null, args := { args with result := .false },
          handler := { actions := actions, conn := some conn } }
  let created : Bool × KDbConnection :=
    if recreateTable then conn.createTable newTable else (true, conn)
  if !created.1 then failed created.2 else
  let stored := created.2.storeExtendedTableSchemaData newTable
  if !stored.1 then failed stored.2 else
  if recreateTable then
    let sql := copyStatement ext stored.2 newTable st.fieldHash oldTable
    let copied := stored.2.executeSQL sql
    if !copied.1 then failed copied.2 else
    let renamed := copied.2.alterTableName newTable oldTable.name true
    if !renamed.1 then failed renamed.2 else
    .ok { returned := .newTable (newTable.setName oldTable.name),
          args := { args with result := .true },
          handler := { actions := actions, conn := some renamed.2 } }
  else
    let written : Bool × KDbConnection :=
      if MainSchemaAlteringRequired &&& plan.requirements ≠ 0
          ∧ plan.fieldsWithChangedMainSchema ≠ [] then
        storeChangedFields ext newTable plan.fieldsWithChangedMainSchema stored.2
      else (true, stored.2)
    if !written.1 then failed written.2 else
    .ok { returned := .oldTable newTable, args := { args with result := .true },
          handler := { actions := actions, conn := some written.2 } }

/-- KDbAlterTableHandler::execute(tableName, args); rands is the supply of results of rand(). -/
def KDbAlterTableHandler.execute (ext : External) (h : KDbAlterTableHandler) (tableName : QString)
    (args : ExecutionArguments) (rands : List Nat) : Except Abort Executed :=
  let args := { args with result := .false }
  match h.conn with
  | none => .ok { returned := .null, args := args, handler := h }
  | some conn =>
  if conn.isReadOnly then .ok { returned := .null, args := args, handler := h } else
  if !conn.isDatabaseUsed then .ok { returned := .null, args := args, handler := h } else
  match conn.tableSchema tableName with
  | none => .ok { returned := .null, args := args, handler := h }
  | some oldTable =>
  let numbered := numberActions h.actions 0
  let allActionsCount := numbered.length
  let simplified := simplifyLoop ext numbered []
  let actions := simplified.1
  let fieldActions := simplified.2
  let plan := planActions ext fieldActions allActionsCount
  let args := { args with requirements := plan.requirements }
  let h := { h with actions := actions }
  if args.onlyComputeRequirements then
    .ok { returned := .null, args := { args with result := .true }, handler := h }
  else
  let args := args.traced (debugTrace ext plan.actionsVector)
  if args.requirements = 0 then
    .ok { returned := .oldTable oldTable, args := { args with result := .true }, handler := h }
  else if args.simulate then
    .ok { returned := .oldTable oldTable, args := { args with result := .true }, handler := h }
  else commitActions ext conn actions oldTable plan args rands

/-! ## Example inputs -/

/-- An external behaviour in which the three KDbField setters store the value they are given
and the case-insensitive operations of QString fold the letters of the Latin-1 range, which
is what Qt does on the names used in the examples. -/
def exampleExternal : External :=
  { constraintsFor := fun _ c => c, maxLengthFor := fun _ n => n, precisionFor := fun _ p => p,
    lookupSetProperty := fun _ _ => false, currentDate := .dateTime "2000-01-01".toList,
    currentDateTime := .dateTime "2000-01-01T00:00:00".toList,
    currentTime := .dateTime "00:00:00".toList, fieldDebugString := fun f => f.name,
    caseInsensitiveEqual := fun a b => a.map lowerLatin1 == b.map lowerLatin1,
    lowerCased := fun a => a.map lowerLatin1 }

/-- The table T(a INT, b TEXT NOT NULL) of the spec. -/
def exampleTable : KDbTableSchema :=
  { name := "T".toList,
    fields := [(0, { name := "a".toList, type := .Integer }),
               (1, { name := "b".toList, type := .Text, constraints := NotNull })] }

/-- A writable connection with a database in use that knows the example table; identifiers
are escaped as themselves and a value is written between single quotes, null as NULL. -/
def exampleConnection : KDbConnection :=
  { isReadOnly := false, isDatabaseUsed := true, tables := [exampleTable],
    escapeIdentifier := fun s => s,
    valueToSQL := fun _ v => if v.isNull then "NULL".toList else ['\''] ++ v.toString ++ ['\''] }

/-- The action rename(u, old -> new): a change of the property "name". -/
def renameAction (uid : Int) (oldName newName : QString) : Action :=
  ChangeFieldPropertyAction oldName "name".toList (.string newName) uid

/-- Kind of a storage call, for stating which calls a run made. -/
def StorageCall.kindName : StorageCall → String
  | .createTable _ => "createTable"
  | .storeExtendedTableSchemaData _ => "storeExtendedTableSchemaData"
  | .executeSQL _ => "executeSQL"
  | .alterTableName _ _ _ => "alterTableName"
  | .storeMainFieldSchema _ => "storeMainFieldSchema"

/-- Statements passed to executeSQL among the recorded calls. -/
def executedSQL (calls : List StorageCall) : List QString :=
  calls.filterMap fun k =>
    match k with
    | .executeSQL sql => some sql
    | _ => none

/-- The items with ", " between them. -/
def commaSeparated : List QString → QString
  | [] => []
  | [x] => x
  | x :: y :: rest => x ++ ", ".toList ++ commaSeparated (y :: rest)

/-- Text of the statement that copies the listed (destination column, source expression)
pairs from the source table into the destination table. -/
def insertSelectStatement (dest : QString) (columns : List (QString × QString))
    (source : QString) : QString :=
  "INSERT INTO ".toList ++ dest ++ " (".toList ++ commaSeparated (columns.map Prod.fst)
    ++ ") SELECT ".toList ++ commaSeparated (columns.map Prod.snd) ++ " FROM ".toList ++ source

/-- The (escaped destination column, source expression) pairs of the fields that the copy
loop of execute does not leave out. -/
def copyColumns (ext : External) (conn : KDbConnection) (fieldHash : FieldHash)
    (fields : List KDbField) : List (QString × QString) :=
  fields.filterMap fun f =>
    if (sourceSQLString ext conn fieldHash f).isEmpty then none
    else some (conn.escapeIdentifier f.name, sourceSQLString ext conn fieldHash f)

/-- Requirements that the actions of one dictionary add to the aggregate: those of the
actions that shouldBeRemoved keeps. -/
def survivingRequirements (ext : External) (dict : ActionDict) : Nat :=
  (dict.map fun e => if e.2.shouldBeRemoved ext then 0 else e.2.alteringRequirements).foldr
    (fun r acc => r ||| acc) 0

/-- Bitwise OR of the requirements of all actions of the map that shouldBeRemoved keeps. -/
def aggregateRequirements (ext : External) (fieldActions : ActionDictDict) : Nat :=
  (fieldActions.map fun e => survivingRequirements ext e.2).foldr (fun r acc => r ||| acc) 0

/-- The example connection with an executeSQL that fails. -/
def failingCopyConnection : KDbConnection := { exampleConnection with executeSQLOk := false }

/-- Variables of the schema-update loop after remove(a) was applied to the copy of the
example table named T_tempab (rand() returned 10 and 11). -/
def exampleStateAfterRemove : MutationState :=
  { lastUID := 1, currentField := some 0,
    table := { name := "T_tempab".toList,
               fields := [(1, { name := "b".toList, type := .Text, constraints := NotNull })] },
    fieldHash := [("b".toList, "b".toList)] }

/-- Set built by the constructor of KDb_BuiltinFieldProperties (KDb.cpp). -/
def KDb_builtinFieldProperties : List QByteArray :=
  ["type".toList, "primaryKey".toList, "indexed".toList, "autoIncrement".toList,
   "unique".toList, "notNull".toList, "allowEmpty".toList, "unsigned".toList, "name".toList,
   "caption".toList, "description".toList, "maxLength".toList, "maxLengthIsDefault".toList,
   "precision".toList, "defaultValue".toList, "defaultWidth".toList,
   "visibleDecimalPlaces".toList]

/-- KDb::isBuiltinTableFieldProperty. -/
def isBuiltinTableFieldProperty (propertyName : QByteArray) : Bool :=
  KDb_builtinFieldProperties.contains propertyName

/-- Actions of the submitted list that simplifyActions may write to: an InsertFieldAction (its
field definition and field name) and a change of the property "name" (its new value). -/
def Action.mayBeRewritten (a : Action) : Bool :=
  match a.kind with
  | .insertField _ _ => true
  | .changeFieldProperty propertyName _ => propertyName == "name".toList
  | _ => false

/-- A text field d, as submitted with an InsertFieldAction in the examples. -/
def exampleInsertedField : KDbField := { name := "d".toList, type := .Text }

/-- The actions held by one dictionary, in the order of its entries. -/
def dictActions (d : ActionDict) : List Action := d.map Prod.snd

/-- All actions held by the map of dictionaries of simplified actions. -/
def allActions (fieldActions : ActionDictDict) : List Action :=
  fieldActions.flatMap fun e => dictActions e.2

/-- Comparison of the class-specific members of two actions, the field definition carried by
an InsertFieldAction apart. -/
def ActionKind.sameExceptField : ActionKind → ActionKind → Bool
  | .insertField i _, .insertField j _ => i == j
  | k1, k2 => k1 == k2

/-- The action a is a copy of b: same order, same field UID and same class-specific members
(the carried field definition apart); the field name may have been rewritten. -/
def Action.isCopyOf (a b : Action) : Prop :=
  a.order = b.order ∧ a.fieldUID = b.fieldUID ∧ a.kind.sameExceptField b.kind = true

/-- Two action objects that agree in order, field UID and class-specific members; only the
field name (and the stored requirements) may differ. -/
def Action.sameApartFromName (a a0 : Action) : Prop :=
  a.order = a0.order ∧ a.fieldUID = a0.fieldUID ∧ a.kind = a0.kind

/-- Result of dynamic_cast to MoveFieldPositionAction: true when the cast succeeds. -/
def Action.isMoveFieldPosition (a : Action) : Bool :=
  match a.kind with
  | .moveFieldPosition _ => true
  | _ => false

/-- The name that one attempt of the temporary-name loop of execute generates from two
results of rand(). -/
def tempNameCandidate (name : QString) (r1 r2 : Nat) : QString :=
  name ++ "_temp".toList ++ Nat.toDigits 16 r1 ++ Nat.toDigits 16 r2

/-- The example connection when it also knows a table named T_temp00. -/
def collidingConnection : KDbConnection :=
  { exampleConnection with
    tables := [exampleTable, { exampleTable with name := "T_temp00".toList }] }

/-- The source expression of a destination field as the specification words it, by first
match: the escaped source column when the tracking map has a non-empty entry for the name of
the field, else the literal of a non-null default value, else the literal of the empty value
of the type for a NOT NULL field, else the literal of the non-empty value of the type for a
NOT EMPTY field; none when the field is left out of the statement. -/
def specSourceExpression (ext : External) (conn : KDbConnection) (fieldHash : FieldHash)
    (f : KDbField) : Option QString :=
  if fieldHash.value f.name ≠ [] then some (conn.escapeIdentifier (fieldHash.value f.name))
  else if f.defaultValue.isNull = false then some (conn.valueToSQL f.type f.defaultValue)
  else if f.isNotNull = true then
    some (conn.valueToSQL f.type (emptyValueForFieldType ext f.type))
  else if f.isNotEmpty = true then
    some (conn.valueToSQL f.type (notEmptyValueForFieldType ext f.type))
  else none

/-- Variables of the schema-update loop after change(a, caption, X) was applied to the
example table in place. -/
def exampleStateAfterCaption : MutationState :=
  { lastUID := 1, currentField := some 0,
    table := { name := "T".toList,
               fields := [(0, { name := "a".toList, type := .Integer, caption := "X".toList }),
                          (1, { name := "b".toList, type := .Text, constraints := NotNull })] },
    fieldHash := [("a".toList, "a".toList), ("b".toList, "b".toList)] }

/-- Result of dynamic_cast to InsertFieldAction: true when the cast succeeds. -/
def Action.isInsertField (a : Action) : Bool :=
  match a.kind with
  | .insertField _ _ => true
  | _ => false

/-- The key under which simplifyActions records an action of each class in the dictionary of
its field: the Latin-1 form of the property name, ":remove:" or ":insert:". A
MoveFieldPositionAction is never recorded; it gets the empty key here. -/
def Action.key (a : Action) : QByteArray :=
  match a.kind with
  | .changeFieldProperty propertyName _ => toLatin1 propertyName
  | .removeField => ":remove:".toList
  | .insertField _ _ => ":insert:".toList
  | .moveFieldPosition _ => []

/-- The action recorded for a field under a key: fieldActions.value(uid), then value(key) on
the dictionary found. -/
def lookupAction (fieldActions : ActionDictDict) (uid : Int) (key : QByteArray) : Option Action :=
  (hashValue fieldActions uid).bind fun d => hashValue d key

/-- The actions held by the map after a pass, taken in ascending order of their order
numbers. -/
def survivingActions (fieldActions : ActionDictDict) : List Action :=
  (allActions fieldActions).insertionSort fun a b => a.order ≤ b.order

/-- Shape of the dictionary of the field u during the backward pass: keys are unique; every
action is recorded for its own field under the key of its class; an action under ":remove:"
has the lowest order of the dictionary and an InsertFieldAction the highest; and a change of
the property "name" has no change of higher order recorded under its new name. -/
def DictOk (u : Int) (d : ActionDict) : Prop :=
  (d.map Prod.fst).Nodup ∧
  ∀ k a, hashValue d k = some a →
    a.fieldUID = u ∧ a.key = k ∧ a.isMoveFieldPosition = false
    ∧ (∀ k2 b, hashValue d k2 = some b → k2 ≠ k →
        (k = ":remove:".toList → a.order < b.order)
        ∧ (a.isInsertField = true → b.order < a.order))
    ∧ (∀ v b, a.kind = .changeFieldProperty "name".toList v →
        hashValue d (toLatin1 v.toString) = some b → b.isChangeFieldProperty = true →
        b.order ≤ a.order)

/-- Shape of the map of simplified actions: field UIDs are unique and every dictionary has
the shape DictOk. -/
def MapOk (fieldActions : ActionDictDict) : Prop :=
  (fieldActions.map Prod.fst).Nodup ∧
  ∀ u d, hashValue fieldActions u = some d → DictOk u d

/-- The action a, met by the backward pass after b was recorded, is recorded as it stands:
if b belongs to the same field, then a is not an insert and, when a is a change, b is not
under ":remove:" and b is neither under the key of the changed property nor, for a change of
the property "name", a change recorded under the new name. -/
def Action.recordedBefore (a b : Action) : Prop :=
  b.fieldUID = a.fieldUID →
    match a.kind with
    | .changeFieldProperty propertyName newValue =>
      b.key ≠ ":remove:".toList ∧
      if propertyName = "name".toList then
        (b.key = toLatin1 newValue.toString → b.isChangeFieldProperty = false)
      else b.key ≠ toLatin1 propertyName
    | .removeField => True
    | .insertField _ _ => False
    | .moveFieldPosition _ => True


/-! ## Lemmas on the association lists -/

theorem hashValue_hashInsert_self {K V : Type} [DecidableEq K] (h : List (K × V)) (k : K) (v : V) :
    hashValue (hashInsert h k v) k = some v := by
  induction h with
  | nil => simp [hashInsert, hashValue]
  | cons e rest ih =>
    obtain ⟨k1, v1⟩ := e
    by_cases hk : k1 = k
    · simp [hashInsert, hashValue, hk]
    · simp [hashInsert, hashValue, hk, ih]

theorem hashValue_hashInsert_ne {K V : Type} [DecidableEq K] (h : List (K × V)) (k k2 : K) (v : V)
    (hne : k ≠ k2) : hashValue (hashInsert h k v) k2 = hashValue h k2 := by
  induction h with
  | nil => simp [hashInsert, hashValue, hne]
  | cons e rest ih =>
    obtain ⟨k1, v1⟩ := e
    by_cases hk : k1 = k
    · subst hk; simp [hashInsert, hashValue, hne]
    · by_cases hk2 : k1 = k2
      · subst hk2; simp [hashInsert, hashValue, hk]
      · simp [hashInsert, hashValue, hk, hk2, ih]

theorem hashValue_hashRemove_ne {K V : Type} [DecidableEq K] (h : List (K × V)) (k k2 : K)
    (hne : k ≠ k2) : hashValue (hashRemove h k) k2 = hashValue h k2 := by
  induction h with
  | nil => simp [hashRemove, hashValue]
  | cons e rest ih =>
    obtain ⟨k1, v1⟩ := e
    simp only [hashRemove, ne_eq, decide_not] at ih ⊢
    by_cases hk : k1 = k
    · subst hk; simp [hashValue, hne, ih]
    · simp [hashValue, hk, ih]

/-! ## Actions of other fields leave the dictionary of a field alone -/

theorem simplifyActions_other (ext : External) (a : Action) (fa : ActionDictDict) (u : Int)
    (hne : a.fieldUID ≠ u) : hashValue (a.simplifyActions ext fa).2 u = hashValue fa u := by
  unfold Action.simplifyActions
  cases hk : a.kind with
  | changeFieldProperty p v =>
    simp only [Action.simplifyChangeFieldProperty]
    repeat' split
    all_goals first
      | rfl
      | simp [hashValue_hashInsert_ne _ _ _ _ hne]
  | removeField => simp [Action.simplifyRemoveField, hashValue_hashInsert_ne _ _ _ _ hne]
  | insertField i f =>
    simp only [Action.simplifyInsertField]
    repeat' split
    all_goals first
      | rfl
      | simp [hashValue_hashInsert_ne _ _ _ _ hne, hashValue_hashRemove_ne _ _ _ hne]
  | moveFieldPosition i => rfl

theorem simplifyLoop_other (ext : External) (l : List Action) (fa : ActionDictDict) (u : Int)
    (hne : ∀ a ∈ l, a.fieldUID ≠ u) : hashValue (simplifyLoop ext l fa).2 u = hashValue fa u := by
  induction l with
  | nil => rfl
  | cons a rest ih =>
    simp only [simplifyLoop]
    rw [simplifyActions_other ext a _ u (hne a (List.mem_cons_self _ _))]
    exact ih fun b hb => hne b (List.mem_cons_of_mem _ hb)

/-! ## A remove absorbs the earlier changes of its field -/

theorem simplifyChange_under_remove (ext : External) (a r : Action) (fa : ActionDictDict)
    (hchange : a.isChangeFieldProperty = true) (hr : r.kind = .removeField)
    (hfa : hashValue fa a.fieldUID = some [(":remove:".toList, r)]) :
    ∃ name, hashValue (a.simplifyActions ext fa).2 a.fieldUID
      = some [(":remove:".toList, r.setFieldName name)] := by
  unfold Action.simplifyActions
  cases hk : a.kind with
  | changeFieldProperty p v =>
    simp only [Action.simplifyChangeFieldProperty, hfa]
    by_cases hp : p = ['n', 'a', 'm', 'e']
    · refine ⟨a.fieldName, ?_⟩
      by_cases hn : [':', 'r', 'e', 'm', 'o', 'v', 'e', ':'] = toLatin1 v.toString
      · simp [hp, hashValue, hn.symm, hr, Action.renameAll, hashValue_hashInsert_self]
      · simp [hp, hashValue, hn, Action.renameAll, hashValue_hashInsert_self]
    · refine ⟨r.fieldName, ?_⟩
      simp [hp, hashValue, hfa, Action.setFieldName]
  | removeField => simp [Action.isChangeFieldProperty, hk] at hchange
  | insertField i f => simp [Action.isChangeFieldProperty, hk] at hchange
  | moveFieldPosition i => simp [Action.isChangeFieldProperty, hk] at hchange

theorem simplifyLoop_before_remove (ext : External) (u : Int) (pre l : List Action)
    (fa : ActionDictDict) (r : Action) (hr : r.kind = .removeField)
    (hpre : ∀ a ∈ pre, a.fieldUID = u → a.isChangeFieldProperty = true)
    (h0 : ∃ name, hashValue (simplifyLoop ext l fa).2 u
      = some [(":remove:".toList, r.setFieldName name)]) :
    ∃ name, hashValue (simplifyLoop ext (pre ++ l) fa).2 u
      = some [(":remove:".toList, r.setFieldName name)] := by
  induction pre with
  | nil => simpa using h0
  | cons a rest ih =>
    obtain ⟨name, hname⟩ := ih fun b hb => hpre b (List.mem_cons_of_mem _ hb)
    simp only [List.cons_append, simplifyLoop]
    by_cases hu : a.fieldUID = u
    · subst hu
      obtain ⟨n2, hn2⟩ := simplifyChange_under_remove ext a (r.setFieldName name) _
        (hpre a (List.mem_cons_self _ _) rfl) (by simpa [Action.setFieldName] using hr) hname
      exact ⟨n2, by simpa [Action.setFieldName] using hn2⟩
    · exact ⟨name, by rw [simplifyActions_other ext a _ u hu]; exact hname⟩

theorem simplifyLoop_remove_last (ext : External) (u : Int) (r : Action) (post : List Action)
    (hr : r.kind = .removeField) (hru : r.fieldUID = u) (hpost : ∀ a ∈ post, a.fieldUID ≠ u) :
    hashValue (simplifyLoop ext (r :: post) []).2 u = some [(":remove:".toList, r)] := by
  have h := simplifyLoop_other ext post [] u hpost
  simp only [simplifyLoop, Action.simplifyActions, hr, Action.simplifyRemoveField, hru, h]
  simp [hashValue, hashValue_hashInsert_self, hashInsert]

/-! ## C3 and C4: remove after changes, insert before remove -/

theorem simplifyLoop_changes_then_remove (ext : External) (u : Int) (pre post : List Action)
    (r : Action) (hr : r.kind = .removeField) (hru : r.fieldUID = u)
    (hpre : ∀ a ∈ pre, a.fieldUID = u → a.isChangeFieldProperty = true)
    (hpost : ∀ a ∈ post, a.fieldUID ≠ u) :
    ∃ name, hashValue (simplifyLoop ext (pre ++ r :: post) []).2 u
      = some [(":remove:".toList, r.setFieldName name)] := by
  apply simplifyLoop_before_remove ext u pre (r :: post) [] r hr hpre
  exact ⟨r.fieldName, by
    rw [simplifyLoop_remove_last ext u r post hr hru hpost]; rfl⟩

/-- C3 (amended): when remove(u) is the last action on field u and every earlier action on u
is a property change or a rename (no insert of u before the remove), the dictionary of u
after the backward pass holds exactly one action, under the key ":remove:", and it is the
RemoveField action (its recorded field name may have been rewritten by an earlier rename).
Actions on other fields may stand anywhere in the list. -/
theorem remove_absorbs_earlier_changes (ext : External) (u : Int) (pre post : List Action)
    (r : Action) (hr : r.kind = .removeField) (hru : r.fieldUID = u)
    (hpre : ∀ a ∈ pre, a.fieldUID = u → a.isChangeFieldProperty = true)
    (hpost : ∀ a ∈ post, a.fieldUID ≠ u) :
    ∃ name, hashValue (simplifyLoop ext (pre ++ r :: post) []).2 u
      = some [(":remove:".toList, r.setFieldName name)] :=
  simplifyLoop_changes_then_remove ext u pre post r hr hru hpre hpost

/-- Witness of C3 (amended): a caption change and a rename of field 1, then its removal. -/
theorem remove_absorbs_earlier_changes_witness :
    ∃ name, hashValue (simplifyLoop exampleExternal
        ([ChangeFieldPropertyAction "a".toList "caption".toList (.string "x".toList) 1,
          renameAction 1 "a".toList "b".toList]
          ++ RemoveFieldAction "b".toList 1 :: []) []).2 1
      = some [(":remove:".toList, (RemoveFieldAction "b".toList 1).setFieldName name)] :=
  remove_absorbs_earlier_changes exampleExternal 1 _ [] _ rfl rfl (by decide) (by decide)

/-- C3 as stated fails: an insert of the field before its removal cancels the remove, so the
dictionary of the field is left with no action at all, not with the single remove. -/
theorem remove_absorbs_insert_counterexample :
    ¬ ∃ key a, hashValue (simplifyLoop exampleExternal
        [InsertFieldAction 0 { name := "d".toList, type := .Text } 1,
         RemoveFieldAction "d".toList 1] []).2 1 = some [(key, a)] := by
  have h : hashValue (simplifyLoop exampleExternal
        [InsertFieldAction 0 { name := "d".toList, type := .Text } 1,
         RemoveFieldAction "d".toList 1] []).2 1 = some [] := by decide
  rw [h]
  simp

/-- C4: for the list [insert(u, def), ..., remove(u)], where every action on u between the
two is a property change or a rename, the dictionary of u after the backward pass is empty:
no ":insert:", no ":remove:" and no property key. Actions on other fields may stand between
and after them. -/
theorem insert_then_remove_leaves_nothing (ext : External) (u index : Int) (def_ : KDbField)
    (name : QString) (mid post : List Action)
    (hmid : ∀ a ∈ mid, a.fieldUID = u → a.isChangeFieldProperty = true)
    (hpost : ∀ a ∈ post, a.fieldUID ≠ u) :
    hashValue (simplifyLoop ext
      (InsertFieldAction index def_ u :: (mid ++ RemoveFieldAction name u :: post)) []).2 u
      = some [] := by
  obtain ⟨n, hn⟩ := simplifyLoop_changes_then_remove ext u mid post (RemoveFieldAction name u)
    rfl rfl hmid hpost
  simp only [simplifyLoop, Action.simplifyActions, InsertFieldAction,
    Action.simplifyInsertField, hn]
  simp [hashValue, hashRemove, hashValue_hashInsert_self]

/-- Witness of C4: insert of field 1, a caption change and a rename of it, then its removal. -/
theorem insert_then_remove_leaves_nothing_witness :
    hashValue (simplifyLoop exampleExternal
      (InsertFieldAction 0 { name := "d".toList, type := .Text } 1
        :: ([ChangeFieldPropertyAction "d".toList "caption".toList (.string "x".toList) 1,
             renameAction 1 "d".toList "e".toList]
            ++ RemoveFieldAction "e".toList 1 :: [])) []).2 1 = some [] :=
  insert_then_remove_leaves_nothing exampleExternal 1 0 _ _ _ [] (by decide) (by decide)

/-! ## C5: an insert folds a later property change -/

theorem copyColumns_cons (ext : External) (conn : KDbConnection) (fieldHash : FieldHash)
    (f : KDbField) (rest : List KDbField) :
    copyColumns ext conn fieldHash (f :: rest)
      = if (sourceSQLString ext conn fieldHash f).isEmpty = true
        then copyColumns ext conn fieldHash rest
        else (conn.escapeIdentifier f.name, sourceSQLString ext conn fieldHash f)
          :: copyColumns ext conn fieldHash rest := by
  by_cases hs : (sourceSQLString ext conn fieldHash f).isEmpty = true
  · rw [if_pos hs]; unfold copyColumns; rw [List.filterMap_cons, if_pos hs]
  · rw [if_neg hs]; unfold copyColumns; rw [List.filterMap_cons, if_neg hs]

theorem copyStep_foldl (ext : External) (conn : KDbConnection) (fieldHash : FieldHash)
    (fields : List KDbField) (st : CopyState) :
    fields.foldl (copyStep ext conn fieldHash) st
      = match copyColumns ext conn fieldHash fields with
        | [] => st
        | c :: cs =>
          { first := false
            sql := st.sql ++ (if st.first then [] else ", ".toList)
              ++ commaSeparated ((c :: cs).map Prod.fst)
            sourceFields := st.sourceFields ++ (if st.first then [] else ", ".toList)
              ++ commaSeparated ((c :: cs).map Prod.snd) } := by
  induction fields generalizing st with
  | nil => rfl
  | cons f rest ih =>
    rw [List.foldl_cons, ih, copyColumns_cons]
    by_cases hs : (sourceSQLString ext conn fieldHash f).isEmpty = true
    · simp [copyStep, hs]
    · cases hrest : copyColumns ext conn fieldHash rest with
      | nil =>
        cases hf : st.first <;> simp [copyStep, hs, hf, commaSeparated]
      | cons c cs =>
        cases hf : st.first <;>
          simp [copyStep, hs, hf, commaSeparated, List.append_assoc]

theorem copyStatement_eq (ext : External) (conn : KDbConnection) (newTable oldTable : KDbTableSchema)
    (fieldHash : FieldHash) :
    copyStatement ext conn newTable fieldHash oldTable
      = insertSelectStatement (conn.escapeIdentifier newTable.name)
          (copyColumns ext conn fieldHash (newTable.fields.map fun e => e.2)) oldTable.name := by
  simp only [copyStatement, copyStep_foldl, insertSelectStatement]
  cases copyColumns ext conn fieldHash (newTable.fields.map fun e => e.2) with
  | nil => simp [commaSeparated]
  | cons c cs => simp [List.append_assoc]

/-! ## C8: the copy statement after a single insert -/

theorem hashValue_initialFieldHash (fs : List KDbField) (h0 : FieldHash) (n : QString) :
    hashValue (fs.foldl (fun h f => hashInsert h f.name f.name) h0) n
      = if n ∈ fs.map (fun f => f.name) then some n else hashValue h0 n := by
  induction fs generalizing h0 with
  | nil => simp
  | cons f rest ih =>
    rw [List.foldl_cons, ih]
    by_cases hn : n ∈ rest.map (fun f => f.name)
    · simp [hn]
    · by_cases hf : f.name = n
      · subst hf; simp [hashValue_hashInsert_self]
      · have hf2 : ¬ n = f.name := fun h => hf h.symm
        simp [hn, hf2, hashValue_hashInsert_ne _ _ _ _ hf]

theorem single_insert_plan (ext : External) (index u : Int) (d : KDbField) :
    simplifyLoop ext (numberActions [InsertFieldAction index d u] 0) []
      = ([numberAction (InsertFieldAction index d u) 0],
         [(u, [(":insert:".toList, numberAction (InsertFieldAction index d u) 0)])]) := rfl

theorem single_insert_planActions (ext : External) (index u : Int) (d : KDbField) :
    planActions ext [(u, [(":insert:".toList, numberAction (InsertFieldAction index d u) 0)])] 1
      = { actionsVector := [some (numberAction (InsertFieldAction index d u) 0)],
          currentActionsCount := 1, requirements := 1, fieldsWithChangedMainSchema := [] } := by
  simp [planActions, planStep, Action.shouldBeRemoved, numberAction, InsertFieldAction,
    Action.updateAlteringRequirements, PhysicalAlteringRequired, MainSchemaAlteringRequired,
    Action.isChangeFieldProperty]

theorem updateSchemaLoop_single_insert (ext : External) (index u : Int) (d : KDbField)
    (st : MutationState) (hindex : 0 ≤ index) :
    ∃ st1, updateSchemaLoop ext [some (numberAction (InsertFieldAction index d u) 0)] st
        = .ok (.true, st1)
      ∧ st1.table = ⟨st.table.name, st.table.fields.insertIdx
            (min index st.table.fieldCount).toNat (st.table.freshAddress, d)⟩
      ∧ st1.fieldHash = hashRemove st.fieldHash d.name := by
  simp only [updateSchemaLoop, numberAction, InsertFieldAction,
    Action.updateAlteringRequirements, Action.updateTableSchema,
    Action.updateTableSchemaInsert]
  by_cases hl : st.lastUID = u
  · by_cases hgt : index > st.table.fieldCount
    · have hmin : min index st.table.fieldCount = st.table.fieldCount :=
        min_eq_right (le_of_lt hgt)
      simp only [hl, hgt, ne_eq, not_true_eq_false, if_false, if_true]
      have hnn : ¬ ((st.table.fields.length : Int) < 0) := by omega
      refine ⟨_, rfl, ?_, rfl⟩
      rw [hmin]
      simp [KDbTableSchema.insertField, KDbTableSchema.fieldCount, hnn]
    · have hmin : min index st.table.fieldCount = index := min_eq_left (not_lt.mp hgt)
      have hc : ¬ (index < 0 ∨ index > st.table.fieldCount) := by
        push_neg; exact ⟨hindex, not_lt.mp hgt⟩
      simp only [hl, hgt, ne_eq, not_true_eq_false, if_false]
      refine ⟨_, rfl, ?_, rfl⟩
      simp [KDbTableSchema.insertField, hmin, hc]
  · by_cases hgt : index > st.table.fieldCount
    · have hmin : min index st.table.fieldCount = st.table.fieldCount :=
        min_eq_right (le_of_lt hgt)
      simp only [hl, hgt, ne_eq, not_false_eq_true, if_true]
      have hnn : ¬ ((st.table.fields.length : Int) < 0) := by omega
      refine ⟨_, rfl, ?_, rfl⟩
      rw [hmin]
      simp [KDbTableSchema.insertField, KDbTableSchema.fieldCount, hnn]
    · have hmin : min index st.table.fieldCount = index := min_eq_left (not_lt.mp hgt)
      have hc : ¬ (index < 0 ∨ index > st.table.fieldCount) := by
        push_neg; exact ⟨hindex, not_lt.mp hgt⟩
      simp only [hl, hgt, ne_eq, not_false_eq_true, if_true, if_false]
      refine ⟨_, rfl, ?_, rfl⟩
      simp [KDbTableSchema.insertField, hmin, hc]

/-! ## The stages of execute -/

theorem execute_commit (ext : External) (actions : List Action) (conn : KDbConnection)
    (tableName : QString) (oldTable : KDbTableSchema) (args : ExecutionArguments)
    (rands : List Nat)
    (hro : conn.isReadOnly = false) (hdb : conn.isDatabaseUsed = true)
    (ht : conn.tableSchema tableName = some oldTable)
    (hmode : args.onlyComputeRequirements = false) (hsim : args.simulate = false)
    (hreq : (planActions ext (simplifyLoop ext (numberActions actions 0) []).2
      (numberActions actions 0).length).requirements ≠ 0) :
    KDbAlterTableHandler.execute ext { actions := actions, conn := some conn } tableName args rands
      = commitActions ext conn (simplifyLoop ext (numberActions actions 0) []).1 oldTable
          (planActions ext (simplifyLoop ext (numberActions actions 0) []).2
            (numberActions actions 0).length)
          (ExecutionArguments.traced
            { args with result := .false
                        requirements := (planActions ext (simplifyLoop ext (numberActions actions 0) []).2
                          (numberActions actions 0).length).requirements }
            (debugTrace ext (planActions ext (simplifyLoop ext (numberActions actions 0) []).2
              (numberActions actions 0).length).actionsVector))
          rands := by
  simp [KDbAlterTableHandler.execute, hro, hdb, ht, hmode, hsim, hreq,
    ExecutionArguments.traced]

theorem copyStatement_congr (ext : External) (c1 c2 : KDbConnection)
    (newTable oldTable : KDbTableSchema) (fieldHash : FieldHash)
    (h1 : c1.escapeIdentifier = c2.escapeIdentifier) (h2 : c1.valueToSQL = c2.valueToSQL) :
    copyStatement ext c1 newTable fieldHash oldTable
      = copyStatement ext c2 newTable fieldHash oldTable := by
  have hs : copyStep ext c1 fieldHash = copyStep ext c2 fieldHash := by
    funext st f
    simp only [copyStep, sourceSQLString, h1, h2]
  simp only [copyStatement, hs, h1]

theorem commitActions_rebuild (ext : External) (conn : KDbConnection) (actions : List Action)
    (oldTable : KDbTableSchema) (plan : PlanState) (args : ExecutionArguments)
    (rands : List Nat) (tmp : QString) (st : MutationState)
    (hphys : plan.requirements &&& PhysicalAlteringRequired ≠ 0)
    (htmp : tempDestTableName conn oldTable.name rands = .ok tmp)
    (hloop : updateSchemaLoop ext plan.actionsVector
      { table := oldTable.setName tmp,
        fieldHash := (oldTable.fields.map fun e => e.2).foldl
          (fun h f => hashInsert h f.name f.name) [] } = .ok (.true, st))
    (hcreate : conn.createTableOk = true)
    (hstore : conn.storeExtendedTableSchemaDataOk = true) :
    ∃ x c, commitActions ext conn actions oldTable plan args rands = .ok x
      ∧ x.handler.conn = some c
      ∧ c.calls = conn.calls ++ [StorageCall.createTable st.table,
          StorageCall.storeExtendedTableSchemaData st.table,
          StorageCall.executeSQL (copyStatement ext conn st.table st.fieldHash oldTable)]
          ++ (if conn.executeSQLOk then [StorageCall.alterTableName st.table oldTable.name true]
              else [])
      ∧ (conn.executeSQLOk = false →
          x.returned = .null ∧ x.args.result = .false
          ∧ c.tables = conn.tables ++ [st.table]) := by
  simp only [KDbTableSchema.setName] at hloop
  by_cases hsql : conn.executeSQLOk = true
  · by_cases halt : conn.alterTableNameOk = true
    · simp [commitActions, hphys, htmp, Except.map, KDbTableSchema.setName, hloop,
        KDbConnection.createTable, KDbConnection.storeExtendedTableSchemaData,
        KDbConnection.executeSQL, KDbConnection.alterTableName, hcreate, hstore, hsql, halt]
      exact copyStatement_congr ext _ conn _ _ _ rfl rfl
    · simp [commitActions, hphys, htmp, Except.map, KDbTableSchema.setName, hloop,
        KDbConnection.createTable, KDbConnection.storeExtendedTableSchemaData,
        KDbConnection.executeSQL, KDbConnection.alterTableName, hcreate, hstore, hsql, halt]
      exact copyStatement_congr ext _ conn _ _ _ rfl rfl
  · simp [commitActions, hphys, htmp, Except.map, KDbTableSchema.setName, hloop,
      KDbConnection.createTable, KDbConnection.storeExtendedTableSchemaData,
      KDbConnection.executeSQL, KDbConnection.alterTableName, hcreate, hstore, hsql]
    exact copyStatement_congr ext _ conn _ _ _ rfl rfl

theorem hashValue_hashRemove_self {K V : Type} [DecidableEq K] (h : List (K × V)) (k : K) :
    hashValue (hashRemove h k) k = none := by
  induction h with
  | nil => simp [hashRemove, hashValue]
  | cons e rest ih =>
    obtain ⟨k1, v1⟩ := e
    simp only [hashRemove, ne_eq, decide_not] at ih ⊢
    by_cases hk : k1 = k
    · simp [hk, ih]
    · simp [hashValue, hk, ih]

theorem map_insertIdx {α β : Type} (g : α → β) (x : α) :
    ∀ (n : Nat) (l : List α), (l.insertIdx n x).map g = (l.map g).insertIdx n (g x)
  | 0, l => by simp
  | n + 1, [] => by simp
  | n + 1, a :: l => by simp [List.insertIdx_succ_cons, map_insertIdx g x n l]

theorem mem_of_mem_insertIdx {α : Type} (x y : α) :
    ∀ (n : Nat) (l : List α), y ∈ l.insertIdx n x → y = x ∨ y ∈ l
  | 0, l => by simp
  | n + 1, [] => by simp
  | n + 1, a :: l => by
    simp only [List.insertIdx_succ_cons, List.mem_cons]
    rintro (h | h)
    · exact Or.inr (Or.inl h)
    · rcases mem_of_mem_insertIdx x y n l h with h2 | h2
      · exact Or.inl h2
      · exact Or.inr (Or.inr h2)

theorem copyColumns_of_all (ext : External) (conn : KDbConnection) (fieldHash : FieldHash)
    (fields : List KDbField)
    (h : ∀ f ∈ fields, (sourceSQLString ext conn fieldHash f).isEmpty = false) :
    copyColumns ext conn fieldHash fields
      = fields.map fun f => (conn.escapeIdentifier f.name, sourceSQLString ext conn fieldHash f) := by
  induction fields with
  | nil => rfl
  | cons f rest ih =>
    rw [copyColumns_cons, ih fun g hg => h g (List.mem_cons_of_mem _ hg)]
    simp [h f (List.mem_cons_self _ _)]

theorem copyColumns_after_insert (ext : External) (conn : KDbConnection) (fs : List KDbField)
    (d : KDbField) (k : Nat)
    (hnotnull : d.isNotNull = true) (hnodefault : d.defaultValue.isNull = true)
    (hnew : ∀ f ∈ fs, f.name ≠ d.name) (hnames : ∀ f ∈ fs, f.name ≠ [])
    (hesc : ∀ f ∈ fs, conn.escapeIdentifier f.name ≠ [])
    (hlit : conn.valueToSQL d.type (emptyValueForFieldType ext d.type) ≠ []) :
    copyColumns ext conn
        (hashRemove (fs.foldl (fun h f => hashInsert h f.name f.name) []) d.name)
        (fs.insertIdx k d)
      = (fs.map fun f => (conn.escapeIdentifier f.name, conn.escapeIdentifier f.name)).insertIdx k
          (conn.escapeIdentifier d.name,
            conn.valueToSQL d.type (emptyValueForFieldType ext d.type)) := by
  have hold : ∀ f ∈ fs, sourceSQLString ext conn
      (hashRemove (fs.foldl (fun h f => hashInsert h f.name f.name) []) d.name) f
        = conn.escapeIdentifier f.name := by
    intro f hf
    have hv : FieldHash.value
        (hashRemove (fs.foldl (fun h f => hashInsert h f.name f.name) []) d.name) f.name
          = f.name := by
      unfold FieldHash.value
      rw [hashValue_hashRemove_ne _ _ _ (fun h => hnew f hf h.symm), hashValue_initialFieldHash]
      have hmem : f.name ∈ fs.map (fun f => f.name) := List.mem_map_of_mem _ hf
      simp [hmem]
    simp [sourceSQLString, hv, hnames f hf]
  have hd : sourceSQLString ext conn
      (hashRemove (fs.foldl (fun h f => hashInsert h f.name f.name) []) d.name) d
        = conn.valueToSQL d.type (emptyValueForFieldType ext d.type) := by
    have hv : FieldHash.value
        (hashRemove (fs.foldl (fun h f => hashInsert h f.name f.name) []) d.name) d.name
          = [] := by
      unfold FieldHash.value
      rw [hashValue_hashRemove_self]; rfl
    simp [sourceSQLString, hv, hnodefault, hnotnull]
  rw [copyColumns_of_all, map_insertIdx, hd]
  · congr 1
    exact List.map_congr_left fun f hf => by rw [hold f hf]
  · intro f hf
    rcases mem_of_mem_insertIdx d f k fs hf with h | h
    · subst h; rw [hd]; simpa using hlit
    · rw [hold f h]; simpa using hesc f h

theorem executedSQL_append (a b : List StorageCall) :
    executedSQL (a ++ b) = executedSQL a ++ executedSQL b := by
  simp [executedSQL, List.filterMap_append]

/-- C8: for a table whose columns have non-empty names, a single insert(u, d) at an index
that is not negative, where d is NOT NULL, has no default value and a name no column of the
table has: when the run reaches the data copy (writable connection, commit mode, a free
temporary name, createTable and storeExtendedTableSchemaData succeed) the statement passed to
executeSQL lists every column of the table with itself as source and lists d, at position
min(index, number of columns), with the SQL literal of KDb::emptyValueForFieldType(type of d)
as source. The driver is assumed to give non-empty text for these identifiers and literal. -/
theorem single_insert_copy_statement (ext : External) (conn : KDbConnection) (t : KDbTableSchema)
    (u index : Int) (d : KDbField) (args : ExecutionArguments) (rands : List Nat) (tmp : QString)
    (hro : conn.isReadOnly = false) (hdb : conn.isDatabaseUsed = true)
    (ht : conn.tableSchema t.name = some t)
    (hmode : args.onlyComputeRequirements = false) (hsim : args.simulate = false)
    (htmp : tempDestTableName conn t.name rands = .ok tmp)
    (hcreate : conn.createTableOk = true) (hstore : conn.storeExtendedTableSchemaDataOk = true)
    (hindex : 0 ≤ index)
    (hnotnull : d.isNotNull = true) (hnodefault : d.defaultValue.isNull = true)
    (hnew : ∀ e ∈ t.fields, e.2.name ≠ d.name)
    (hnames : ∀ e ∈ t.fields, e.2.name ≠ [])
    (hesc : ∀ e ∈ t.fields, conn.escapeIdentifier e.2.name ≠ [])
    (hlit : conn.valueToSQL d.type (emptyValueForFieldType ext d.type) ≠ []) :
    ∃ x c, KDbAlterTableHandler.execute ext
          { actions := [InsertFieldAction index d u], conn := some conn } t.name args rands = .ok x
      ∧ x.handler.conn = some c
      ∧ executedSQL c.calls = executedSQL conn.calls ++
          [insertSelectStatement (conn.escapeIdentifier tmp)
            ((t.fields.map fun e =>
                (conn.escapeIdentifier e.2.name, conn.escapeIdentifier e.2.name)).insertIdx
              (min index t.fieldCount).toNat
              (conn.escapeIdentifier d.name,
                conn.valueToSQL d.type (emptyValueForFieldType ext d.type)))
            t.name] := by
  obtain ⟨st1, hloop, htable, hhash⟩ := updateSchemaLoop_single_insert ext index u d
    { table := t.setName tmp,
      fieldHash := (t.fields.map fun e => e.2).foldl (fun h f => hashInsert h f.name f.name) [] }
    hindex
  have hlen : (numberActions [InsertFieldAction index d u] 0).length = 1 := rfl
  have hreq : (planActions ext (simplifyLoop ext (numberActions [InsertFieldAction index d u] 0) []).2
      (numberActions [InsertFieldAction index d u] 0).length).requirements ≠ 0 := by
    rw [single_insert_plan, hlen, single_insert_planActions]; simp
  rw [execute_commit ext _ conn t.name t args rands hro hdb ht hmode hsim hreq]
  have hvec : (planActions ext (simplifyLoop ext (numberActions [InsertFieldAction index d u] 0) []).2
      (numberActions [InsertFieldAction index d u] 0).length)
        = { actionsVector := [some (numberAction (InsertFieldAction index d u) 0)],
            currentActionsCount := 1, requirements := 1, fieldsWithChangedMainSchema := [] } := by
    rw [single_insert_plan, hlen, single_insert_planActions]
  rw [hvec]
  obtain ⟨x, c, hx, hc, hcalls, _⟩ := commitActions_rebuild ext conn
    (simplifyLoop ext (numberActions [InsertFieldAction index d u] 0) []).1 t
    { actionsVector := [some (numberAction (InsertFieldAction index d u) 0)],
      currentActionsCount := 1, requirements := 1, fieldsWithChangedMainSchema := [] }
    (ExecutionArguments.traced { args with result := .false, requirements := 1 }
      (debugTrace ext [some (numberAction (InsertFieldAction index d u) 0)]))
    rands tmp st1 (by simp [PhysicalAlteringRequired]) htmp hloop hcreate hstore
  refine ⟨x, c, hx, hc, ?_⟩
  rw [hcalls, copyStatement_eq, htable, hhash]
  have hcols := copyColumns_after_insert ext conn (t.fields.map fun e => e.2) d
    (min index t.fieldCount).toNat hnotnull hnodefault
    (fun f hf => by
      obtain ⟨e, he, rfl⟩ := List.mem_map.mp hf
      exact hnew e he)
    (fun f hf => by
      obtain ⟨e, he, rfl⟩ := List.mem_map.mp hf
      exact hnames e he)
    (fun f hf => by
      obtain ⟨e, he, rfl⟩ := List.mem_map.mp hf
      exact hesc e he)
    hlit
  simp only [KDbTableSchema.setName, KDbTableSchema.fieldCount, map_insertIdx, List.map_map,
    Function.comp_def] at hcols ⊢
  rw [hcols]
  by_cases hsql : conn.executeSQLOk = true <;>
    simp [executedSQL_append, executedSQL, hsql]

/-! ## The aggregate requirements -/

theorem planStep_foldl_requirements (ext : External) (dict : ActionDict) (st : PlanState) :
    (dict.foldl (fun st e2 => planStep ext st e2.2) st).requirements
      = st.requirements ||| survivingRequirements ext dict := by
  induction dict generalizing st with
  | nil => simp [survivingRequirements]
  | cons e rest ih =>
    rw [List.foldl_cons, ih]
    by_cases hs : e.2.shouldBeRemoved ext = true
    · simp [planStep, hs, survivingRequirements]
    · simp [planStep, hs, survivingRequirements, Nat.lor_assoc]

theorem planActions_foldl_requirements (ext : External) (fieldActions : ActionDictDict) (st : PlanState) :
    (fieldActions.foldl (fun st e => e.2.foldl (fun st e2 => planStep ext st e2.2) st) st).requirements
      = st.requirements ||| aggregateRequirements ext fieldActions := by
  induction fieldActions generalizing st with
  | nil => simp [aggregateRequirements]
  | cons e rest ih =>
    rw [List.foldl_cons, ih, planStep_foldl_requirements]
    simp [aggregateRequirements, Nat.lor_assoc]

theorem planActions_requirements (ext : External) (fieldActions : ActionDictDict) (n : Nat) :
    (planActions ext fieldActions n).requirements = aggregateRequirements ext fieldActions := by
  simp [planActions, planActions_foldl_requirements]

theorem and_or_self_right (x s : Nat) : x &&& (s ||| x) = x := by
  apply Nat.eq_of_testBit_eq
  intro i
  simp only [Nat.testBit_and, Nat.testBit_or]
  cases x.testBit i <;> cases s.testBit i <;> rfl

/-! ## An action on a field UID that no other action uses -/

theorem numberActions_append (l : List Action) (a : Action) (n : Int) :
    numberActions (l ++ [a]) n = numberActions l n ++ [numberAction a (n + l.length)] := by
  induction l generalizing n with
  | nil => simp [numberActions]
  | cons b rest ih =>
    rw [List.cons_append, numberActions, numberActions, ih, List.cons_append, List.length_cons]
    have hn : n + 1 + (rest.length : Int) = n + ((rest.length + 1 : Nat) : Int) := by
      push_cast; omega
    rw [hn]

theorem numberAction_fieldUID (a : Action) (n : Int) : (numberAction a n).fieldUID = a.fieldUID := by
  unfold numberAction Action.updateAlteringRequirements
  cases a.kind <;> rfl

theorem numberActions_fieldUID (l : List Action) (n : Int) (u : Int)
    (h : ∀ b ∈ l, b.fieldUID ≠ u) : ∀ b ∈ numberActions l n, b.fieldUID ≠ u := by
  induction l generalizing n with
  | nil => simp [numberActions]
  | cons c rest ih =>
    intro b hb
    simp only [numberActions, List.mem_cons] at hb
    rcases hb with hb | hb
    · rw [hb, numberAction_fieldUID]; exact h c (List.mem_cons_self _ _)
    · exact ih (n + 1) (fun b hb => h b (List.mem_cons_of_mem _ hb)) b hb

theorem simplifyLoop_append (ext : External) (l1 l2 : List Action) (fa : ActionDictDict) :
    (simplifyLoop ext (l1 ++ l2) fa).2 = (simplifyLoop ext l1 (simplifyLoop ext l2 fa).2).2 := by
  induction l1 with
  | nil => rfl
  | cons a rest ih =>
    rw [List.cons_append]
    simp only [simplifyLoop]
    rw [ih]

theorem simplifyActions_empty (ext : External) (a : Action) :
    (a.simplifyActions ext []).2 = [] ∨ ∃ d, (a.simplifyActions ext []).2 = [(a.fieldUID, d)] := by
  unfold Action.simplifyActions
  cases a.kind with
  | changeFieldProperty p v =>
    right
    by_cases hp : p = ['n', 'a', 'm', 'e']
    · exact ⟨_, by simp [Action.simplifyChangeFieldProperty, hashValue, hashInsert, hp]; rfl⟩
    · exact ⟨_, by simp [Action.simplifyChangeFieldProperty, hashValue, hashInsert, hp]; rfl⟩
  | removeField => exact Or.inr ⟨_, rfl⟩
  | insertField i f => exact Or.inr ⟨_, rfl⟩
  | moveFieldPosition i => exact Or.inl rfl

theorem simplifyActions_cons_other (ext : External) (a : Action) (fa : ActionDictDict)
    (u0 : Int) (d0 : ActionDict) (hne : a.fieldUID ≠ u0) :
    (a.simplifyActions ext ((u0, d0) :: fa)).2 = (u0, d0) :: (a.simplifyActions ext fa).2 := by
  have hne2 : ¬ u0 = a.fieldUID := fun h => hne h.symm
  unfold Action.simplifyActions
  cases a.kind with
  | changeFieldProperty p v =>
    simp only [Action.simplifyChangeFieldProperty, hashValue, hne2, if_false]
    repeat' split
    all_goals simp [hashInsert, hne2]
  | removeField => simp [Action.simplifyRemoveField, hashValue, hashInsert, hne2]
  | insertField i f =>
    simp only [Action.simplifyInsertField, hashValue, hne2, if_false]
    repeat' split
    all_goals simp [hashInsert, hashRemove, hne2]
  | moveFieldPosition i => rfl

theorem simplifyLoop_cons_other (ext : External) (l : List Action) (fa : ActionDictDict)
    (u0 : Int) (d0 : ActionDict) (hne : ∀ b ∈ l, b.fieldUID ≠ u0) :
    (simplifyLoop ext l ((u0, d0) :: fa)).2 = (u0, d0) :: (simplifyLoop ext l fa).2 := by
  induction l with
  | nil => rfl
  | cons a rest ih =>
    simp only [simplifyLoop]
    rw [ih fun b hb => hne b (List.mem_cons_of_mem _ hb),
      simplifyActions_cons_other ext a _ u0 d0 (hne a (List.mem_cons_self _ _))]

theorem aggregate_after_append (ext : External) (l : List Action) (a : Action)
    (hnew : ∀ b ∈ l, b.fieldUID ≠ a.fieldUID) :
    ∃ s, aggregateRequirements ext (simplifyLoop ext (numberActions (l ++ [a]) 0) []).2
      = s ||| aggregateRequirements ext (simplifyLoop ext (numberActions l 0) []).2 := by
  rw [numberActions_append, simplifyLoop_append]
  have hstep : (simplifyLoop ext [numberAction a (0 + (l.length : Int))] []).2
      = ((numberAction a (0 + (l.length : Int))).simplifyActions ext []).2 := rfl
  rw [hstep]
  rcases simplifyActions_empty ext (numberAction a (0 + (l.length : Int))) with h | ⟨d, h⟩
  · rw [h]; exact ⟨0, by simp⟩
  · rw [h, numberAction_fieldUID, simplifyLoop_cons_other ext _ [] a.fieldUID d
      (numberActions_fieldUID l 0 a.fieldUID hnew)]
    exact ⟨survivingRequirements ext d, by simp [aggregateRequirements]⟩

/-! ## C10: requirements after one more action -/

/-- C10 (amended): in requirements-only mode, appending an action whose field UID no action
of the list uses never clears a requirement flag: the bitmask reported for the longer list
is a bitwise superset of the one reported for the list. (An appended action on a field that
the list already changes can clear flags, as a remove does.) -/
theorem appended_action_on_new_field_keeps_requirements (ext : External)
    (h : KDbAlterTableHandler) (tableName : QString) (args : ExecutionArguments)
    (rands : List Nat) (a : Action)
    (hnew : ∀ b ∈ h.actions, b.fieldUID ≠ a.fieldUID)
    (hmode : args.onlyComputeRequirements = true) :
    ∃ x y, h.execute ext tableName args rands = .ok x
      ∧ KDbAlterTableHandler.execute ext { h with actions := h.actions ++ [a] } tableName args
          rands = .ok y
      ∧ x.args.requirements &&& y.args.requirements = x.args.requirements := by
  obtain ⟨actions, conn⟩ := h
  cases conn with
  | none => exact ⟨_, _, rfl, rfl, Nat.and_self _⟩
  | some conn =>
    by_cases hro : conn.isReadOnly = true
    · simp [KDbAlterTableHandler.execute, hro]
    · by_cases hdb : conn.isDatabaseUsed = true
      · cases ht : conn.tableSchema tableName with
        | none => simp [KDbAlterTableHandler.execute, hro, hdb, ht]
        | some oldTable =>
          obtain ⟨s, hs⟩ := aggregate_after_append ext actions a hnew
          simp [KDbAlterTableHandler.execute, hro, hdb, ht, hmode, planActions_requirements, hs,
            and_or_self_right]
      · simp [KDbAlterTableHandler.execute, hro, hdb]

/-- Witness of C10 (amended): a caption change of field 1, then an insert of a field 7. -/
theorem appended_action_on_new_field_keeps_requirements_witness :
    ∃ x y, KDbAlterTableHandler.execute exampleExternal
          { actions := [ChangeFieldPropertyAction "a".toList "caption".toList
              (.string "x".toList) 1],
            conn := some exampleConnection } "T".toList { onlyComputeRequirements := true } []
        = .ok x
      ∧ KDbAlterTableHandler.execute exampleExternal
          { ({ actions := [ChangeFieldPropertyAction "a".toList "caption".toList
                (.string "x".toList) 1],
               conn := some exampleConnection } : KDbAlterTableHandler) with
            actions := [ChangeFieldPropertyAction "a".toList "caption".toList
                (.string "x".toList) 1]
              ++ [InsertFieldAction 0 { name := "d".toList, type := .Text } 7] }
          "T".toList { onlyComputeRequirements := true } [] = .ok y
      ∧ x.args.requirements &&& y.args.requirements = x.args.requirements :=
  appended_action_on_new_field_keeps_requirements exampleExternal _ "T".toList
    { onlyComputeRequirements := true } [] _ (by decide) rfl

/-- C10 as stated fails: for the list [change(1, caption)] execute reports 4 in
requirements-only mode, and for the list followed by remove(1) it reports 1, which is not a
superset: the main-schema flag is cleared. -/
theorem appended_remove_clears_flag_counterexample :
    ∃ x y, KDbAlterTableHandler.execute exampleExternal
          { actions := [ChangeFieldPropertyAction "a".toList "caption".toList
              (.string "x".toList) 1],
            conn := some exampleConnection } "T".toList { onlyComputeRequirements := true } []
        = .ok x
      ∧ KDbAlterTableHandler.execute exampleExternal
          { actions := [ChangeFieldPropertyAction "a".toList "caption".toList
              (.string "x".toList) 1] ++ [RemoveFieldAction "a".toList 1],
            conn := some exampleConnection } "T".toList { onlyComputeRequirements := true } []
        = .ok y
      ∧ x.args.requirements = 4 ∧ y.args.requirements = 1
      ∧ x.args.requirements &&& y.args.requirements ≠ x.args.requirements := by
  refine ⟨_, _, rfl, rfl, ?_, ?_, ?_⟩ <;> decide

/-! ## C9: a failed data copy -/

theorem updateTableSchema_name (ext : External) (a : Action) (table : KDbTableSchema)
    (field : Option Nat) (fieldHash : FieldHash) (r : tristate) (table1 : KDbTableSchema)
    (fieldHash1 : FieldHash)
    (h : a.updateTableSchema ext table field fieldHash = .ok (r, table1, fieldHash1)) :
    table1.name = table.name := by
  unfold Action.updateTableSchema at h
  cases hk : a.kind with
  | changeFieldProperty p v =>
    simp only [hk, Action.updateTableSchemaChange] at h
    split at h
    · split at h
      · injection h with h; injection h with _ h; injection h with h _; rw [← h]
      · split at h
        · cases h
        · injection h with h; injection h with _ h; injection h with h _; rw [← h]; rfl
    · split at h
      · split at h
        · injection h with h; injection h with _ h; injection h with h _; rw [← h]; rfl
        · cases h
      · injection h with h; injection h with _ h; injection h with h _; rw [← h]
  | removeField =>
    simp only [hk, Action.updateTableSchemaRemove] at h
    split at h
    · injection h with h; injection h with _ h; injection h with h _; rw [← h]; rfl
    · cases h
  | insertField i f =>
    simp only [hk, Action.updateTableSchemaInsert] at h
    injection h with h; injection h with _ h; injection h with h _; rw [← h]
    unfold KDbTableSchema.insertField
    split <;> rfl
  | moveFieldPosition i =>
    simp only [hk] at h
    injection h with h; injection h with _ h; injection h with h _; rw [← h]

theorem updateSchemaLoop_name (ext : External) (v : List (Option Action)) (st st1 : MutationState)
    (r : tristate) (h : updateSchemaLoop ext v st = .ok (r, st1)) :
    st1.table.name = st.table.name := by
  induction v generalizing st with
  | nil =>
    simp only [updateSchemaLoop] at h
    injection h with h; injection h with _ h; rw [← h]
  | cons slot rest ih =>
    cases slot with
    | none => exact ih st h
    | some action =>
      simp only [updateSchemaLoop] at h
      split at h
      · cases h
      · rename_i result table fieldHash hu
        have hn := updateTableSchema_name ext _ _ _ _ _ _ _ hu
        split at h
        · injection h with h; injection h with _ h; rw [← h]
          simp only [hn]
          split <;> rfl
        · have := ih _ h
          simp only [hn] at this
          rw [this]
          split <;> rfl

/-- C9 (amended): on the rebuild path, when createTable and storeExtendedTableSchemaData
succeed and executeSQL of the copy statement fails, execute returns no schema with result
false, makes no alterTableName call, and leaves every table the connection had as it was;
the temporary table it created is not deleted: the tables after the call are the tables
before the call followed by the temporary table. -/
theorem failed_copy_keeps_temporary_table (ext : External) (conn : KDbConnection)
    (actions : List Action) (tableName : QString) (oldTable : KDbTableSchema)
    (args : ExecutionArguments) (rands : List Nat) (tmp : QString) (st : MutationState)
    (hro : conn.isReadOnly = false) (hdb : conn.isDatabaseUsed = true)
    (ht : conn.tableSchema tableName = some oldTable)
    (hmode : args.onlyComputeRequirements = false) (hsim : args.simulate = false)
    (hphys : (planActions ext (simplifyLoop ext (numberActions actions 0) []).2
      (numberActions actions 0).length).requirements &&& PhysicalAlteringRequired ≠ 0)
    (htmp : tempDestTableName conn oldTable.name rands = .ok tmp)
    (hloop : updateSchemaLoop ext (planActions ext (simplifyLoop ext (numberActions actions 0) []).2
        (numberActions actions 0).length).actionsVector
      { table := oldTable.setName tmp,
        fieldHash := (oldTable.fields.map fun e => e.2).foldl
          (fun h f => hashInsert h f.name f.name) [] } = .ok (.true, st))
    (hcreate : conn.createTableOk = true)
    (hstore : conn.storeExtendedTableSchemaDataOk = true)
    (hfail : conn.executeSQLOk = false) :
    ∃ x c, KDbAlterTableHandler.execute ext { actions := actions, conn := some conn } tableName
          args rands = .ok x
      ∧ x.handler.conn = some c
      ∧ x.returned = .null ∧ x.args.result = .false
      ∧ c.tables = conn.tables ++ [st.table] ∧ st.table.name = tmp
      ∧ c.calls = conn.calls ++ [StorageCall.createTable st.table,
          StorageCall.storeExtendedTableSchemaData st.table,
          StorageCall.executeSQL (copyStatement ext conn st.table st.fieldHash oldTable)] := by
  have hreq : (planActions ext (simplifyLoop ext (numberActions actions 0) []).2
      (numberActions actions 0).length).requirements ≠ 0 := by
    intro h0
    rw [h0] at hphys
    simp at hphys
  rw [execute_commit ext actions conn tableName oldTable args rands hro hdb ht hmode hsim hreq]
  obtain ⟨x, c, hx, hc, hcalls, hnull⟩ := commitActions_rebuild ext conn
    (simplifyLoop ext (numberActions actions 0) []).1 oldTable _
    (ExecutionArguments.traced
      { args with result := .false
                  requirements := (planActions ext (simplifyLoop ext (numberActions actions 0) []).2
                    (numberActions actions 0).length).requirements }
      (debugTrace ext (planActions ext (simplifyLoop ext (numberActions actions 0) []).2
        (numberActions actions 0).length).actionsVector))
    rands tmp st hphys htmp hloop hcreate hstore
  obtain ⟨h1, h2, h3⟩ := hnull hfail
  refine ⟨x, c, hx, hc, h1, h2, h3, ?_, ?_⟩
  · exact updateSchemaLoop_name ext _ _ _ _ hloop
  · rw [hcalls]; simp [hfail]

/-- Witness of C9 (amended): remove(a) on the example table with a failing executeSQL. -/
theorem failed_copy_keeps_temporary_table_witness :
    ∃ x c, KDbAlterTableHandler.execute exampleExternal
          { actions := [RemoveFieldAction "a".toList 1], conn := some failingCopyConnection }
          "T".toList {} [10, 11] = .ok x
      ∧ x.handler.conn = some c
      ∧ x.returned = .null ∧ x.args.result = .false
      ∧ c.tables = failingCopyConnection.tables ++ [exampleStateAfterRemove.table]
      ∧ exampleStateAfterRemove.table.name = "T_tempab".toList
      ∧ c.calls = failingCopyConnection.calls
          ++ [StorageCall.createTable exampleStateAfterRemove.table,
          StorageCall.storeExtendedTableSchemaData exampleStateAfterRemove.table,
          StorageCall.executeSQL (copyStatement exampleExternal failingCopyConnection
            exampleStateAfterRemove.table exampleStateAfterRemove.fieldHash exampleTable)] :=
  failed_copy_keeps_temporary_table exampleExternal failingCopyConnection
    [RemoveFieldAction "a".toList 1] "T".toList exampleTable {} [10, 11] "T_tempab".toList
    exampleStateAfterRemove rfl rfl rfl rfl rfl (by decide) rfl rfl rfl rfl rfl

/-- C9 as stated fails: after remove(a) on the example table with a failing executeSQL,
execute reports failure but the connection holds the table T and the temporary table
T_tempab; the set of tables is not the set before the call. -/
theorem failed_copy_counterexample :
    ∃ x c, KDbAlterTableHandler.execute exampleExternal
          { actions := [RemoveFieldAction "a".toList 1], conn := some failingCopyConnection }
          "T".toList {} [10, 11] = .ok x
      ∧ x.handler.conn = some c
      ∧ x.args.result = .false
      ∧ failingCopyConnection.tables.map (fun t => t.name) = ["T".toList]
      ∧ c.tables.map (fun t => t.name) = ["T".toList, "T_tempab".toList] := by
  refine ⟨_, _, rfl, rfl, ?_, ?_, ?_⟩ <;> decide

/-- Witness of C8: insert of the NOT NULL text column d at index 5 of the example table. -/
theorem single_insert_copy_statement_witness :
    ∃ x c, KDbAlterTableHandler.execute exampleExternal
          { actions := [InsertFieldAction 5
              { name := "d".toList, type := .Text, constraints := NotNull } 7],
            conn := some exampleConnection } exampleTable.name {} [10, 11] = .ok x
      ∧ x.handler.conn = some c
      ∧ executedSQL c.calls = executedSQL exampleConnection.calls ++
          [insertSelectStatement (exampleConnection.escapeIdentifier "T_tempab".toList)
            ((exampleTable.fields.map fun e =>
                (exampleConnection.escapeIdentifier e.2.name,
                  exampleConnection.escapeIdentifier e.2.name)).insertIdx
              (min 5 exampleTable.fieldCount).toNat
              (exampleConnection.escapeIdentifier
                  ({ name := "d".toList, type := .Text, constraints := NotNull } : KDbField).name,
                exampleConnection.valueToSQL
                  ({ name := "d".toList, type := .Text, constraints := NotNull } : KDbField).type
                  (emptyValueForFieldType exampleExternal
                    ({ name := "d".toList, type := .Text,
                       constraints := NotNull } : KDbField).type)))
            exampleTable.name] :=
  single_insert_copy_statement exampleExternal exampleConnection exampleTable 7 5
    { name := "d".toList, type := .Text, constraints := NotNull } {} [10, 11] "T_tempab".toList
    rfl rfl rfl rfl rfl rfl rfl rfl (by decide) (by decide) rfl (by decide) (by decide)
    (by decide) (by decide)

/-! ## C1, C2 and C7: renames -/

/-- C1 (code at the failing input): for the chain rename a to b, b to c, c to d of the
example in execute, the backward pass leaves one rename for the field, but it is the first
hop, from a to b, not a rename from a to d: the look-up of the later rename uses the new
name as key where the dictionary is keyed by the property name. -/
theorem rename_chain_keeps_first_hop (ext : External) :
    (simplifyLoop ext
      [renameAction 1 "a".toList "b".toList, renameAction 1 "b".toList "c".toList,
       renameAction 1 "c".toList "d".toList] []).2
      = [(1, [("name".toList, renameAction 1 "a".toList "b".toList)])] := by
  rfl

/-- C2 (code at the failing input): for [rename(1, a -> c), rename(1, c -> a)] on the example
table in commit mode, execute reports requirements 5 (physical and main schema), takes the
rebuild path with four storage calls, and returns a new table whose first column is named c:
the plan is not empty and the schema is not the original one. -/
theorem rename_there_and_back_rebuilds :
    ∃ x, KDbAlterTableHandler.execute exampleExternal
        { actions := [renameAction 1 "a".toList "c".toList, renameAction 1 "c".toList "a".toList],
          conn := some exampleConnection } "T".toList {} [10, 11] = .ok x
      ∧ x.args.requirements = 5 ∧ x.args.result = .true
      ∧ (∃ t, x.returned = .newTable t
          ∧ t.fields.map (fun e => e.2.name) = ["c".toList, "b".toList])
      ∧ x.handler.conn.map (fun c => c.calls.map StorageCall.kindName)
          = some ["createTable", "storeExtendedTableSchemaData", "executeSQL",
                  "alterTableName"] := by
  refine ⟨_, rfl, ?_, ?_, ⟨_, rfl, ?_⟩, ?_⟩ <;> decide

/-- C7 (code at the failing input): for the table T(a INT, b TEXT NOT NULL) and the single
action rename(1, a -> c), the copy statement executed by the rebuild path is
INSERT INTO T_tempab (b) SELECT b FROM T: the renamed column c is not listed at all, so it
is not copied from a; the rebuilt table has the columns c and b. -/
theorem rename_copy_statement_omits_renamed_column :
    ∃ x, KDbAlterTableHandler.execute exampleExternal
        { actions := [renameAction 1 "a".toList "c".toList], conn := some exampleConnection }
        "T".toList {} [10, 11] = .ok x
      ∧ x.handler.conn.map (fun c => executedSQL c.calls)
          = some ["INSERT INTO T_tempab (b) SELECT b FROM T".toList]
      ∧ (∃ t, x.returned = .newTable t
          ∧ t.fields.map (fun e => e.2.name) = ["c".toList, "b".toList]) := by
  refine ⟨_, rfl, ?_, ⟨_, rfl, ?_⟩⟩ <;> decide

/-! ## C14 to C17: the classifier -/

theorem alteringTypes_table :
    KDb_alteringTypeForProperty
      = [("name".toList, 5), ("type".toList, 7), ("caption".toList, 4),
         ("description".toList, 4), ("unsigned".toList, 7), ("maxlength".toList, 7),
         ("precision".toList, 7), ("defaultwidth".toList, 8), ("defaultvalue".toList, 4),
         ("primarykey".toList, 7), ("unique".toList, 7), ("notnull".toList, 7),
         ("allowempty".toList, 5), ("autoincrement".toList, 7), ("indexed".toList, 7),
         ("visibledecimalplaces".toList, 8)] := by
  decide

theorem hashValue_mem {K V : Type} [DecidableEq K] (h : List (K × V)) (k : K) (v : V)
    (hv : hashValue h k = some v) : (k, v) ∈ h := by
  induction h with
  | nil => simp [hashValue] at hv
  | cons e rest ih =>
    obtain ⟨k1, v1⟩ := e
    by_cases hk : k1 = k
    · simp [hashValue, hk] at hv
      simp [hk, hv]
    · simp only [hashValue, hk, if_false] at hv
      exact List.mem_cons_of_mem _ (ih hv)

theorem alteringTypes_nonzero (key : QByteArray) (v : Nat)
    (h : hashValue KDb_alteringTypeForProperty key = some v) : v ≠ 0 := by
  have hall : ∀ e ∈ KDb_alteringTypeForProperty, e.2 ≠ 0 := by decide
  exact hall _ (hashValue_mem _ _ _ h)

/-- C14 (amended): for each of the properties type, unsigned, maxLength, precision,
primaryKey, unique, notNull, autoIncrement and indexed, alteringTypeForProperty returns
exactly PhysicalAlteringRequired | DataConversionRequired | MainSchemaAlteringRequired: the
macro I2 adds the main-schema flag to every entry that has the physical flag. -/
theorem physical_conversion_properties :
    ∀ p ∈ ["type".toList, "unsigned".toList, "maxLength".toList, "precision".toList,
           "primaryKey".toList, "unique".toList, "notNull".toList, "autoIncrement".toList,
           "indexed".toList],
      alteringTypeForProperty p
        = PhysicalAlteringRequired ||| DataConversionRequired ||| MainSchemaAlteringRequired := by
  decide

/-- C14 as stated fails: the classification of type is 7, which contains the main-schema
flag, not PhysicalAlteringRequired | DataConversionRequired alone. -/
theorem type_classification_counterexample :
    alteringTypeForProperty "type".toList ≠ PhysicalAlteringRequired ||| DataConversionRequired
    ∧ alteringTypeForProperty "type".toList &&& MainSchemaAlteringRequired ≠ 0 := by
  decide

/-- C15: alteringTypeForProperty returns exactly Physical | Main for name, exactly Main for
caption, description and defaultValue, exactly Extended for defaultWidth and
visibleDecimalPlaces, and exactly Extended for every name that is not a key of the table
(after lower-casing) but is a registered extended property. -/
theorem schema_property_classification :
    alteringTypeForProperty "name".toList
        = PhysicalAlteringRequired ||| MainSchemaAlteringRequired
    ∧ alteringTypeForProperty "caption".toList = MainSchemaAlteringRequired
    ∧ alteringTypeForProperty "description".toList = MainSchemaAlteringRequired
    ∧ alteringTypeForProperty "defaultValue".toList = MainSchemaAlteringRequired
    ∧ alteringTypeForProperty "defaultWidth".toList = ExtendedSchemaAlteringRequired
    ∧ alteringTypeForProperty "visibleDecimalPlaces".toList = ExtendedSchemaAlteringRequired
    ∧ ∀ n : QByteArray, hashValue KDb_alteringTypeForProperty (toLower n) = none →
        isExtendedTableFieldProperty n = true →
        alteringTypeForProperty n = ExtendedSchemaAlteringRequired := by
  refine ⟨by decide, by decide, by decide, by decide, by decide, by decide, ?_⟩
  intro n hn hext
  simp [alteringTypeForProperty, hn, hext]

/-- C16 (amended): alteringTypeForProperty yields 0, the "not found" outcome, exactly when
the lower-cased name is not a key of the classifier table and the name is not a registered
extended property. Membership in the built-in property set is not consulted. -/
theorem unknown_property_iff (n : QByteArray) :
    alteringTypeForProperty n = 0
      ↔ (hashValue KDb_alteringTypeForProperty (toLower n) = none
          ∧ isExtendedTableFieldProperty n = false) := by
  unfold alteringTypeForProperty
  cases hv : hashValue KDb_alteringTypeForProperty (toLower n) with
  | none =>
    cases hext : isExtendedTableFieldProperty n <;>
      simp [ExtendedSchemaAlteringRequired]
  | some v =>
    have hnz := alteringTypes_nonzero _ _ hv
    simp [hnz]

/-- C16 as stated fails: maxLengthIsDefault is a built-in field property, and
alteringTypeForProperty yields 0 for it. -/
theorem builtin_property_unknown_counterexample :
    isBuiltinTableFieldProperty "maxLengthIsDefault".toList = true
    ∧ alteringTypeForProperty "maxLengthIsDefault".toList = 0 := by
  decide

theorem lowerLatin1_idem (c : Char) : lowerLatin1 (lowerLatin1 c) = lowerLatin1 c := by
  unfold lowerLatin1
  by_cases h : (65 ≤ c.toNat ∧ c.toNat ≤ 90) ∨ (192 ≤ c.toNat ∧ c.toNat ≤ 222 ∧ c.toNat ≠ 215)
  · have hv : (c.toNat + 32).isValidChar := by
      left
      rcases h with h | h <;> omega
    have hn : (Char.ofNat (c.toNat + 32)).toNat = c.toNat + 32 := by
      unfold Char.ofNat
      rw [dif_pos hv]
      rfl
    rw [if_pos h, hn]
    have h2 : ¬ ((65 ≤ c.toNat + 32 ∧ c.toNat + 32 ≤ 90)
        ∨ (192 ≤ c.toNat + 32 ∧ c.toNat + 32 ≤ 222 ∧ c.toNat + 32 ≠ 215)) := by
      rcases h with h | h <;> omega
    rw [if_neg h2]
  · rw [if_neg h, if_neg h]

theorem toLower_idem (b : List Char) : toLower (toLower b) = toLower b := by
  simp [toLower, lowerLatin1_idem]

/-- C17: alteringTypeForProperty(n) equals alteringTypeForProperty(lower(n)) for every
property name, for the entries of the table and for registered extended properties alike. -/
theorem classification_ignores_case (n : QByteArray) :
    alteringTypeForProperty n = alteringTypeForProperty (toLower n) := by
  simp [alteringTypeForProperty, isExtendedTableFieldProperty, toLower_idem]

/-! ## C11, C13 and C18: runs that stop before the commit part -/

/-- C18: whenever the handler has no connection, the connection is read-only, no database is
in use, or the named table does not exist, execute returns no schema with result false, in
every mode, and leaves the requirements of the argument block, the action list and the
connection exactly as they were. -/
theorem execute_fails_without_usable_table (ext : External) (h : KDbAlterTableHandler)
    (tableName : QString) (args : ExecutionArguments) (rands : List Nat)
    (hbad : h.conn = none ∨ ∃ conn, h.conn = some conn
      ∧ (conn.isReadOnly = true ∨ conn.isDatabaseUsed = false
          ∨ conn.tableSchema tableName = none)) :
    h.execute ext tableName args rands
      = .ok { returned := .null, args := { args with result := .false }, handler := h } := by
  obtain ⟨actions, conn⟩ := h
  rcases hbad with hnone | ⟨c, hc, hrest⟩
  · simp only at hnone
    subst hnone
    rfl
  · simp only at hc
    subst hc
    by_cases hro : c.isReadOnly = true
    · simp [KDbAlterTableHandler.execute, hro]
    · by_cases hdb : c.isDatabaseUsed = true
      · rcases hrest with h1 | h1 | h1
        · exact absurd h1 hro
        · rw [hdb] at h1; cases h1
        · simp [KDbAlterTableHandler.execute, hro, hdb, h1]
      · simp [KDbAlterTableHandler.execute, hro, hdb]

/-- Witness of C18: the example connection made read-only. -/
theorem execute_fails_without_usable_table_witness :
    KDbAlterTableHandler.execute exampleExternal
        { actions := [renameAction 1 "a".toList "c".toList],
          conn := some { exampleConnection with isReadOnly := true } }
        "T".toList { simulate := true, requirements := 3 } []
      = .ok { returned := .null,
              args := { ({ simulate := true, requirements := 3 } : ExecutionArguments) with
                        result := .false },
              handler := { actions := [renameAction 1 "a".toList "c".toList],
                           conn := some { exampleConnection with isReadOnly := true } } } :=
  execute_fails_without_usable_table exampleExternal _ "T".toList _ []
    (Or.inr ⟨_, rfl, Or.inl rfl⟩)

/-- C11: with simulate or onlyComputeRequirements set, execute returns and leaves the
connection exactly as it was (no storage call is recorded, no table schema is changed), for
every action list; when the connection is usable and the table exists, it returns with
result true. -/
theorem dry_run_leaves_storage_alone (ext : External) (h : KDbAlterTableHandler)
    (tableName : QString) (args : ExecutionArguments) (rands : List Nat)
    (hdry : args.simulate = true ∨ args.onlyComputeRequirements = true) :
    ∃ x, h.execute ext tableName args rands = .ok x
      ∧ x.handler.conn = h.conn
      ∧ (∀ conn oldTable, h.conn = some conn → conn.isReadOnly = false →
          conn.isDatabaseUsed = true → conn.tableSchema tableName = some oldTable →
          x.args.result = .true) := by
  obtain ⟨actions, conn⟩ := h
  cases conn with
  | none => exact ⟨_, rfl, rfl, fun c t hc => by cases hc⟩
  | some conn =>
    by_cases hro : conn.isReadOnly = true
    · simp only [KDbAlterTableHandler.execute, hro, Bool.true_or, if_true]
      refine ⟨_, rfl, rfl, ?_⟩
      intro c t hc h1
      cases hc
      rw [hro] at h1
      cases h1
    · by_cases hdb : conn.isDatabaseUsed = true
      · cases ht : conn.tableSchema tableName with
        | none =>
          simp only [KDbAlterTableHandler.execute, hro, hdb, ht]
          refine ⟨_, rfl, rfl, ?_⟩
          intro c t hc _ _ h3
          cases hc
          rw [ht] at h3
          cases h3
        | some oldTable =>
          by_cases hmode : args.onlyComputeRequirements = true
          · simp [KDbAlterTableHandler.execute, hro, hdb, ht, hmode]
          · have hsim : args.simulate = true := by
              rcases hdry with h1 | h1
              · exact h1
              · exact absurd h1 hmode
            by_cases hz : (planActions ext (simplifyLoop ext (numberActions actions 0) []).2
                (numberActions actions 0).length).requirements = 0
            · simp [KDbAlterTableHandler.execute, hro, hdb, ht, hmode, hsim, hz,
                ExecutionArguments.traced]
            · simp [KDbAlterTableHandler.execute, hro, hdb, ht, hmode, hsim, hz,
                ExecutionArguments.traced]
      · have hdb2 : conn.isDatabaseUsed = false := by simpa using hdb
        have hro2 : conn.isReadOnly = false := by simpa using hro
        simp only [KDbAlterTableHandler.execute, hro2, hdb2]
        refine ⟨_, rfl, rfl, ?_⟩
        intro c t hc _ h2
        cases hc
        rw [hdb2] at h2
        cases h2

/-- Witness of C11: a simulated rename on the example table. -/
theorem dry_run_leaves_storage_alone_witness :
    ∃ x, KDbAlterTableHandler.execute exampleExternal
          { actions := [renameAction 1 "a".toList "c".toList], conn := some exampleConnection }
          "T".toList { simulate := true } [] = .ok x
      ∧ x.handler.conn = some exampleConnection
      ∧ (∀ conn oldTable, some exampleConnection = some conn → conn.isReadOnly = false →
          conn.isDatabaseUsed = true → conn.tableSchema "T".toList = some oldTable →
          x.args.result = .true) :=
  dry_run_leaves_storage_alone exampleExternal
    { actions := [renameAction 1 "a".toList "c".toList], conn := some exampleConnection }
    "T".toList { simulate := true } [] (Or.inl rfl)

/-- C13 (amended): when the OR of the requirements of all surviving actions is zero
(as for the empty action list) and the connection is usable, execute reports success with
requirements 0 and leaves the connection as it was; in commit and simulate mode it returns
the original table schema, in requirements-only mode it returns no schema, because that
mode returns before the zero check. -/
theorem zero_requirements_returns_original (ext : External) (actions : List Action)
    (conn : KDbConnection) (tableName : QString) (oldTable : KDbTableSchema)
    (args : ExecutionArguments) (rands : List Nat)
    (hro : conn.isReadOnly = false) (hdb : conn.isDatabaseUsed = true)
    (ht : conn.tableSchema tableName = some oldTable)
    (hzero : aggregateRequirements ext (simplifyLoop ext (numberActions actions 0) []).2 = 0) :
    ∃ x, KDbAlterTableHandler.execute ext { actions := actions, conn := some conn } tableName
          args rands = .ok x
      ∧ x.args.result = .true ∧ x.args.requirements = 0
      ∧ x.handler.conn = some conn
      ∧ x.returned = (if args.onlyComputeRequirements then .null else .oldTable oldTable) := by
  have hz : (planActions ext (simplifyLoop ext (numberActions actions 0) []).2
      (numberActions actions 0).length).requirements = 0 := by
    rw [planActions_requirements]; exact hzero
  by_cases hmode : args.onlyComputeRequirements = true
  · simp [KDbAlterTableHandler.execute, hro, hdb, ht, hmode, hz]
  · simp [KDbAlterTableHandler.execute, hro, hdb, ht, hmode, hz, ExecutionArguments.traced]

/-- Witness of C13 (amended): the empty action list on the example table, commit mode. -/
theorem zero_requirements_returns_original_witness :
    ∃ x, KDbAlterTableHandler.execute exampleExternal
          { actions := [], conn := some exampleConnection } "T".toList {} [] = .ok x
      ∧ x.args.result = .true ∧ x.args.requirements = 0
      ∧ x.handler.conn = some exampleConnection
      ∧ x.returned = (if ({} : ExecutionArguments).onlyComputeRequirements then .null
          else .oldTable exampleTable) :=
  zero_requirements_returns_original exampleExternal [] exampleConnection "T".toList
    exampleTable {} [] rfl rfl rfl rfl

/-- C13 as stated fails in requirements-only mode: for the empty action list the aggregate
is zero and execute returns the null pointer, not the original table schema. -/
theorem zero_requirements_only_counterexample :
    ∃ x, KDbAlterTableHandler.execute exampleExternal
          { actions := [], conn := some exampleConnection } "T".toList
          { onlyComputeRequirements := true } [] = .ok x
      ∧ x.args.requirements = 0 ∧ x.args.result = .true
      ∧ x.returned = .null ∧ x.returned ≠ .oldTable exampleTable := by
  refine ⟨_, rfl, ?_, ?_, ?_, ?_⟩ <;> decide

/-! ## C20: the rebuild path and the in-place path -/

theorem storeChangedFields_calls (ext : External) (newTable : KDbTableSchema) :
    ∀ (names : List QString) (conn : KDbConnection),
      ∃ made, (storeChangedFields ext newTable names conn).2.calls = conn.calls ++ made
        ∧ ∀ k ∈ made, k.kindName = "storeMainFieldSchema"
  | [], conn => ⟨[], by simp [storeChangedFields], by simp⟩
  | name :: rest, conn => by
    unfold storeChangedFields
    cases hf : (newTable.field ext name).bind newTable.fieldAt with
    | none => exact storeChangedFields_calls ext newTable rest conn
    | some f =>
      simp only
      by_cases hok : conn.storeMainFieldSchemaOk = true
      · obtain ⟨made, hm, hk⟩ := storeChangedFields_calls ext newTable rest (conn.storeMainFieldSchema f).2
        refine ⟨StorageCall.storeMainFieldSchema f :: made, ?_, ?_⟩
        · have h1 : (conn.storeMainFieldSchema f).1 = true := hok
          simp only [h1, Bool.not_true, Bool.false_eq_true, if_false]
          rw [hm]
          simp [KDbConnection.storeMainFieldSchema]
        · intro k hmem
          rcases List.mem_cons.1 hmem with h | h
          · subst h; rfl
          · exact hk k h
      · refine ⟨[StorageCall.storeMainFieldSchema f], ?_, ?_⟩
        · simp [hok, KDbConnection.storeMainFieldSchema]
        · intro k hmem
          rw [List.mem_singleton] at hmem
          subst hmem; rfl

theorem commitActions_physical (ext : External) (conn : KDbConnection) (actions : List Action)
    (oldTable : KDbTableSchema) (plan : PlanState) (args : ExecutionArguments)
    (rands : List Nat) (tmp : QString) (res : tristate) (st : MutationState)
    (hphys : plan.requirements &&& PhysicalAlteringRequired ≠ 0)
    (htmp : tempDestTableName conn oldTable.name rands = .ok tmp)
    (hloop : updateSchemaLoop ext plan.actionsVector
      { table := oldTable.setName tmp,
        fieldHash := (oldTable.fields.map fun e => e.2).foldl
          (fun h f => hashInsert h f.name f.name) [] } = .ok (res, st)) :
    ∃ x c made, commitActions ext conn actions oldTable plan args rands = .ok x
      ∧ x.handler.conn = some c ∧ c.calls = conn.calls ++ made
      ∧ made <+: [StorageCall.createTable st.table,
          StorageCall.storeExtendedTableSchemaData st.table,
          StorageCall.executeSQL (copyStatement ext conn st.table st.fieldHash oldTable),
          StorageCall.alterTableName st.table oldTable.name true]
      ∧ (∀ t, x.returned ≠ .oldTable t)
      ∧ (x.args.result = .true →
          made = [StorageCall.createTable st.table,
            StorageCall.storeExtendedTableSchemaData st.table,
            StorageCall.executeSQL (copyStatement ext conn st.table st.fieldHash oldTable),
            StorageCall.alterTableName st.table oldTable.name true]
          ∧ x.returned = .newTable (st.table.setName oldTable.name)) := by
  simp only [KDbTableSchema.setName] at hloop
  have hcs : ∀ c : KDbConnection, c.escapeIdentifier = conn.escapeIdentifier →
      c.valueToSQL = conn.valueToSQL →
      copyStatement ext c st.table st.fieldHash oldTable
        = copyStatement ext conn st.table st.fieldHash oldTable :=
    fun c h1 h2 => copyStatement_congr ext c conn _ _ _ h1 h2
  by_cases hres : res = .true
  · subst hres
    by_cases hcreate : conn.createTableOk = true
    · by_cases hstore : conn.storeExtendedTableSchemaDataOk = true
      · by_cases hsql : conn.executeSQLOk = true
        · by_cases halt : conn.alterTableNameOk = true
          · simp [commitActions, hphys, htmp, Except.map, KDbTableSchema.setName, hloop,
              KDbConnection.createTable, KDbConnection.storeExtendedTableSchemaData,
              KDbConnection.executeSQL, KDbConnection.alterTableName, hcreate, hstore, hsql,
              halt, hcs]
          · simp [commitActions, hphys, htmp, Except.map, KDbTableSchema.setName, hloop,
              KDbConnection.createTable, KDbConnection.storeExtendedTableSchemaData,
              KDbConnection.executeSQL, KDbConnection.alterTableName, hcreate, hstore, hsql,
              halt, hcs]
        · simp [commitActions, hphys, htmp, Except.map, KDbTableSchema.setName, hloop,
            KDbConnection.createTable, KDbConnection.storeExtendedTableSchemaData,
            KDbConnection.executeSQL, KDbConnection.alterTableName, hcreate, hstore, hsql, hcs]
      · simp [commitActions, hphys, htmp, Except.map, KDbTableSchema.setName, hloop,
          KDbConnection.createTable, KDbConnection.storeExtendedTableSchemaData,
          KDbConnection.executeSQL, KDbConnection.alterTableName, hcreate, hstore]
    · simp [commitActions, hphys, htmp, Except.map, KDbTableSchema.setName, hloop,
        KDbConnection.createTable, KDbConnection.storeExtendedTableSchemaData,
        KDbConnection.executeSQL, KDbConnection.alterTableName, hcreate]
  · simp [commitActions, hphys, htmp, Except.map, KDbTableSchema.setName, hloop, hres]

theorem commitActions_inplace (ext : External) (conn : KDbConnection) (actions : List Action)
    (oldTable : KDbTableSchema) (plan : PlanState) (args : ExecutionArguments)
    (rands : List Nat) (res : tristate) (st : MutationState)
    (hphys : plan.requirements &&& PhysicalAlteringRequired = 0)
    (hloop : updateSchemaLoop ext plan.actionsVector
      { table := oldTable,
        fieldHash := (oldTable.fields.map fun e => e.2).foldl
          (fun h f => hashInsert h f.name f.name) [] } = .ok (res, st)) :
    ∃ made x c, commitActions ext conn actions oldTable plan args rands = .ok x
      ∧ x.handler.conn = some c ∧ c.calls = conn.calls ++ made
      ∧ (∀ k ∈ made, k.kindName = "storeExtendedTableSchemaData"
          ∨ k.kindName = "storeMainFieldSchema")
      ∧ (∀ t, x.returned ≠ .newTable t)
      ∧ (x.args.result = .true → x.returned = .oldTable st.table) := by
  by_cases hres : res = .true
  · subst hres
    by_cases hstore : conn.storeExtendedTableSchemaDataOk = true
    · by_cases hmain : MainSchemaAlteringRequired &&& plan.requirements ≠ 0
          ∧ plan.fieldsWithChangedMainSchema ≠ []
      · obtain ⟨made, hm, hk⟩ := storeChangedFields_calls ext st.table
          plan.fieldsWithChangedMainSchema
          ({ conn with tables := KDbConnection.replaceTable conn.tables oldTable.name st.table
            }.storeExtendedTableSchemaData st.table).2
        refine ⟨StorageCall.storeExtendedTableSchemaData st.table :: made, ?_⟩
        have hk2 : ∀ a ∈ made, a.kindName = "storeExtendedTableSchemaData"
            ∨ a.kindName = "storeMainFieldSchema" := fun a ha => Or.inr (hk a ha)
        by_cases hw : (storeChangedFields ext st.table plan.fieldsWithChangedMainSchema
          ({ conn with tables := KDbConnection.replaceTable conn.tables oldTable.name st.table
            }.storeExtendedTableSchemaData st.table).2).1 = true
        · simp only [KDbConnection.storeExtendedTableSchemaData, hstore] at hw hm
          simp [commitActions, hphys, hloop, KDbConnection.storeExtendedTableSchemaData,
            hstore, hmain, hw, hm, StorageCall.kindName]
          exact hk2
        · simp only [KDbConnection.storeExtendedTableSchemaData, hstore] at hw hm
          simp [commitActions, hphys, hloop, KDbConnection.storeExtendedTableSchemaData,
            hstore, hmain, hw, hm, StorageCall.kindName]
          exact hk2
      · refine ⟨[StorageCall.storeExtendedTableSchemaData st.table], ?_⟩
        simp [commitActions, hphys, hloop, KDbConnection.storeExtendedTableSchemaData,
          hstore, hmain, StorageCall.kindName]
    · refine ⟨[StorageCall.storeExtendedTableSchemaData st.table], ?_⟩
      simp [commitActions, hphys, hloop, KDbConnection.storeExtendedTableSchemaData, hstore,
        StorageCall.kindName]
  · refine ⟨[], ?_⟩
    simp [commitActions, hphys, hloop, hres]

theorem storeChangedFields_succeeds (ext : External) (newTable : KDbTableSchema) :
    ∀ (names : List QString) (conn : KDbConnection), conn.storeMainFieldSchemaOk = true →
      (storeChangedFields ext newTable names conn).1 = true
  | [], _, _ => rfl
  | name :: rest, conn, hok => by
    unfold storeChangedFields
    cases (newTable.field ext name).bind newTable.fieldAt with
    | none => exact storeChangedFields_succeeds ext newTable rest conn hok
    | some f =>
      simp only [KDbConnection.storeMainFieldSchema, hok, Bool.not_true, Bool.false_eq_true,
        if_false]
      exact storeChangedFields_succeeds ext newTable rest _ rfl

theorem commitActions_physical_ok (ext : External) (conn : KDbConnection)
    (actions : List Action) (oldTable : KDbTableSchema) (plan : PlanState)
    (args : ExecutionArguments) (rands : List Nat) (tmp : QString) (st : MutationState)
    (hphys : plan.requirements &&& PhysicalAlteringRequired ≠ 0)
    (htmp : tempDestTableName conn oldTable.name rands = .ok tmp)
    (hloop : updateSchemaLoop ext plan.actionsVector
      { table := oldTable.setName tmp,
        fieldHash := (oldTable.fields.map fun e => e.2).foldl
          (fun h f => hashInsert h f.name f.name) [] } = .ok (.true, st))
    (hcreate : conn.createTableOk = true)
    (hstore : conn.storeExtendedTableSchemaDataOk = true)
    (hsql : conn.executeSQLOk = true) (halt : conn.alterTableNameOk = true) :
    ∀ x, commitActions ext conn actions oldTable plan args rands = .ok x →
      x.args.result = .true := by
  intro x hx
  simp only [KDbTableSchema.setName] at hloop
  simp [commitActions, hphys, htmp, Except.map, KDbTableSchema.setName, hloop,
    KDbConnection.createTable, KDbConnection.storeExtendedTableSchemaData,
    KDbConnection.executeSQL, KDbConnection.alterTableName, hcreate, hstore, hsql, halt] at hx
  rw [← hx]

theorem commitActions_inplace_result (ext : External) (conn : KDbConnection)
    (actions : List Action) (oldTable : KDbTableSchema) (plan : PlanState)
    (args : ExecutionArguments) (rands : List Nat) (st : MutationState)
    (hphys : plan.requirements &&& PhysicalAlteringRequired = 0)
    (hloop : updateSchemaLoop ext plan.actionsVector
      { table := oldTable,
        fieldHash := (oldTable.fields.map fun e => e.2).foldl
          (fun h f => hashInsert h f.name f.name) [] } = .ok (.true, st))
    (hstore : conn.storeExtendedTableSchemaDataOk = true)
    (hmain : conn.storeMainFieldSchemaOk = true) :
    ∀ x, commitActions ext conn actions oldTable plan args rands = .ok x →
      x.args.result = .true := by
  intro x hx
  have hsc := storeChangedFields_succeeds ext st.table plan.fieldsWithChangedMainSchema
    ({ conn with tables := KDbConnection.replaceTable conn.tables oldTable.name st.table,
                 calls := conn.calls ++ [StorageCall.storeExtendedTableSchemaData st.table],
                 storeExtendedTableSchemaDataOk := true } : KDbConnection) hmain
  by_cases hcond : MainSchemaAlteringRequired &&& plan.requirements ≠ 0
      ∧ plan.fieldsWithChangedMainSchema ≠ []
  · simp [commitActions, hphys, hloop, KDbConnection.storeExtendedTableSchemaData, hstore,
      hcond, hsc] at hx
    rw [← hx]
  · simp [commitActions, hphys, hloop, KDbConnection.storeExtendedTableSchemaData, hstore,
      hcond] at hx
    rw [← hx]

/-- C20: in commit mode with a non-zero aggregate, on a usable connection, execute returns,
and the path it takes is decided by PhysicalAlteringRequired in the aggregate. With the flag
set, the storage calls it makes are an initial part of createTable, then
storeExtendedTableSchemaData, then executeSQL of the copy statement, then alterTableName to the
original name; it never returns the original table object, and when it reports success it
made all four calls and returns the new table object under the original name; and when the
schema-update loop succeeds and the four calls succeed, it does report success, so that the
rebuild is carried out in full and the replacement object is returned. Without the
flag it makes no createTable, executeSQL or alterTableName call (only
storeExtendedTableSchemaData and storeMainFieldSchema), never returns a new table object, and
when it reports success it returns the original table object; and when the schema-update
loop succeeds and the connection stores what it is asked to, it does report success and
returns the original table object. -/
theorem rebuild_path_iff_physical (ext : External) (conn : KDbConnection)
    (actions : List Action) (tableName : QString) (oldTable : KDbTableSchema)
    (args : ExecutionArguments) (rands : List Nat) (tmp : QString) (res : tristate)
    (st : MutationState)
    (hro : conn.isReadOnly = false) (hdb : conn.isDatabaseUsed = true)
    (ht : conn.tableSchema tableName = some oldTable)
    (hmode : args.onlyComputeRequirements = false) (hsim : args.simulate = false)
    (hreq : aggregateRequirements ext (simplifyLoop ext (numberActions actions 0) []).2 ≠ 0)
    (htmp : aggregateRequirements ext (simplifyLoop ext (numberActions actions 0) []).2
        &&& PhysicalAlteringRequired ≠ 0 →
      tempDestTableName conn oldTable.name rands = .ok tmp)
    (hloop : updateSchemaLoop ext (planActions ext (simplifyLoop ext (numberActions actions 0) []).2
        (numberActions actions 0).length).actionsVector
      { table := if aggregateRequirements ext (simplifyLoop ext (numberActions actions 0) []).2
            &&& PhysicalAlteringRequired ≠ 0 then oldTable.setName tmp else oldTable,
        fieldHash := (oldTable.fields.map fun e => e.2).foldl
          (fun h f => hashInsert h f.name f.name) [] } = .ok (res, st)) :
    ∃ x c made, KDbAlterTableHandler.execute ext { actions := actions, conn := some conn }
          tableName args rands = .ok x
      ∧ x.handler.conn = some c ∧ c.calls = conn.calls ++ made
      ∧ (aggregateRequirements ext (simplifyLoop ext (numberActions actions 0) []).2
            &&& PhysicalAlteringRequired ≠ 0 →
          made <+: [StorageCall.createTable st.table,
            StorageCall.storeExtendedTableSchemaData st.table,
            StorageCall.executeSQL (copyStatement ext conn st.table st.fieldHash oldTable),
            StorageCall.alterTableName st.table oldTable.name true]
          ∧ (∀ t, x.returned ≠ .oldTable t)
          ∧ (x.args.result = .true →
              made = [StorageCall.createTable st.table,
                StorageCall.storeExtendedTableSchemaData st.table,
                StorageCall.executeSQL (copyStatement ext conn st.table st.fieldHash oldTable),
                StorageCall.alterTableName st.table oldTable.name true]
              ∧ x.returned = .newTable (st.table.setName oldTable.name))
          ∧ (res = .true → conn.createTableOk = true →
              conn.storeExtendedTableSchemaDataOk = true → conn.executeSQLOk = true →
              conn.alterTableNameOk = true →
              x.args.result = .true
              ∧ made = [StorageCall.createTable st.table,
                StorageCall.storeExtendedTableSchemaData st.table,
                StorageCall.executeSQL (copyStatement ext conn st.table st.fieldHash oldTable),
                StorageCall.alterTableName st.table oldTable.name true]
              ∧ x.returned = .newTable (st.table.setName oldTable.name)))
      ∧ (aggregateRequirements ext (simplifyLoop ext (numberActions actions 0) []).2
            &&& PhysicalAlteringRequired = 0 →
          (∀ k ∈ made, k.kindName ≠ "createTable" ∧ k.kindName ≠ "executeSQL"
            ∧ k.kindName ≠ "alterTableName")
          ∧ (∀ t, x.returned ≠ .newTable t)
          ∧ (x.args.result = .true → x.returned = .oldTable st.table)
          ∧ (res = .true → conn.storeExtendedTableSchemaDataOk = true →
              conn.storeMainFieldSchemaOk = true →
              x.args.result = .true ∧ x.returned = .oldTable st.table)) := by
  have hpr := planActions_requirements ext (simplifyLoop ext (numberActions actions 0) []).2
    (numberActions actions 0).length
  have hreq2 : (planActions ext (simplifyLoop ext (numberActions actions 0) []).2
      (numberActions actions 0).length).requirements ≠ 0 := by
    rw [hpr]; exact hreq
  rw [execute_commit ext actions conn tableName oldTable args rands hro hdb ht hmode hsim hreq2]
  by_cases hphys : aggregateRequirements ext (simplifyLoop ext (numberActions actions 0) []).2
      &&& PhysicalAlteringRequired ≠ 0
  · rw [if_pos hphys] at hloop
    have hphys2 := hphys
    rw [← hpr] at hphys2
    obtain ⟨x, c, made, hx, hc, hcalls, hpre, hold, hok⟩ := commitActions_physical ext conn
      (simplifyLoop ext (numberActions actions 0) []).1 oldTable _
      (ExecutionArguments.traced
        { args with result := .false
                    requirements := (planActions ext (simplifyLoop ext (numberActions actions 0) []).2
                      (numberActions actions 0).length).requirements }
        (debugTrace ext (planActions ext (simplifyLoop ext (numberActions actions 0) []).2
          (numberActions actions 0).length).actionsVector))
      rands tmp res st hphys2 (htmp hphys) hloop
    refine ⟨x, c, made, hx, hc, hcalls, fun _ => ⟨hpre, hold, hok, ?_⟩, fun h0 => absurd h0 hphys⟩
    intro hres hcreate hstore hsql halt
    subst hres
    have hres2 := commitActions_physical_ok ext conn
      (simplifyLoop ext (numberActions actions 0) []).1 oldTable _
      (ExecutionArguments.traced
        { args with result := .false
                    requirements := (planActions ext (simplifyLoop ext (numberActions actions 0) []).2
                      (numberActions actions 0).length).requirements }
        (debugTrace ext (planActions ext (simplifyLoop ext (numberActions actions 0) []).2
          (numberActions actions 0).length).actionsVector))
      rands tmp st hphys2 (htmp hphys) hloop hcreate hstore hsql halt x hx
    exact ⟨hres2, hok hres2⟩
  · rw [if_neg hphys] at hloop
    have hphys0 : aggregateRequirements ext (simplifyLoop ext (numberActions actions 0) []).2
        &&& PhysicalAlteringRequired = 0 := not_not.1 hphys
    have hphys2 := hphys0
    rw [← hpr] at hphys2
    obtain ⟨made, x, c, hx, hc, hcalls, hkind, hnew, hok⟩ := commitActions_inplace ext conn
      (simplifyLoop ext (numberActions actions 0) []).1 oldTable _
      (ExecutionArguments.traced
        { args with result := .false
                    requirements := (planActions ext (simplifyLoop ext (numberActions actions 0) []).2
                      (numberActions actions 0).length).requirements }
        (debugTrace ext (planActions ext (simplifyLoop ext (numberActions actions 0) []).2
          (numberActions actions 0).length).actionsVector))
      rands res st hphys2 hloop
    refine ⟨x, c, made, hx, hc, hcalls, fun h1 => absurd hphys0 h1, fun _ => ⟨?_, hnew, hok, ?_⟩⟩
    · intro k hk
      rcases hkind k hk with h | h <;> rw [h] <;> decide
    · intro hres hstore hmain
      subst hres
      have hres2 := commitActions_inplace_result ext conn
        (simplifyLoop ext (numberActions actions 0) []).1 oldTable _
        (ExecutionArguments.traced
          { args with result := .false
                      requirements := (planActions ext (simplifyLoop ext (numberActions actions 0) []).2
                        (numberActions actions 0).length).requirements }
          (debugTrace ext (planActions ext (simplifyLoop ext (numberActions actions 0) []).2
            (numberActions actions 0).length).actionsVector))
        rands st hphys2 hloop hstore hmain x hx
      exact ⟨hres2, hok hres2⟩

/-- Witness of C20: remove(a) on the example table, with rand() returning 10 and 11. -/
theorem rebuild_path_iff_physical_witness :
    ∃ x c made, KDbAlterTableHandler.execute exampleExternal
          { actions := [RemoveFieldAction "a".toList 1], conn := some exampleConnection }
          "T".toList {} [10, 11] = .ok x
      ∧ x.handler.conn = some c ∧ c.calls = exampleConnection.calls ++ made
      ∧ (aggregateRequirements exampleExternal (simplifyLoop exampleExternal
            (numberActions [RemoveFieldAction "a".toList 1] 0) []).2
            &&& PhysicalAlteringRequired ≠ 0 →
          made <+: [StorageCall.createTable exampleStateAfterRemove.table,
            StorageCall.storeExtendedTableSchemaData exampleStateAfterRemove.table,
            StorageCall.executeSQL (copyStatement exampleExternal exampleConnection
              exampleStateAfterRemove.table exampleStateAfterRemove.fieldHash exampleTable),
            StorageCall.alterTableName exampleStateAfterRemove.table exampleTable.name true]
          ∧ (∀ t, x.returned ≠ .oldTable t)
          ∧ (x.args.result = .true →
              made = [StorageCall.createTable exampleStateAfterRemove.table,
                StorageCall.storeExtendedTableSchemaData exampleStateAfterRemove.table,
                StorageCall.executeSQL (copyStatement exampleExternal exampleConnection
                  exampleStateAfterRemove.table exampleStateAfterRemove.fieldHash exampleTable),
                StorageCall.alterTableName exampleStateAfterRemove.table exampleTable.name true]
              ∧ x.returned = .newTable (exampleStateAfterRemove.table.setName exampleTable.name))
          ∧ (tristate.true = .true → exampleConnection.createTableOk = true →
              exampleConnection.storeExtendedTableSchemaDataOk = true →
              exampleConnection.executeSQLOk = true →
              exampleConnection.alterTableNameOk = true →
              x.args.result = .true
              ∧ made = [StorageCall.createTable exampleStateAfterRemove.table,
                StorageCall.storeExtendedTableSchemaData exampleStateAfterRemove.table,
                StorageCall.executeSQL (copyStatement exampleExternal exampleConnection
                  exampleStateAfterRemove.table exampleStateAfterRemove.fieldHash exampleTable),
                StorageCall.alterTableName exampleStateAfterRemove.table exampleTable.name true]
              ∧ x.returned = .newTable (exampleStateAfterRemove.table.setName exampleTable.name)))
      ∧ (aggregateRequirements exampleExternal (simplifyLoop exampleExternal
            (numberActions [RemoveFieldAction "a".toList 1] 0) []).2
            &&& PhysicalAlteringRequired = 0 →
          (∀ k ∈ made, k.kindName ≠ "createTable" ∧ k.kindName ≠ "executeSQL"
            ∧ k.kindName ≠ "alterTableName")
          ∧ (∀ t, x.returned ≠ .newTable t)
          ∧ (x.args.result = .true → x.returned = .oldTable exampleStateAfterRemove.table)
          ∧ (tristate.true = .true → exampleConnection.storeExtendedTableSchemaDataOk = true →
              exampleConnection.storeMainFieldSchemaOk = true →
              x.args.result = .true
              ∧ x.returned = .oldTable exampleStateAfterRemove.table)) :=
  rebuild_path_iff_physical exampleExternal exampleConnection [RemoveFieldAction "a".toList 1]
    "T".toList exampleTable {} [10, 11] "T_tempab".toList .true exampleStateAfterRemove
    rfl rfl rfl rfl rfl (by decide) (fun _ => rfl) rfl

/-! ## C12: what a dry run leaves in the submitted list -/

theorem numberAction_fieldName (a : Action) (n : Int) :
    (numberAction a n).fieldName = a.fieldName := by
  obtain ⟨req, ord, uid, fname, kind⟩ := a
  cases kind <;> rfl

theorem numberAction_kind (a : Action) (n : Int) : (numberAction a n).kind = a.kind := by
  obtain ⟨req, ord, uid, fname, kind⟩ := a
  cases kind <;> rfl

theorem numberAction_order (a : Action) (n : Int) : (numberAction a n).order = n := by
  obtain ⟨req, ord, uid, fname, kind⟩ := a
  cases kind <;> rfl

theorem simplifyActions_fieldUID (ext : External) (a : Action) (fa : ActionDictDict) :
    (a.simplifyActions ext fa).1.fieldUID = a.fieldUID := by
  obtain ⟨req, ord, uid, fname, kind⟩ := a
  cases kind with
  | changeFieldProperty p v =>
    simp only [Action.simplifyActions, Action.simplifyChangeFieldProperty]
    repeat' split
    all_goals rfl
  | removeField => rfl
  | insertField i f =>
    simp only [Action.simplifyActions, Action.simplifyInsertField, Action.setFieldName]
    repeat' split
    all_goals rfl
  | moveFieldPosition i => rfl

theorem simplifyActions_order (ext : External) (a : Action) (fa : ActionDictDict) :
    (a.simplifyActions ext fa).1.order = a.order := by
  obtain ⟨req, ord, uid, fname, kind⟩ := a
  cases kind with
  | changeFieldProperty p v =>
    simp only [Action.simplifyActions, Action.simplifyChangeFieldProperty]
    repeat' split
    all_goals rfl
  | removeField => rfl
  | insertField i f =>
    simp only [Action.simplifyActions, Action.simplifyInsertField, Action.setFieldName]
    repeat' split
    all_goals rfl
  | moveFieldPosition i => rfl

theorem simplifyActions_fst_of_plain (ext : External) (a : Action) (fa : ActionDictDict)
    (h : a.mayBeRewritten = false) : (a.simplifyActions ext fa).1 = a := by
  obtain ⟨req, ord, uid, fname, kind⟩ := a
  cases kind with
  | changeFieldProperty p v =>
    have hp : p ≠ ['n', 'a', 'm', 'e'] := by
      simpa [Action.mayBeRewritten] using h
    simp only [Action.simplifyActions, Action.simplifyChangeFieldProperty]
    rw [if_neg (by simpa using hp)]
    repeat' split
    all_goals rfl
  | removeField => rfl
  | insertField i f => simp [Action.mayBeRewritten] at h
  | moveFieldPosition i => rfl

theorem simplifyLoop_numbered_fst (ext : External) (fa : ActionDictDict) :
    ∀ (l : List Action) (n : Int),
      List.Forall₂ (fun a b => b.fieldUID = a.fieldUID
          ∧ (a.mayBeRewritten = false → b.fieldName = a.fieldName ∧ b.kind = a.kind))
        l (simplifyLoop ext (numberActions l n) fa).1
  | [], _ => List.Forall₂.nil
  | a :: rest, n => by
    simp only [numberActions, simplifyLoop]
    refine List.Forall₂.cons ⟨?_, ?_⟩ (simplifyLoop_numbered_fst ext fa rest (n + 1))
    · rw [simplifyActions_fieldUID, numberAction_fieldUID]
    · intro hplain
      have h2 : (numberAction a n).mayBeRewritten = false := by
        unfold Action.mayBeRewritten at hplain ⊢
        rw [numberAction_kind]
        exact hplain
      rw [simplifyActions_fst_of_plain ext _ _ h2]
      exact ⟨numberAction_fieldName a n, numberAction_kind a n⟩

theorem forall₂_same_content (l : List Action) :
    List.Forall₂ (fun a b => b.fieldUID = a.fieldUID
        ∧ (a.mayBeRewritten = false → b.fieldName = a.fieldName ∧ b.kind = a.kind)) l l := by
  induction l with
  | nil => exact List.Forall₂.nil
  | cons a rest ih => exact List.Forall₂.cons ⟨rfl, fun _ => ⟨rfl, rfl⟩⟩ ih

/-- C12 (amended): a run of execute in simulate or requirements-only mode returns, and the
handler's list afterwards holds, position by position, an action for the same field UID as
the submitted one; every submitted action that is neither an InsertFieldAction nor a change
of the property "name" has the same field name and the same content (class, property name,
new value) as before the call. -/
theorem dry_run_keeps_other_actions (ext : External) (h : KDbAlterTableHandler)
    (tableName : QString) (args : ExecutionArguments) (rands : List Nat)
    (hdry : args.simulate = true ∨ args.onlyComputeRequirements = true) :
    ∃ x, h.execute ext tableName args rands = .ok x
      ∧ List.Forall₂ (fun a b => b.fieldUID = a.fieldUID
          ∧ (a.mayBeRewritten = false → b.fieldName = a.fieldName ∧ b.kind = a.kind))
        h.actions x.handler.actions := by
  obtain ⟨actions, conn⟩ := h
  have hsame := forall₂_same_content actions
  have hloop := simplifyLoop_numbered_fst ext [] actions 0
  cases conn with
  | none => exact ⟨_, rfl, hsame⟩
  | some conn =>
    by_cases hro : conn.isReadOnly = true
    · simp only [KDbAlterTableHandler.execute, hro, if_true]
      exact ⟨_, rfl, hsame⟩
    · by_cases hdb : conn.isDatabaseUsed = true
      · cases ht : conn.tableSchema tableName with
        | none =>
          simp only [KDbAlterTableHandler.execute, hro, hdb, ht]
          exact ⟨_, rfl, hsame⟩
        | some oldTable =>
          by_cases hmode : args.onlyComputeRequirements = true
          · simp only [KDbAlterTableHandler.execute, hro, hdb, ht, hmode]
            exact ⟨_, rfl, hloop⟩
          · have hsim : args.simulate = true := by
              rcases hdry with h1 | h1
              · exact h1
              · exact absurd h1 hmode
            by_cases hz : (planActions ext (simplifyLoop ext (numberActions actions 0) []).2
                (numberActions actions 0).length).requirements = 0
            · simp [KDbAlterTableHandler.execute, hro, hdb, ht, hmode, hsim, hz,
                ExecutionArguments.traced]
              exact hloop
            · simp [KDbAlterTableHandler.execute, hro, hdb, ht, hmode, hsim, hz,
                ExecutionArguments.traced]
              exact hloop
      · have hdb2 : conn.isDatabaseUsed = false := by simpa using hdb
        have hro2 : conn.isReadOnly = false := by simpa using hro
        simp only [KDbAlterTableHandler.execute, hro2, hdb2]
        exact ⟨_, rfl, hsame⟩

/-- Witness of C12 (amended): a simulated change of the caption of a, then removal of b. -/
theorem dry_run_keeps_other_actions_witness :
    ∃ x, KDbAlterTableHandler.execute exampleExternal
          { actions := [ChangeFieldPropertyAction "a".toList "caption".toList
                          (.string "X".toList) 1, RemoveFieldAction "b".toList 2],
            conn := some exampleConnection } "T".toList { simulate := true } [] = .ok x
      ∧ List.Forall₂ (fun a b => b.fieldUID = a.fieldUID
          ∧ (a.mayBeRewritten = false → b.fieldName = a.fieldName ∧ b.kind = a.kind))
        [ChangeFieldPropertyAction "a".toList "caption".toList (.string "X".toList) 1,
         RemoveFieldAction "b".toList 2] x.handler.actions :=
  dry_run_keeps_other_actions exampleExternal
    { actions := [ChangeFieldPropertyAction "a".toList "caption".toList
                    (.string "X".toList) 1, RemoveFieldAction "b".toList 2],
      conn := some exampleConnection } "T".toList { simulate := true } [] (Or.inl rfl)

/-- C12 as stated fails: after a simulated run on [insert(5, d), change(5, caption, X)] the
insert action of the handler's list carries a field definition with caption X, not the
definition that was submitted. -/
theorem dry_run_rewrites_insert_counterexample :
    ∃ x b, KDbAlterTableHandler.execute exampleExternal
          { actions := [InsertFieldAction 2 exampleInsertedField 5,
                        ChangeFieldPropertyAction "d".toList "caption".toList
                          (.string "X".toList) 5],
            conn := some exampleConnection } "T".toList { simulate := true } [] = .ok x
      ∧ x.handler.actions.head? = some b
      ∧ b.kind = .insertField 2 { exampleInsertedField with caption := "X".toList }
      ∧ b.kind ≠ (InsertFieldAction 2 exampleInsertedField 5).kind := by
  refine ⟨_, _, rfl, rfl, ?_, ?_⟩ <;> decide

/-! ## C19: orders of the surviving actions -/

theorem flatMap_singleton_eq_map {α β : Type} (g : α → β) (l : List α) :
    (l.flatMap fun e => [g e]) = l.map g := by
  induction l with
  | nil => rfl
  | cons a rest ih => simp [List.flatMap_cons, ih]

theorem sublist_flatMap {α β : Type} (f : α → List β) {l1 l2 : List α}
    (h : l1.Sublist l2) : (l1.flatMap f).Sublist (l2.flatMap f) := by
  induction h with
  | slnil => simp
  | cons a _ ih =>
    rw [List.flatMap_cons]
    exact ih.trans (List.sublist_append_right _ _)
  | cons₂ a _ ih =>
    rw [List.flatMap_cons, List.flatMap_cons]
    exact List.Sublist.append_left ih _

theorem hashInsert_flatMap_perm {K V W : Type} [DecidableEq K] (f : V → List W) (k : K)
    (v : V) : ∀ h : List (K × V),
      ∃ rest, (h.flatMap fun e => f e.2).Perm ((hashValue h k).elim [] f ++ rest)
        ∧ ((hashInsert h k v).flatMap fun e => f e.2).Perm (f v ++ rest)
  | [] => ⟨[], by simp [hashValue, hashInsert]⟩
  | (k1, v1) :: t => by
    by_cases hk : k1 = k
    · refine ⟨t.flatMap fun e => f e.2, ?_, ?_⟩
      · simp [hashValue, hk, List.flatMap_cons]
      · simp [hashInsert, hk, List.flatMap_cons]
    · obtain ⟨rest, h1, h2⟩ := hashInsert_flatMap_perm f k v t
      refine ⟨f v1 ++ rest, ?_, ?_⟩
      · simp only [hashValue, hk, if_false, List.flatMap_cons]
        exact (List.Perm.append_left (f v1) h1).trans (List.perm_append_comm_assoc _ _ _)
      · simp only [hashInsert, hk, if_false, List.flatMap_cons]
        exact (List.Perm.append_left (f v1) h2).trans (List.perm_append_comm_assoc _ _ _)

theorem hashRemove_flatMap_sublist {K V W : Type} [DecidableEq K] (f : V → List W) (k : K) :
    ∀ h : List (K × V),
      ∃ rest, (h.flatMap fun e => f e.2).Perm ((hashValue h k).elim [] f ++ rest)
        ∧ ((hashRemove h k).flatMap fun e => f e.2).Sublist rest
  | [] => ⟨[], by simp [hashValue, hashRemove]⟩
  | (k1, v1) :: t => by
    obtain ⟨rest, h1, h2⟩ := hashRemove_flatMap_sublist f k t
    by_cases hk : k1 = k
    · refine ⟨t.flatMap fun e => f e.2, ?_, ?_⟩
      · simp [hashValue, hk, List.flatMap_cons]
      · have hs : (hashRemove t k).Sublist t := List.filter_sublist _
        have : hashRemove ((k1, v1) :: t) k = hashRemove t k := by
          simp [hashRemove, hk]
        rw [this]
        exact sublist_flatMap _ hs
    · refine ⟨f v1 ++ rest, ?_, ?_⟩
      · simp only [hashValue, hk, if_false, List.flatMap_cons]
        exact (List.Perm.append_left (f v1) h1).trans (List.perm_append_comm_assoc _ _ _)
      · have : hashRemove ((k1, v1) :: t) k = (k1, v1) :: hashRemove t k := by
          simp [hashRemove, hk]
        rw [this, List.flatMap_cons]
        exact List.Sublist.append_left h2 (f v1)

theorem hashInsert_nodup_map {K V W X : Type} [DecidableEq K] (f : V → List W) (g : W → X)
    (h : List (K × V)) (k : K) (v : V)
    (hn : ((h.flatMap fun e => f e.2).map g).Nodup)
    (hv : ((f v).map g).Nodup)
    (hd : ∀ x ∈ (f v).map g, x ∈ ((hashValue h k).elim [] f).map g
      ∨ x ∉ (h.flatMap fun e => f e.2).map g) :
    (((hashInsert h k v).flatMap fun e => f e.2).map g).Nodup := by
  obtain ⟨rest, h1, h2⟩ := hashInsert_flatMap_perm f k v h
  have hn2 : (((hashValue h k).elim [] f ++ rest).map g).Nodup := (h1.map g).nodup_iff.1 hn
  rw [List.map_append, List.nodup_append] at hn2
  obtain ⟨_, hrest, hdis⟩ := hn2
  refine (h2.map g).nodup_iff.2 ?_
  rw [List.map_append, List.nodup_append]
  refine ⟨hv, hrest, ?_⟩
  intro x hx1 hx2
  rcases hd x hx1 with h3 | h3
  · exact hdis h3 hx2
  · apply h3
    refine (h1.map g).mem_iff.2 ?_
    rw [List.map_append]
    exact List.mem_append_right _ hx2

theorem mem_hashInsert_flatMap {K V W : Type} [DecidableEq K] (f : V → List W)
    (h : List (K × V)) (k : K) (v : V) (x : W)
    (hx : x ∈ (hashInsert h k v).flatMap fun e => f e.2) :
    x ∈ f v ∨ x ∈ h.flatMap fun e => f e.2 := by
  obtain ⟨rest, h1, h2⟩ := hashInsert_flatMap_perm f k v h
  rcases List.mem_append.1 (h2.mem_iff.1 hx) with hx | hx
  · exact Or.inl hx
  · exact Or.inr (h1.mem_iff.2 (List.mem_append_right _ hx))

theorem hashValue_flatMap_subset {K V W : Type} [DecidableEq K] (f : V → List W)
    (h : List (K × V)) (k : K) (x : W) (hx : x ∈ (hashValue h k).elim [] f) :
    x ∈ h.flatMap fun e => f e.2 := by
  obtain ⟨rest, h1, _⟩ := hashRemove_flatMap_sublist f k h
  exact h1.mem_iff.2 (List.mem_append_left _ hx)

theorem hashRemove_flatMap_mem {K V W : Type} [DecidableEq K] (f : V → List W)
    (h : List (K × V)) (k : K) (x : W) (hx : x ∈ (hashRemove h k).flatMap fun e => f e.2) :
    x ∈ h.flatMap fun e => f e.2 := by
  obtain ⟨rest, h1, h2⟩ := hashRemove_flatMap_sublist f k h
  exact h1.mem_iff.2 (List.mem_append_right _ (h2.subset hx))

theorem hashRemove_nodup_map {K V W X : Type} [DecidableEq K] (f : V → List W) (g : W → X)
    (h : List (K × V)) (k : K)
    (hn : ((h.flatMap fun e => f e.2).map g).Nodup) :
    (((hashRemove h k).flatMap fun e => f e.2).map g).Nodup
      ∧ ∀ x ∈ ((hashValue h k).elim [] f).map g,
          x ∉ ((hashRemove h k).flatMap fun e => f e.2).map g := by
  obtain ⟨rest, h1, h2⟩ := hashRemove_flatMap_sublist f k h
  have hn2 : (((hashValue h k).elim [] f ++ rest).map g).Nodup := (h1.map g).nodup_iff.1 hn
  rw [List.map_append, List.nodup_append] at hn2
  obtain ⟨_, hrest, hdis⟩ := hn2
  refine ⟨hrest.sublist (h2.map g), ?_⟩
  intro x hx1 hx2
  exact hdis hx1 ((h2.map g).subset hx2)

theorem hashInsert_hashInsert_self {K V : Type} [DecidableEq K] (k : K) (v1 v2 : V) :
    ∀ h : List (K × V), hashInsert (hashInsert h k v1) k v2 = hashInsert h k v2
  | [] => by simp [hashInsert]
  | (k1, w) :: t => by
    by_cases hk : k1 = k
    · simp [hashInsert, hk]
    · simp [hashInsert, hk, hashInsert_hashInsert_self k v1 v2 t]

/-! Facts on one dictionary. -/

theorem mem_dictActions_hashInsert (d : ActionDict) (k : QByteArray) (c a : Action)
    (ha : a ∈ dictActions (hashInsert d k c)) : a = c ∨ a ∈ dictActions d := by
  induction d with
  | nil => simpa [hashInsert, dictActions] using ha
  | cons e t ih =>
    obtain ⟨k1, w⟩ := e
    by_cases hk : k1 = k
    · simp only [hashInsert, hk, if_true, dictActions, List.map_cons, List.mem_cons] at ha ⊢
      rcases ha with ha | ha
      · exact Or.inl ha
      · exact Or.inr (Or.inr ha)
    · simp only [hashInsert, hk, if_false, dictActions, List.map_cons, List.mem_cons] at ha ih ⊢
      rcases ha with ha | ha
      · exact Or.inr (Or.inl ha)
      · rcases ih ha with h1 | h1
        · exact Or.inl h1
        · exact Or.inr (Or.inr h1)

theorem nodup_dictActions_hashInsert (d : ActionDict) (k : QByteArray) (c : Action)
    (hn : ((dictActions d).map Action.order).Nodup)
    (hc : c.order ∉ (dictActions d).map Action.order) :
    ((dictActions (hashInsert d k c)).map Action.order).Nodup := by
  induction d with
  | nil => simp [hashInsert, dictActions]
  | cons e t ih =>
    obtain ⟨k1, w⟩ := e
    simp only [dictActions, List.map_cons, List.nodup_cons, List.mem_cons, not_or] at hn hc
    by_cases hk : k1 = k
    · simp only [hashInsert, hk, if_true, dictActions, List.map_cons, List.nodup_cons]
      exact ⟨hc.2, hn.2⟩
    · simp only [hashInsert, hk, if_false, dictActions, List.map_cons, List.nodup_cons]
      refine ⟨?_, ih hn.2 hc.2⟩
      intro hmem
      obtain ⟨a, ha, hao⟩ := List.mem_map.1 hmem
      rcases mem_dictActions_hashInsert t k c a ha with h1 | h1
      · rw [h1] at hao
        exact hc.1 hao
      · exact hn.1 (List.mem_map.2 ⟨a, h1, hao⟩)

theorem elim_dictActions (fa : ActionDictDict) (u : Int) :
    (hashValue fa u).elim [] dictActions = dictActions ((hashValue fa u).getD []) := by
  cases hashValue fa u <;> rfl

theorem allActions_hashInsert (fa : ActionDictDict) (u : Int) (d1 : ActionDict) (n : Int)
    (hn : ((allActions fa).map Action.order).Nodup)
    (hnew : n ∉ (allActions fa).map Action.order)
    (hd : ((dictActions d1).map Action.order).Nodup)
    (hsrc : ∀ a ∈ dictActions d1, a.order = n
      ∨ a.order ∈ (dictActions ((hashValue fa u).getD [])).map Action.order) :
    ((allActions (hashInsert fa u d1)).map Action.order).Nodup
      ∧ ∀ a ∈ allActions (hashInsert fa u d1), a ∈ dictActions d1 ∨ a ∈ allActions fa := by
  constructor
  · refine hashInsert_nodup_map dictActions Action.order fa u d1 hn hd ?_
    intro x hx
    obtain ⟨a, ha, hao⟩ := List.mem_map.1 hx
    rcases hsrc a ha with h1 | h1
    · right
      rw [← hao, h1]
      exact hnew
    · left
      rw [elim_dictActions, ← hao]
      exact h1
  · intro a ha
    exact mem_hashInsert_flatMap dictActions fa u d1 a ha

theorem allActions_hashInsert_hashRemove (fa : ActionDictDict) (u : Int) (d1 : ActionDict)
    (n : Int)
    (hn : ((allActions fa).map Action.order).Nodup)
    (hnew : n ∉ (allActions fa).map Action.order)
    (hd : ((dictActions d1).map Action.order).Nodup)
    (hsrc : ∀ a ∈ dictActions d1, a.order = n
      ∨ a.order ∈ (dictActions ((hashValue fa u).getD [])).map Action.order) :
    ((allActions (hashInsert (hashRemove fa u) u d1)).map Action.order).Nodup
      ∧ ∀ a ∈ allActions (hashInsert (hashRemove fa u) u d1),
          a ∈ dictActions d1 ∨ a ∈ allActions fa := by
  obtain ⟨hrn, hrd⟩ := hashRemove_nodup_map dictActions Action.order fa u hn
  constructor
  · refine hashInsert_nodup_map dictActions Action.order (hashRemove fa u) u d1 hrn hd ?_
    intro x hx
    obtain ⟨a, ha, hao⟩ := List.mem_map.1 hx
    right
    rcases hsrc a ha with h1 | h1
    · rw [← hao, h1]
      intro hmem
      apply hnew
      obtain ⟨b, hb, hbo⟩ := List.mem_map.1 hmem
      exact List.mem_map.2 ⟨b, hashRemove_flatMap_mem dictActions fa u b hb, hbo⟩
    · rw [← hao]
      apply hrd
      rw [elim_dictActions]
      exact h1
  · intro a ha
    rcases mem_hashInsert_flatMap dictActions (hashRemove fa u) u d1 a ha with h1 | h1
    · exact Or.inl h1
    · exact Or.inr (hashRemove_flatMap_mem dictActions fa u a h1)

theorem dictActions_subset_allActions (fa : ActionDictDict) (u : Int) (a : Action)
    (ha : a ∈ dictActions ((hashValue fa u).getD [])) : a ∈ allActions fa := by
  rw [← elim_dictActions] at ha
  exact hashValue_flatMap_subset dictActions fa u a ha

theorem sameExceptField_self (k : ActionKind) : k.sameExceptField k = true := by
  cases k <;> simp [ActionKind.sameExceptField]

theorem sameApartFromName_self (a : Action) : a.sameApartFromName a := ⟨rfl, rfl, rfl⟩

theorem isCopyOf_self (a : Action) : a.isCopyOf a := ⟨rfl, rfl, sameExceptField_self _⟩

/-- What one call of simplifyActions may do to the map, given the dictionary it stores for
the field of the action. -/
theorem step_of_dict (fa : ActionDictDict) (this : Action) (d1 : ActionDict)
    (hn : ((allActions fa).map Action.order).Nodup)
    (hnew : this.order ∉ (allActions fa).map Action.order)
    (hd : ((dictActions d1).map Action.order).Nodup)
    (hsrc : ∀ a ∈ dictActions d1,
      (∃ a0 ∈ dictActions ((hashValue fa this.fieldUID).getD []), a.sameApartFromName a0)
      ∨ a.isCopyOf this) :
    (((allActions (hashInsert fa this.fieldUID d1)).map Action.order).Nodup
      ∧ ∀ a ∈ allActions (hashInsert fa this.fieldUID d1),
          (∃ a0 ∈ allActions fa, a.sameApartFromName a0) ∨ a.isCopyOf this)
    ∧ (((allActions (hashInsert (hashRemove fa this.fieldUID) this.fieldUID d1)).map
          Action.order).Nodup
      ∧ ∀ a ∈ allActions (hashInsert (hashRemove fa this.fieldUID) this.fieldUID d1),
          (∃ a0 ∈ allActions fa, a.sameApartFromName a0) ∨ a.isCopyOf this) := by
  have hsrc2 : ∀ a ∈ dictActions d1, a.order = this.order
      ∨ a.order ∈ (dictActions ((hashValue fa this.fieldUID).getD [])).map Action.order := by
    intro a ha
    rcases hsrc a ha with ⟨a0, ha0, he⟩ | hc
    · exact Or.inr (List.mem_map.2 ⟨a0, ha0, he.1.symm⟩)
    · exact Or.inl hc.1
  have hprov : ∀ a, (a ∈ dictActions d1 ∨ a ∈ allActions fa) →
      (∃ a0 ∈ allActions fa, a.sameApartFromName a0) ∨ a.isCopyOf this := by
    intro a ha
    rcases ha with ha | ha
    · rcases hsrc a ha with ⟨a0, ha0, he⟩ | hc
      · exact Or.inl ⟨a0, dictActions_subset_allActions fa _ a0 ha0, he⟩
      · exact Or.inr hc
    · exact Or.inl ⟨a, ha, sameApartFromName_self a⟩
  obtain ⟨h1, h2⟩ := allActions_hashInsert fa this.fieldUID d1 this.order hn hnew hd hsrc2
  obtain ⟨h3, h4⟩ := allActions_hashInsert_hashRemove fa this.fieldUID d1 this.order hn hnew
    hd hsrc2
  exact ⟨⟨h1, fun a ha => hprov a (h2 a ha)⟩, ⟨h3, fun a ha => hprov a (h4 a ha)⟩⟩

theorem step_of_same (fa : ActionDictDict) (this : Action)
    (hn : ((allActions fa).map Action.order).Nodup) :
    ((allActions fa).map Action.order).Nodup
      ∧ ∀ a ∈ allActions fa,
          (∃ a0 ∈ allActions fa, a.sameApartFromName a0) ∨ a.isCopyOf this :=
  ⟨hn, fun a ha => Or.inl ⟨a, ha, sameApartFromName_self a⟩⟩

/-! Dictionaries stored by simplifyActions. -/

theorem dict_renameAll (d : ActionDict) (fieldName : QString) (this : Action)
    (hn : ((dictActions d).map Action.order).Nodup) :
    ((dictActions (Action.renameAll d fieldName)).map Action.order).Nodup
      ∧ ∀ a ∈ dictActions (Action.renameAll d fieldName),
          (∃ a0 ∈ dictActions d, a.sameApartFromName a0) ∨ a.isCopyOf this := by
  have ho : (dictActions (Action.renameAll d fieldName)).map Action.order
      = (dictActions d).map Action.order := by
    simp [dictActions, Action.renameAll, Action.setFieldName, Function.comp_def]
  refine ⟨ho ▸ hn, ?_⟩
  intro a ha
  left
  simp only [dictActions, Action.renameAll, List.map_map, List.mem_map, Function.comp] at ha
  obtain ⟨e, he, hea⟩ := ha
  refine ⟨e.2, List.mem_map.2 ⟨e, he, rfl⟩, ?_⟩
  rw [← hea]
  exact ⟨rfl, rfl, rfl⟩

theorem dict_hashInsert (d : ActionDict) (k : QByteArray) (c this : Action)
    (hn : ((dictActions d).map Action.order).Nodup)
    (hc : c.order ∉ (dictActions d).map Action.order)
    (hcopy : c.isCopyOf this) :
    ((dictActions (hashInsert d k c)).map Action.order).Nodup
      ∧ ∀ a ∈ dictActions (hashInsert d k c),
          (∃ a0 ∈ dictActions d, a.sameApartFromName a0) ∨ a.isCopyOf this := by
  refine ⟨nodup_dictActions_hashInsert d k c hn hc, ?_⟩
  intro a ha
  rcases mem_dictActions_hashInsert d k c a ha with h1 | h1
  · right; rw [h1]; exact hcopy
  · exact Or.inl ⟨a, h1, sameApartFromName_self a⟩

theorem dict_hashRemove (d : ActionDict) (k : QByteArray) (this : Action)
    (hn : ((dictActions d).map Action.order).Nodup) :
    ((dictActions (hashRemove d k)).map Action.order).Nodup
      ∧ ∀ a ∈ dictActions (hashRemove d k),
          (∃ a0 ∈ dictActions d, a.sameApartFromName a0) ∨ a.isCopyOf this := by
  have hs : (dictActions (hashRemove d k)).Sublist (dictActions d) :=
    List.Sublist.map _ (List.filter_sublist _)
  refine ⟨hn.sublist (hs.map _), ?_⟩
  intro a ha
  exact Or.inl ⟨a, hs.subset ha, sameApartFromName_self a⟩

theorem dict_collectChanges :
    ∀ (d : ActionDict) (fieldName : QString) (values : List (QByteArray × QVariant))
      (kept : ActionDict),
      ((dictActions kept).map Action.order ++ (dictActions d).map Action.order).Nodup →
      ((dictActions (Action.collectChanges d fieldName values kept).2.2).map
          Action.order).Nodup
        ∧ ∀ a ∈ dictActions (Action.collectChanges d fieldName values kept).2.2,
            a ∈ dictActions kept ∨ a ∈ dictActions d
  | [], fieldName, values, kept, hn => by
    simp only [Action.collectChanges]
    simp only [dictActions, List.map_nil, List.append_nil] at hn
    exact ⟨hn, fun a ha => Or.inl ha⟩
  | (key, a) :: rest, fieldName, values, kept, hn => by
    have hn0 := hn
    simp only [dictActions, List.map_cons] at hn
    have hperm : ((dictActions kept).map Action.order
          ++ a.order :: (dictActions rest).map Action.order).Perm
        (a.order :: ((dictActions kept).map Action.order
          ++ (dictActions rest).map Action.order)) := List.perm_middle
    have hn2 := hperm.nodup_iff.1 hn
    rw [List.nodup_cons] at hn2
    obtain ⟨hnot, hrest⟩ := hn2
    unfold Action.collectChanges
    cases hk : a.kind with
    | changeFieldProperty p v =>
      simp only
      obtain ⟨h1, h2⟩ := dict_collectChanges rest
        (if p = "name".toList then v.toString else fieldName)
        (hashInsert values (toLatin1 p) v) kept hrest
      refine ⟨h1, ?_⟩
      intro b hb
      rcases h2 b hb with h3 | h3
      · exact Or.inl h3
      · exact Or.inr (List.mem_cons_of_mem _ h3)
    | removeField =>
      simp only
      have hkept : ((dictActions kept).map Action.order).Nodup :=
        (List.nodup_append.1 hrest).1
      have hnk : a.order ∉ (dictActions kept).map Action.order :=
        fun hm => hnot (List.mem_append_left _ hm)
      have hnr : a.order ∉ (dictActions rest).map Action.order :=
        fun hm => hnot (List.mem_append_right _ hm)
      have hn3 : ((dictActions (hashInsert kept key a)).map Action.order
          ++ (dictActions rest).map Action.order).Nodup := by
        rw [List.nodup_append]
        refine ⟨nodup_dictActions_hashInsert kept key a hkept hnk,
          (List.nodup_append.1 hrest).2.1, ?_⟩
        intro x hx1 hx2
        obtain ⟨b, hb, hbo⟩ := List.mem_map.1 hx1
        rcases mem_dictActions_hashInsert kept key a b hb with h3 | h3
        · rw [h3] at hbo
          rw [← hbo] at hx2
          exact hnr hx2
        · exact (List.nodup_append.1 hrest).2.2 (List.mem_map.2 ⟨b, h3, hbo⟩) hx2
      obtain ⟨h1, h2⟩ := dict_collectChanges rest fieldName values (hashInsert kept key a) hn3
      refine ⟨h1, ?_⟩
      intro b hb
      rcases h2 b hb with h3 | h3
      · rcases mem_dictActions_hashInsert kept key a b h3 with h4 | h4
        · right; rw [h4]; exact List.mem_cons_self _ _
        · exact Or.inl h4
      · exact Or.inr (List.mem_cons_of_mem _ h3)
    | insertField i f =>
      simp only
      have hkept : ((dictActions kept).map Action.order).Nodup :=
        (List.nodup_append.1 hrest).1
      have hnk : a.order ∉ (dictActions kept).map Action.order :=
        fun hm => hnot (List.mem_append_left _ hm)
      have hnr : a.order ∉ (dictActions rest).map Action.order :=
        fun hm => hnot (List.mem_append_right _ hm)
      have hn3 : ((dictActions (hashInsert kept key a)).map Action.order
          ++ (dictActions rest).map Action.order).Nodup := by
        rw [List.nodup_append]
        refine ⟨nodup_dictActions_hashInsert kept key a hkept hnk,
          (List.nodup_append.1 hrest).2.1, ?_⟩
        intro x hx1 hx2
        obtain ⟨b, hb, hbo⟩ := List.mem_map.1 hx1
        rcases mem_dictActions_hashInsert kept key a b hb with h3 | h3
        · rw [h3] at hbo
          rw [← hbo] at hx2
          exact hnr hx2
        · exact (List.nodup_append.1 hrest).2.2 (List.mem_map.2 ⟨b, h3, hbo⟩) hx2
      obtain ⟨h1, h2⟩ := dict_collectChanges rest fieldName values (hashInsert kept key a) hn3
      refine ⟨h1, ?_⟩
      intro b hb
      rcases h2 b hb with h3 | h3
      · rcases mem_dictActions_hashInsert kept key a b h3 with h4 | h4
        · right; rw [h4]; exact List.mem_cons_self _ _
        · exact Or.inl h4
      · exact Or.inr (List.mem_cons_of_mem _ h3)
    | moveFieldPosition i =>
      simp only
      have hkept : ((dictActions kept).map Action.order).Nodup :=
        (List.nodup_append.1 hrest).1
      have hnk : a.order ∉ (dictActions kept).map Action.order :=
        fun hm => hnot (List.mem_append_left _ hm)
      have hnr : a.order ∉ (dictActions rest).map Action.order :=
        fun hm => hnot (List.mem_append_right _ hm)
      have hn3 : ((dictActions (hashInsert kept key a)).map Action.order
          ++ (dictActions rest).map Action.order).Nodup := by
        rw [List.nodup_append]
        refine ⟨nodup_dictActions_hashInsert kept key a hkept hnk,
          (List.nodup_append.1 hrest).2.1, ?_⟩
        intro x hx1 hx2
        obtain ⟨b, hb, hbo⟩ := List.mem_map.1 hx1
        rcases mem_dictActions_hashInsert kept key a b hb with h3 | h3
        · rw [h3] at hbo
          rw [← hbo] at hx2
          exact hnr hx2
        · exact (List.nodup_append.1 hrest).2.2 (List.mem_map.2 ⟨b, h3, hbo⟩) hx2
      obtain ⟨h1, h2⟩ := dict_collectChanges rest fieldName values (hashInsert kept key a) hn3
      refine ⟨h1, ?_⟩
      intro b hb
      rcases h2 b hb with h3 | h3
      · rcases mem_dictActions_hashInsert kept key a b h3 with h4 | h4
        · right; rw [h4]; exact List.mem_cons_self _ _
        · exact Or.inl h4
      · exact Or.inr (List.mem_cons_of_mem _ h3)

theorem nodup_dict_of_all (fa : ActionDictDict) (u : Int)
    (hn : ((allActions fa).map Action.order).Nodup) :
    ((dictActions ((hashValue fa u).getD [])).map Action.order).Nodup := by
  obtain ⟨rest, h1, _⟩ := hashRemove_flatMap_sublist dictActions u fa
  have hn2 : (((hashValue fa u).elim [] dictActions ++ rest).map Action.order).Nodup :=
    (h1.map Action.order).nodup_iff.1 hn
  rw [List.map_append, List.nodup_append, elim_dictActions] at hn2
  exact hn2.1

theorem step_store (fa : ActionDictDict) (this : Action) (d0 d1 : ActionDict)
    (hn : ((allActions fa).map Action.order).Nodup)
    (hnew : this.order ∉ (allActions fa).map Action.order)
    (hd0 : (hashValue fa this.fieldUID).getD [] = d0)
    (hd : ((dictActions d1).map Action.order).Nodup
      ∧ ∀ a ∈ dictActions d1,
          (∃ a0 ∈ dictActions d0, a.sameApartFromName a0) ∨ a.isCopyOf this) :
    (((allActions (hashInsert fa this.fieldUID d1)).map Action.order).Nodup
      ∧ ∀ a ∈ allActions (hashInsert fa this.fieldUID d1),
          (∃ a0 ∈ allActions fa, a.sameApartFromName a0) ∨ a.isCopyOf this)
    ∧ (((allActions (hashInsert (hashRemove fa this.fieldUID) this.fieldUID d1)).map
          Action.order).Nodup
      ∧ ∀ a ∈ allActions (hashInsert (hashRemove fa this.fieldUID) this.fieldUID d1),
          (∃ a0 ∈ allActions fa, a.sameApartFromName a0) ∨ a.isCopyOf this) := by
  subst hd0
  exact step_of_dict fa this d1 hn hnew hd.1 hd.2

theorem simplifyChangeFieldProperty_step (this : Action) (p : QString) (v : QVariant)
    (fa : ActionDictDict)
    (hn : ((allActions fa).map Action.order).Nodup)
    (hnew : this.order ∉ (allActions fa).map Action.order) :
    ((allActions (Action.simplifyChangeFieldProperty this p v fa).2).map Action.order).Nodup
      ∧ ∀ a ∈ allActions (Action.simplifyChangeFieldProperty this p v fa).2,
          (∃ a0 ∈ allActions fa, a.sameApartFromName a0) ∨ a.isCopyOf this := by
  have hd0n := nodup_dict_of_all fa this.fieldUID hn
  have hd0new : this.order ∉ (dictActions ((hashValue fa this.fieldUID).getD [])).map
      Action.order := by
    intro hm
    obtain ⟨b, hb, hbo⟩ := List.mem_map.1 hm
    exact hnew (List.mem_map.2 ⟨b, dictActions_subset_allActions fa _ b hb, hbo⟩)
  have hsame := step_of_same fa this hn
  have hins : ∀ k, _ := fun k => (step_store fa this _ _ hn hnew rfl
    (dict_hashInsert _ k this this hd0n hd0new (isCopyOf_self this))).1
  have hren : ∀ nm, _ := fun nm => (step_store fa this _ _ hn hnew rfl
    (dict_renameAll _ nm this hd0n)).1
  cases hD : hashValue fa this.fieldUID with
  | none =>
    simp only [hD, Option.getD_none] at hins
    unfold Action.simplifyChangeFieldProperty
    simp only [hD, Option.bind_none, Option.isSome_none, Option.getD_none]
    repeat' split
    all_goals first
      | exact hsame
      | exact hins _
  | some d =>
    simp only [hD, Option.getD_some] at hins hren
    unfold Action.simplifyChangeFieldProperty
    simp only [hD, Option.bind_some, Option.getD_some]
    repeat' split
    all_goals first
      | exact hsame
      | exact hins _
      | exact hren _

theorem simplifyRemoveField_step (this : Action) (fa : ActionDictDict)
    (hn : ((allActions fa).map Action.order).Nodup)
    (hnew : this.order ∉ (allActions fa).map Action.order) :
    ((allActions (Action.simplifyRemoveField this fa).2).map Action.order).Nodup
      ∧ ∀ a ∈ allActions (Action.simplifyRemoveField this fa).2,
          (∃ a0 ∈ allActions fa, a.sameApartFromName a0) ∨ a.isCopyOf this := by
  have hd0n := nodup_dict_of_all fa this.fieldUID hn
  have hd0new : this.order ∉ (dictActions ((hashValue fa this.fieldUID).getD [])).map
      Action.order := by
    intro hm
    obtain ⟨b, hb, hbo⟩ := List.mem_map.1 hm
    exact hnew (List.mem_map.2 ⟨b, dictActions_subset_allActions fa _ b hb, hbo⟩)
  exact (step_store fa this _ _ hn hnew rfl
    (dict_hashInsert _ ":remove:".toList this this hd0n hd0new (isCopyOf_self this))).1

theorem simplifyInsertField_step (ext : External) (this : Action) (i : Int) (f : KDbField)
    (hk : this.kind = .insertField i f) (fa : ActionDictDict)
    (hn : ((allActions fa).map Action.order).Nodup)
    (hnew : this.order ∉ (allActions fa).map Action.order) :
    ((allActions (Action.simplifyInsertField ext this i f fa).2).map Action.order).Nodup
      ∧ ∀ a ∈ allActions (Action.simplifyInsertField ext this i f fa).2,
          (∃ a0 ∈ allActions fa, a.sameApartFromName a0) ∨ a.isCopyOf this := by
  have hd0n := nodup_dict_of_all fa this.fieldUID hn
  have hd0new : this.order ∉ (dictActions ((hashValue fa this.fieldUID).getD [])).map
      Action.order := by
    intro hm
    obtain ⟨b, hb, hbo⟩ := List.mem_map.1 hm
    exact hnew (List.mem_map.2 ⟨b, dictActions_subset_allActions fa _ b hb, hbo⟩)
  have hins : ∀ k, _ := fun k => (step_store fa this _ _ hn hnew rfl
    (dict_hashInsert _ k this this hd0n hd0new (isCopyOf_self this))).1
  have hrem : ∀ k, _ := fun k => (step_store fa this _ _ hn hnew rfl
    (dict_hashRemove _ k this hd0n)).1
  cases hD : hashValue fa this.fieldUID with
  | none =>
    simp only [hD, Option.getD_none] at hins
    unfold Action.simplifyInsertField
    simp only [hD, Option.bind_none, Option.isSome_none, Option.getD_none]
    exact hins _
  | some d =>
    simp only [hD, Option.getD_some] at hrem hd0n hd0new
    unfold Action.simplifyInsertField
    simp only [hD, Option.bind_some, Option.getD_some]
    split
    · exact hrem _
    · rcases hcc : Action.collectChanges d this.fieldName [] [] with ⟨fn, vals, kept⟩
      simp only [hashInsert_hashInsert_self]
      obtain ⟨hk1, hk2⟩ := dict_collectChanges d this.fieldName [] [] (by
        simpa [dictActions] using hd0n)
      rw [hcc] at hk1 hk2
      simp only at hk1 hk2
      have hk3 : ∀ a ∈ dictActions kept, a ∈ dictActions d := by
        intro a ha
        rcases hk2 a ha with h1 | h1
        · simp [dictActions] at h1
        · exact h1
      refine (step_store fa this d _ hn hnew (by rw [hD]; rfl) ⟨?_, ?_⟩).2
      · refine nodup_dictActions_hashInsert kept _ _ hk1 ?_
        intro hm
        obtain ⟨b, hb, hbo⟩ := List.mem_map.1 hm
        apply hd0new
        refine List.mem_map.2 ⟨b, hk3 b hb, ?_⟩
        rw [hbo]
        simp only [Action.setFieldName]
        repeat' split
        all_goals rfl
      · intro a ha
        rcases mem_dictActions_hashInsert kept _ _ a ha with h1 | h1
        · right
          rw [h1]
          refine ⟨?_, ?_, ?_⟩
          · simp only [Action.setFieldName]
            repeat' split
            all_goals rfl
          · simp only [Action.setFieldName]
            repeat' split
            all_goals rfl
          · rw [hk]
            simp [ActionKind.sameExceptField]
        · exact Or.inl ⟨a, hk3 a h1, sameApartFromName_self a⟩

theorem simplifyActions_step (ext : External) (this : Action) (fa : ActionDictDict)
    (hn : ((allActions fa).map Action.order).Nodup)
    (hnew : this.order ∉ (allActions fa).map Action.order) :
    ((allActions (this.simplifyActions ext fa).2).map Action.order).Nodup
      ∧ ∀ a ∈ allActions (this.simplifyActions ext fa).2,
          (∃ a0 ∈ allActions fa, a.sameApartFromName a0) ∨ a.isCopyOf this := by
  unfold Action.simplifyActions
  cases hk : this.kind with
  | changeFieldProperty p v => exact simplifyChangeFieldProperty_step this p v fa hn hnew
  | removeField => exact simplifyRemoveField_step this fa hn hnew
  | insertField i f => exact simplifyInsertField_step ext this i f hk fa hn hnew
  | moveFieldPosition i => exact step_of_same fa this hn

theorem numberActions_length (l : List Action) (n : Int) :
    (numberActions l n).length = l.length := by
  induction l generalizing n with
  | nil => rfl
  | cons a rest ih => simp [numberActions, ih]

theorem numberActions_getElem? :
    ∀ (l : List Action) (n : Int) (i : Nat) (a : Action),
      (numberActions l n)[i]? = some a →
        ∃ b, l[i]? = some b ∧ a = numberAction b (n + i)
  | [], _, _, _, h => by simp [numberActions] at h
  | b :: rest, n, 0, a, h => by
    simp only [numberActions, List.getElem?_cons_zero, Option.some.injEq] at h
    exact ⟨b, by simp, by simp [← h]⟩
  | b :: rest, n, i + 1, a, h => by
    simp only [numberActions, List.getElem?_cons_succ] at h
    obtain ⟨c, hc, hac⟩ := numberActions_getElem? rest (n + 1) i a h
    refine ⟨c, by simpa using hc, ?_⟩
    rw [hac]
    congr 1
    push_cast
    omega

theorem simplifyLoop_fst_order (ext : External) (fa : ActionDictDict) :
    ∀ (l : List Action) (n : Int) (i : Nat) (a : Action),
      (simplifyLoop ext (numberActions l n) fa).1[i]? = some a → a.order = n + i
  | [], _, _, _, h => by simp [numberActions, simplifyLoop] at h
  | b :: rest, n, 0, a, h => by
    simp only [numberActions, simplifyLoop, List.getElem?_cons_zero, Option.some.injEq] at h
    rw [← h, simplifyActions_order, numberAction_order]
    simp
  | b :: rest, n, i + 1, a, h => by
    simp only [numberActions, simplifyLoop, List.getElem?_cons_succ] at h
    rw [simplifyLoop_fst_order ext fa rest (n + 1) i a h]
    push_cast
    omega

theorem simplifyLoop_orders (ext : External) :
    ∀ (l : List Action) (n : Int),
      ((allActions (simplifyLoop ext (numberActions l n) []).2).map Action.order).Nodup
        ∧ ∀ a ∈ allActions (simplifyLoop ext (numberActions l n) []).2,
            ∃ (i : Nat) (b : Action), l[i]? = some b ∧ a.order = n + i
              ∧ a.fieldUID = b.fieldUID ∧ a.kind.sameExceptField b.kind = true
  | [], n => by simp [numberActions, simplifyLoop, allActions]
  | b :: rest, n => by
    obtain ⟨ih1, ih2⟩ := simplifyLoop_orders ext rest (n + 1)
    simp only [numberActions, simplifyLoop]
    have hnew : (numberAction b n).order
        ∉ (allActions (simplifyLoop ext (numberActions rest (n + 1)) []).2).map
            Action.order := by
      intro hm
      obtain ⟨a, ha, hao⟩ := List.mem_map.1 hm
      obtain ⟨i, c, _, ho, _⟩ := ih2 a ha
      rw [numberAction_order] at hao
      omega
    obtain ⟨h1, h2⟩ := simplifyActions_step ext (numberAction b n) _ ih1 hnew
    refine ⟨h1, ?_⟩
    intro a ha
    rcases h2 a ha with ⟨a0, ha0, he⟩ | hc
    · obtain ⟨i, c, hc1, hc2, hc3, hc4⟩ := ih2 a0 ha0
      refine ⟨i + 1, c, by simpa using hc1, ?_, ?_, ?_⟩
      · rw [he.1, hc2]
        push_cast
        omega
      · rw [he.2.1, hc3]
      · rw [he.2.2, hc4]
    · refine ⟨0, b, by simp, ?_, ?_, ?_⟩
      · rw [hc.1, numberAction_order]
        simp
      · rw [hc.2.1, numberAction_fieldUID]
      · have := hc.2.2
        rw [numberAction_kind] at this
        exact this

theorem planActions_eq_foldl (ext : External) (fa : ActionDictDict) (n : Nat) :
    planActions ext fa n
      = (allActions fa).foldl (planStep ext) { actionsVector := List.replicate n none } := by
  unfold planActions
  generalize ({ actionsVector := List.replicate n none } : PlanState) = st
  induction fa generalizing st with
  | nil => rfl
  | cons e t ih =>
    simp only [List.foldl_cons, allActions, List.flatMap_cons, List.foldl_append]
    rw [ih]
    simp only [allActions, dictActions, List.foldl_map]

theorem planStep_foldl_vector (ext : External) :
    ∀ (l : List Action) (st : PlanState),
      (l.foldl (planStep ext) st).actionsVector.length = st.actionsVector.length
        ∧ ∀ (i : Nat) (a : Action), (l.foldl (planStep ext) st).actionsVector[i]? = some (some a) →
            st.actionsVector[i]? = some (some a)
              ∨ (a ∈ l ∧ a.order.toNat = i ∧ a.shouldBeRemoved ext = false)
  | [], st => ⟨rfl, fun i a h => Or.inl h⟩
  | b :: rest, st => by
    obtain ⟨h1, h2⟩ := planStep_foldl_vector ext rest (planStep ext st b)
    simp only [List.foldl_cons]
    have hlen : (planStep ext st b).actionsVector.length = st.actionsVector.length := by
      unfold planStep
      split <;> simp
    refine ⟨h1.trans hlen, ?_⟩
    intro i a h
    rcases h2 i a h with h3 | ⟨h3, h4, h5⟩
    · unfold planStep at h3
      by_cases hr : b.shouldBeRemoved ext = true
      · simp only [hr, if_true] at h3
        exact Or.inl h3
      · simp only [hr, Bool.false_eq_true, if_false] at h3
        by_cases hi : b.order.toNat = i
        · rw [List.getElem?_set, if_pos hi] at h3
          split at h3
          · simp only [Option.some.injEq] at h3
            subst h3
            exact Or.inr ⟨List.mem_cons_self _ _, hi, by simpa using hr⟩
          · cases h3
        · rw [List.getElem?_set, if_neg hi] at h3
          exact Or.inl h3
    · exact Or.inr ⟨List.mem_cons_of_mem _ h3, h4, h5⟩

theorem applied_orders_sublist :
    ∀ (l : List (Option Action)) (m : List Action), l.length = m.length →
      (∀ (i : Nat) (a : Action), l[i]? = some (some a) →
        ∃ b, m[i]? = some b ∧ a.order = b.order) →
      ((l.filterMap id).map Action.order).Sublist (m.map Action.order)
  | [], [], _, _ => by simp
  | [], _ :: _, h, _ => by simp at h
  | _ :: _, [], h, _ => by simp at h
  | slot :: l, b :: m, hlen, h => by
    have hlen2 : l.length = m.length := by simpa using hlen
    have h2 : ∀ (i : Nat) (a : Action), l[i]? = some (some a) →
        ∃ c, m[i]? = some c ∧ a.order = c.order := by
      intro i a hi
      have := h (i + 1) a (by simpa using hi)
      simpa using this
    have ih := applied_orders_sublist l m hlen2 h2
    cases slot with
    | none =>
      simp only [List.filterMap_cons, id, List.map_cons]
      exact List.Sublist.cons _ ih
    | some a =>
      obtain ⟨c, hc, hac⟩ := h 0 a (by simp)
      simp only [List.getElem?_cons_zero, Option.some.injEq] at hc
      subst hc
      simp only [List.filterMap_cons, id, List.map_cons, hac]
      exact List.Sublist.cons₂ _ ih

theorem numberActions_getElem?_some :
    ∀ (l : List Action) (n : Int) (i : Nat) (b : Action), l[i]? = some b →
      (numberActions l n)[i]? = some (numberAction b (n + i))
  | [], _, _, _, h => by simp at h
  | c :: rest, n, 0, b, h => by
    simp only [List.getElem?_cons_zero, Option.some.injEq] at h
    simp [numberActions, h]
  | c :: rest, n, i + 1, b, h => by
    simp only [List.getElem?_cons_succ] at h
    simp only [numberActions, List.getElem?_cons_succ]
    rw [numberActions_getElem?_some rest (n + 1) i b h]
    congr 2
    push_cast
    omega

/-- C19: in execute, the first loop gives every submitted action its position as order, and
the actions of the handler's list still have it after simplification; every action held by
the map of simplified actions is a copy of the submitted action at the position given by its
order (same order, same field UID, same class-specific members, the carried field definition
apart); no two actions of the map share an order; the slot i of the vector of sorted actions
holds nothing or an action of the map with order i, so that the orders of the actions applied
to the schema, taken slot by slot, form a subsequence of the orders of the submitted list. -/
theorem order_is_preserved (ext : External) (actions : List Action) :
    (∀ (i : Nat) (a : Action), (numberActions actions 0)[i]? = some a → a.order = i)
    ∧ (∀ (i : Nat) (a : Action),
        (simplifyLoop ext (numberActions actions 0) []).1[i]? = some a → a.order = i)
    ∧ (∀ a ∈ allActions (simplifyLoop ext (numberActions actions 0) []).2,
        ∃ (i : Nat) (b : Action), (numberActions actions 0)[i]? = some b ∧ a.isCopyOf b)
    ∧ ((allActions (simplifyLoop ext (numberActions actions 0) []).2).map Action.order).Nodup
    ∧ (∀ (i : Nat) (a : Action),
        (planActions ext (simplifyLoop ext (numberActions actions 0) []).2
          (numberActions actions 0).length).actionsVector[i]? = some (some a) →
        a.order = i ∧ a ∈ allActions (simplifyLoop ext (numberActions actions 0) []).2)
    ∧ (((planActions ext (simplifyLoop ext (numberActions actions 0) []).2
          (numberActions actions 0).length).actionsVector.filterMap id).map
        Action.order).Sublist ((numberActions actions 0).map Action.order) := by
  obtain ⟨hnodup, hprov⟩ := simplifyLoop_orders ext actions 0
  have hA : ∀ (i : Nat) (a : Action), (numberActions actions 0)[i]? = some a →
      a.order = i := by
    intro i a h
    obtain ⟨b, _, hab⟩ := numberActions_getElem? actions 0 i a h
    rw [hab, numberAction_order]
    simp
  have hvec := planStep_foldl_vector ext (allActions (simplifyLoop ext (numberActions actions 0) []).2)
    { actionsVector := List.replicate (numberActions actions 0).length none }
  rw [← planActions_eq_foldl] at hvec
  obtain ⟨hlen, hslot⟩ := hvec
  have hD : ∀ (i : Nat) (a : Action),
      (planActions ext (simplifyLoop ext (numberActions actions 0) []).2
        (numberActions actions 0).length).actionsVector[i]? = some (some a) →
      a.order = i ∧ a ∈ allActions (simplifyLoop ext (numberActions actions 0) []).2 := by
    intro i a h
    rcases hslot i a h with h1 | ⟨h1, h2, _⟩
    · rw [List.getElem?_replicate] at h1
      split at h1 <;> cases h1
    · obtain ⟨j, b, _, ho, _⟩ := hprov a h1
      refine ⟨?_, h1⟩
      rw [ho] at h2 ⊢
      simp at h2
      simp [h2]
  refine ⟨hA, ?_, ?_, hnodup, hD, ?_⟩
  · intro i a h
    rw [simplifyLoop_fst_order ext [] actions 0 i a h]
    simp
  · intro a ha
    obtain ⟨i, b, hb, ho, hu, hk⟩ := hprov a ha
    refine ⟨i, numberAction b (0 + i), numberActions_getElem?_some actions 0 i b hb, ?_, ?_, ?_⟩
    · rw [numberAction_order]; exact ho
    · rw [numberAction_fieldUID]; exact hu
    · rw [numberAction_kind]; exact hk
  · refine applied_orders_sublist _ _ (by simpa using hlen) ?_
    intro i a h
    obtain ⟨ho, _⟩ := hD i a h
    have hi : i < (numberActions actions 0).length := by
      have := List.getElem?_eq_some_iff.1 h
      obtain ⟨hlt, _⟩ := this
      rw [hlen] at hlt
      simpa using hlt
    refine ⟨(numberActions actions 0)[i], List.getElem?_eq_getElem hi, ?_⟩
    rw [ho, hA i _ (List.getElem?_eq_getElem hi)]

/-- The lookup property rowSource is not a key of the classifier table and is a registered
extended property: it is classified as an extended-schema change. -/
theorem rowSource_is_extended_only :
    hashValue KDb_alteringTypeForProperty (toLower "rowSource".toList) = none
    ∧ isExtendedTableFieldProperty "rowSource".toList = true
    ∧ alteringTypeForProperty "rowSource".toList = ExtendedSchemaAlteringRequired := by
  decide

/-- Witness of C14 (amended): the property type. -/
theorem physical_conversion_properties_witness :
    "type".toList ∈ ["type".toList, "unsigned".toList, "maxLength".toList,
        "precision".toList, "primaryKey".toList, "unique".toList, "notNull".toList,
        "autoIncrement".toList, "indexed".toList]
    ∧ alteringTypeForProperty "type".toList
        = PhysicalAlteringRequired ||| DataConversionRequired ||| MainSchemaAlteringRequired :=
  ⟨by decide, physical_conversion_properties "type".toList (by decide)⟩

/-! ## Properties kept by every action of the map -/

theorem mem_dictActions_collectChanges :
    ∀ (d : ActionDict) (fieldName : QString) (values : List (QByteArray × QVariant))
      (kept : ActionDict) (a : Action),
      a ∈ dictActions (Action.collectChanges d fieldName values kept).2.2 →
        a ∈ dictActions kept ∨ a ∈ dictActions d
  | [], _, _, _, a, h => Or.inl (by simpa [Action.collectChanges] using h)
  | (key, b) :: rest, fieldName, values, kept, a, h => by
    unfold Action.collectChanges at h
    have hcons : ∀ x, x ∈ dictActions rest → x ∈ dictActions ((key, b) :: rest) :=
      fun x hx => List.mem_cons_of_mem _ hx
    have hkeep : a ∈ dictActions (Action.collectChanges rest fieldName values
        (hashInsert kept key b)).2.2 → a ∈ dictActions kept ∨ a ∈ dictActions ((key, b) :: rest) := by
      intro h1
      rcases mem_dictActions_collectChanges rest _ _ _ a h1 with h2 | h2
      · rcases mem_dictActions_hashInsert kept key b a h2 with h3 | h3
        · right; rw [h3]; exact List.mem_cons_self _ _
        · exact Or.inl h3
      · exact Or.inr (hcons a h2)
    cases hk : b.kind with
    | changeFieldProperty p v =>
      simp only [hk] at h
      rcases mem_dictActions_collectChanges rest _ _ _ a h with h2 | h2
      · exact Or.inl h2
      · exact Or.inr (hcons a h2)
    | removeField => simp only [hk] at h; exact hkeep h
    | insertField i f => simp only [hk] at h; exact hkeep h
    | moveFieldPosition i => simp only [hk] at h; exact hkeep h

theorem allActions_hashInsert_all (Q : Action → Prop) (fa : ActionDictDict) (u : Int)
    (d1 : ActionDict) (hfa : ∀ a ∈ allActions fa, Q a) (hd : ∀ a ∈ dictActions d1, Q a) :
    (∀ a ∈ allActions (hashInsert fa u d1), Q a)
      ∧ ∀ a ∈ allActions (hashInsert (hashRemove fa u) u d1), Q a := by
  constructor
  · intro a ha
    rcases mem_hashInsert_flatMap dictActions fa u d1 a ha with h1 | h1
    · exact hd a h1
    · exact hfa a h1
  · intro a ha
    rcases mem_hashInsert_flatMap dictActions (hashRemove fa u) u d1 a ha with h1 | h1
    · exact hd a h1
    · exact hfa a (hashRemove_flatMap_mem dictActions fa u a h1)

theorem dict_all_renameAll (Q : Action → Prop)
    (hname : ∀ a nm, Q a → Q (a.setFieldName nm)) (d : ActionDict) (nm : QString)
    (hd : ∀ a ∈ dictActions d, Q a) : ∀ a ∈ dictActions (Action.renameAll d nm), Q a := by
  intro a ha
  simp only [dictActions, Action.renameAll, List.map_map, List.mem_map, Function.comp] at ha
  obtain ⟨e, he, hea⟩ := ha
  rw [← hea]
  exact hname _ _ (hd e.2 (List.mem_map.2 ⟨e, he, rfl⟩))

theorem dict_all_hashInsert (Q : Action → Prop) (d : ActionDict) (k : QByteArray)
    (c : Action) (hc : Q c) (hd : ∀ a ∈ dictActions d, Q a) :
    ∀ a ∈ dictActions (hashInsert d k c), Q a := by
  intro a ha
  rcases mem_dictActions_hashInsert d k c a ha with h1 | h1
  · rw [h1]; exact hc
  · exact hd a h1

theorem dict_all_hashRemove (Q : Action → Prop) (d : ActionDict) (k : QByteArray)
    (hd : ∀ a ∈ dictActions d, Q a) : ∀ a ∈ dictActions (hashRemove d k), Q a := by
  intro a ha
  have hs : (dictActions (hashRemove d k)).Sublist (dictActions d) :=
    List.Sublist.map _ (List.filter_sublist _)
  exact hd a (hs.subset ha)

/-- Every property of actions that a change of the field name and a replacement of the field
definition carried by an insert keep, and that holds of the action processed (when this is
not a MoveFieldPositionAction) and of all actions of the map, holds of all actions of the
map after simplifyActions. -/
theorem simplifyActions_all (ext : External) (Q : Action → Prop)
    (hname : ∀ a nm, Q a → Q (a.setFieldName nm))
    (hfield : ∀ (a : Action) nm i f g, a.kind = .insertField i f → Q a →
      Q { a with fieldName := nm, kind := .insertField i g })
    (this : Action) (fa : ActionDictDict)
    (hthis : (∀ i, this.kind ≠ .moveFieldPosition i) → Q this)
    (hfa : ∀ a ∈ allActions fa, Q a) :
    ∀ a ∈ allActions (this.simplifyActions ext fa).2, Q a := by
  have hd0 : ∀ a ∈ dictActions ((hashValue fa this.fieldUID).getD []), Q a :=
    fun a ha => hfa a (dictActions_subset_allActions fa _ a ha)
  unfold Action.simplifyActions
  cases hk : this.kind with
  | moveFieldPosition i => exact hfa
  | removeField =>
    have hq : Q this := hthis (fun i h => by rw [hk] at h; cases h)
    exact (allActions_hashInsert_all Q fa _ _ hfa
      (dict_all_hashInsert Q _ _ this hq hd0)).1
  | changeFieldProperty p v =>
    have hq : Q this := hthis (fun i h => by rw [hk] at h; cases h)
    have hins : ∀ k, _ := fun k => (allActions_hashInsert_all Q fa this.fieldUID _ hfa
      (dict_all_hashInsert Q _ k this hq hd0)).1
    have hren : ∀ nm, _ := fun nm => (allActions_hashInsert_all Q fa this.fieldUID _ hfa
      (dict_all_renameAll Q hname _ nm hd0)).1
    simp only
    cases hD : hashValue fa this.fieldUID with
    | none =>
      simp only [hD, Option.getD_none] at hins
      unfold Action.simplifyChangeFieldProperty
      simp only [hD, Option.bind_none, Option.isSome_none, Option.getD_none]
      repeat' split
      all_goals first
        | exact hfa
        | exact hins _
    | some d =>
      simp only [hD, Option.getD_some] at hins hren
      unfold Action.simplifyChangeFieldProperty
      simp only [hD, Option.bind_some, Option.getD_some]
      repeat' split
      all_goals first
        | exact hfa
        | exact hins _
        | exact hren _
  | insertField i f =>
    have hq : Q this := hthis (fun j h => by rw [hk] at h; cases h)
    have hins : ∀ k, _ := fun k => (allActions_hashInsert_all Q fa this.fieldUID _ hfa
      (dict_all_hashInsert Q _ k this hq hd0)).1
    have hrem : ∀ k, _ := fun k => (allActions_hashInsert_all Q fa this.fieldUID _ hfa
      (dict_all_hashRemove Q _ k hd0)).1
    simp only
    cases hD : hashValue fa this.fieldUID with
    | none =>
      simp only [hD, Option.getD_none] at hins
      unfold Action.simplifyInsertField
      simp only [hD, Option.bind_none, Option.isSome_none, Option.getD_none]
      exact hins _
    | some d =>
      simp only [hD, Option.getD_some] at hrem hd0
      unfold Action.simplifyInsertField
      simp only [hD, Option.bind_some, Option.getD_some]
      split
      · exact hrem _
      · rcases hcc : Action.collectChanges d this.fieldName [] [] with ⟨fn, vals, kept⟩
        simp only [hashInsert_hashInsert_self]
        have hk3 : ∀ a ∈ dictActions kept, Q a := by
          intro a ha
          have := mem_dictActions_collectChanges d this.fieldName [] [] a (by rw [hcc]; exact ha)
          rcases this with h1 | h1
          · simp [dictActions] at h1
          · exact hd0 a h1
        refine (allActions_hashInsert_all Q fa this.fieldUID _ hfa
          (dict_all_hashInsert Q _ _ _ ?_ hk3)).2
        simp only [Action.setFieldName]
        repeat' split
        all_goals exact hfield this _ i f _ hk hq

theorem simplifyLoop_all (ext : External) (Q : Action → Prop)
    (hname : ∀ a nm, Q a → Q (a.setFieldName nm))
    (hfield : ∀ (a : Action) nm i f g, a.kind = .insertField i f → Q a →
      Q { a with fieldName := nm, kind := .insertField i g }) :
    ∀ (l : List Action) (fa : ActionDictDict),
      (∀ b ∈ l, (∀ i, b.kind ≠ .moveFieldPosition i) → Q b) →
      (∀ a ∈ allActions fa, Q a) →
      ∀ a ∈ allActions (simplifyLoop ext l fa).2, Q a
  | [], fa, _, hfa => hfa
  | b :: rest, fa, hl, hfa => by
    simp only [simplifyLoop]
    exact simplifyActions_all ext Q hname hfield b _ (hl b (List.mem_cons_self _ _))
      (simplifyLoop_all ext Q hname hfield rest fa
        (fun c hc => hl c (List.mem_cons_of_mem _ hc)) hfa)

theorem simplifyLoop_filter_move (ext : External) (fa : ActionDictDict) :
    ∀ l : List Action,
      (simplifyLoop ext l fa).2
        = (simplifyLoop ext (l.filter fun a => !a.isMoveFieldPosition) fa).2
  | [] => rfl
  | b :: rest => by
    have ih := simplifyLoop_filter_move ext fa rest
    cases hk : b.kind with
    | moveFieldPosition i =>
      have hm : b.isMoveFieldPosition = true := by simp [Action.isMoveFieldPosition, hk]
      simp only [List.filter_cons, hm, Bool.not_true, Bool.false_eq_true, if_false]
      simp only [simplifyLoop, Action.simplifyActions, hk]
      exact ih
    | changeFieldProperty p v =>
      have hm : b.isMoveFieldPosition = false := by simp [Action.isMoveFieldPosition, hk]
      simp only [List.filter_cons, hm, Bool.not_false, if_true, simplifyLoop, ih]
    | removeField =>
      have hm : b.isMoveFieldPosition = false := by simp [Action.isMoveFieldPosition, hk]
      simp only [List.filter_cons, hm, Bool.not_false, if_true, simplifyLoop, ih]
    | insertField i f =>
      have hm : b.isMoveFieldPosition = false := by simp [Action.isMoveFieldPosition, hk]
      simp only [List.filter_cons, hm, Bool.not_false, if_true, simplifyLoop, ih]

theorem no_move_in_map (ext : External) (l : List Action) :
    ∀ a ∈ allActions (simplifyLoop ext l []).2, a.isMoveFieldPosition = false := by
  refine simplifyLoop_all ext (fun a => a.isMoveFieldPosition = false) ?_ ?_ l [] ?_ ?_
  · intro a nm h
    exact h
  · intro a nm i f g _ _
    rfl
  · intro b _ hb
    cases hk : b.kind with
    | moveFieldPosition i => exact absurd hk (hb i)
    | changeFieldProperty p v => simp [Action.isMoveFieldPosition, hk]
    | removeField => simp [Action.isMoveFieldPosition, hk]
    | insertField i f => simp [Action.isMoveFieldPosition, hk]
  · intro a ha
    simp [allActions] at ha

/-- C21 (amended): for every action list, the map of simplified actions built by execute is
the map it builds from the numbered list without its MoveFieldPosition actions; no action of
the map and no slot of the vector of sorted actions is a MoveFieldPosition action, so a
submitted move is never part of the plan and its requirements never enter the aggregate. -/
theorem move_actions_are_dropped (ext : External) (actions : List Action) :
    (simplifyLoop ext (numberActions actions 0) []).2
        = (simplifyLoop ext
            ((numberActions actions 0).filter fun a => !a.isMoveFieldPosition) []).2
    ∧ (∀ a ∈ allActions (simplifyLoop ext (numberActions actions 0) []).2,
        a.isMoveFieldPosition = false)
    ∧ (∀ (i : Nat) (a : Action),
        (planActions ext (simplifyLoop ext (numberActions actions 0) []).2
          (numberActions actions 0).length).actionsVector[i]? = some (some a) →
        a.isMoveFieldPosition = false) := by
  refine ⟨simplifyLoop_filter_move ext [] _, no_move_in_map ext _, ?_⟩
  intro i a h
  have hvec := planStep_foldl_vector ext
    (allActions (simplifyLoop ext (numberActions actions 0) []).2)
    { actionsVector := List.replicate (numberActions actions 0).length none }
  rw [← planActions_eq_foldl] at hvec
  rcases hvec.2 i a h with h1 | ⟨h1, _, _⟩
  · rw [List.getElem?_replicate] at h1
    split at h1 <;> cases h1
  · exact no_move_in_map ext _ a h1

/-- C21 as stated fails: for the single submitted action move(b to position 0) the numbered
action has the requirement MainSchemaAlteringRequired, but the map of simplified actions is
empty, the only slot of the vector of sorted actions is empty and execute reports the
requirements 0. -/
theorem move_is_dropped_counterexample :
    ∃ x, KDbAlterTableHandler.execute exampleExternal
          { actions := [MoveFieldPositionAction 0 "b".toList 2],
            conn := some exampleConnection } "T".toList
          { onlyComputeRequirements := true } [] = .ok x
      ∧ x.args.requirements = 0
      ∧ (numberActions [MoveFieldPositionAction 0 "b".toList 2] 0).map
          (fun a => a.alteringRequirements) = [MainSchemaAlteringRequired]
      ∧ (simplifyLoop exampleExternal
          (numberActions [MoveFieldPositionAction 0 "b".toList 2] 0) []).2 = []
      ∧ (planActions exampleExternal (simplifyLoop exampleExternal
          (numberActions [MoveFieldPositionAction 0 "b".toList 2] 0) []).2 1).actionsVector
          = [none] := by
  refine ⟨_, rfl, ?_, ?_, ?_, ?_⟩ <;> decide

theorem mem_numberActions :
    ∀ (l : List Action) (n : Int) (b : Action), b ∈ numberActions l n →
      ∃ c m, c ∈ l ∧ b = numberAction c m
  | [], _, _, h => by simp [numberActions] at h
  | c :: rest, n, b, h => by
    simp only [numberActions, List.mem_cons] at h
    rcases h with h | h
    · exact ⟨c, n, List.mem_cons_self _ _, h⟩
    · obtain ⟨c1, m, hc, hb⟩ := mem_numberActions rest (n + 1) b h
      exact ⟨c1, m, List.mem_cons_of_mem _ hc, hb⟩

theorem numberAction_requirements (c : Action) (m : Int) :
    (numberAction c m).alteringRequirements
      = (numberAction c m).updateAlteringRequirements.alteringRequirements := by
  obtain ⟨req, ord, uid, fname, kind⟩ := c
  cases kind <;> rfl

theorem requirements_of_entries (ext : External) (l : List Action) (n : Int) :
    ∀ a ∈ allActions (simplifyLoop ext (numberActions l n) []).2,
      a.alteringRequirements = a.updateAlteringRequirements.alteringRequirements := by
  refine simplifyLoop_all ext
    (fun a => a.alteringRequirements = a.updateAlteringRequirements.alteringRequirements)
    ?_ ?_ _ [] ?_ ?_
  · intro a nm h
    obtain ⟨req, ord, uid, fname, kind⟩ := a
    cases kind <;> exact h
  · intro a nm i f g hk h
    obtain ⟨req, ord, uid, fname, kind⟩ := a
    simp only at hk
    subst hk
    exact h
  · intro b hb _
    obtain ⟨c, m, _, hbc⟩ := mem_numberActions l n b hb
    rw [hbc]
    exact numberAction_requirements c m
  · intro a ha
    simp [allActions] at ha

theorem tempDestTableName_skips (conn : KDbConnection) (name : QString) (r1 r2 : Nat)
    (rest : List Nat) (h : (conn.tableSchema (tempNameCandidate name r1 r2)).isSome = true) :
    tempDestTableName conn name (r1 :: r2 :: rest) = tempDestTableName conn name rest := by
  unfold tempNameCandidate at h
  rw [tempDestTableName]
  have : (conn.tableSchema (name ++ "_temp".toList ++ Nat.toDigits 16 r1
      ++ Nat.toDigits 16 r2)).isNone = false := by
    cases hs : conn.tableSchema (name ++ "_temp".toList ++ Nat.toDigits 16 r1
      ++ Nat.toDigits 16 r2) with
    | none => rw [hs] at h; cases h
    | some t => rfl
  simp only [this]
  rfl

/-- C22 (amended): the temporary-name loop of execute returns the first generated name that
is not a table of the connection, however many colliding names were generated before it;
there is no maximum number of attempts and no failure outcome. -/
theorem temp_name_is_first_free (conn : KDbConnection) (name : QString)
    (tried : List (Nat × Nat)) (r1 r2 : Nat) (rest : List Nat)
    (hcoll : ∀ p ∈ tried, (conn.tableSchema (tempNameCandidate name p.1 p.2)).isSome = true)
    (hfree : (conn.tableSchema (tempNameCandidate name r1 r2)).isNone = true) :
    tempDestTableName conn name ((tried.flatMap fun p => [p.1, p.2]) ++ r1 :: r2 :: rest)
      = .ok (tempNameCandidate name r1 r2) := by
  induction tried with
  | nil =>
    unfold tempNameCandidate at hfree
    simp only [List.flatMap_nil, List.nil_append]
    rw [tempDestTableName]
    simp only [hfree, if_true]
    rfl
  | cons p more ih =>
    simp only [List.flatMap_cons, List.cons_append, List.nil_append]
    rw [tempDestTableName_skips conn name p.1 p.2 _ (hcoll p (List.mem_cons_self _ _))]
    exact ih (fun q hq => hcoll q (List.mem_cons_of_mem _ hq))

/-- Witness of C22 (amended): the names T_temp00 (twice) collide, T_tempab is free. -/
theorem temp_name_is_first_free_witness :
    tempDestTableName collidingConnection "T".toList
        (([(0, 0), (0, 0)].flatMap fun p => [p.1, p.2]) ++ 10 :: 11 :: [])
      = .ok (tempNameCandidate "T".toList 10 11) :=
  temp_name_is_first_free collidingConnection "T".toList [(0, 0), (0, 0)] 10 11 []
    (by decide) (by decide)

theorem tempDestTableName_all_collide :
    ∀ n : Nat, tempDestTableName collidingConnection "T".toList (List.replicate n 0)
      = .error .outOfRandomNumbers
  | 0 => rfl
  | 1 => rfl
  | n + 2 => by
    have h : List.replicate (n + 2) 0 = 0 :: 0 :: List.replicate n 0 := by
      simp [List.replicate_succ]
    rw [h, tempDestTableName_skips collidingConnection "T".toList 0 0 _ (by decide)]
    exact tempDestTableName_all_collide n

/-- C22 as stated fails: when the connection knows a table T_temp00 and rand() keeps
returning 0, the loop has not ended after any number of attempts: every supply of zeros,
however long, is used up without a name and without a failure being returned. -/
theorem temp_name_loop_unbounded_counterexample :
    (collidingConnection.tableSchema (tempNameCandidate "T".toList 0 0)).isSome = true
    ∧ ∀ n : Nat, tempDestTableName collidingConnection "T".toList (List.replicate n 0)
        = .error .outOfRandomNumbers :=
  ⟨by decide, tempDestTableName_all_collide⟩

/-! ## C23 and C24: renames before a property change and before a remove -/

/-- C23, at the input [rename(1, a -> b), change(1 with field name b, caption, X)]: both
actions are left in the map, and the recorded field name of the caption change is still b;
the rename is stored by the branch that returns before the loop of Case 1b, so no field
name is rewritten. -/
theorem rename_then_change_keeps_new_name :
    (simplifyLoop exampleExternal
        [renameAction 1 "a".toList "b".toList,
         ChangeFieldPropertyAction "b".toList "caption".toList (.string "X".toList) 1] []).2
      = [(1, [("caption".toList,
                ChangeFieldPropertyAction "b".toList "caption".toList (.string "X".toList) 1),
              ("name".toList, renameAction 1 "a".toList "b".toList)])]
    ∧ (ChangeFieldPropertyAction "b".toList "caption".toList (.string "X".toList) 1).fieldName
        ≠ "a".toList := by
  decide

theorem simplifyRename_over_remove (ext : External) (a r : Action) (v : QVariant)
    (hk : a.kind = .changeFieldProperty "name".toList v) (hr : r.kind = .removeField) :
    (a.simplifyActions ext [(a.fieldUID, [(":remove:".toList, r)])]).2
      = [(a.fieldUID, [(":remove:".toList, r.setFieldName a.fieldName)])] := by
  unfold Action.simplifyActions
  rw [hk]
  simp only [Action.simplifyChangeFieldProperty]
  by_cases hn : [':', 'r', 'e', 'm', 'o', 'v', 'e', ':'] = toLatin1 v.toString
  · simp [hashValue, hn.symm, hr, Action.renameAll, hashInsert]
  · simp [hashValue, hn, Action.renameAll, hashInsert]

theorem simplifyLoop_renames_then_remove (ext : External) (u : Int) (r : Action)
    (hr : r.kind = .removeField) (hru : r.fieldUID = u) :
    ∀ renames : List Action,
      (∀ a ∈ renames, a.fieldUID = u ∧ ∃ v, a.kind = .changeFieldProperty "name".toList v) →
      (simplifyLoop ext (renames ++ [r]) []).2
        = [(u, [(":remove:".toList,
            r.setFieldName ((renames.head?.map fun a => a.fieldName).getD r.fieldName))])]
  | [], _ => by
    subst hru
    obtain ⟨req, ord, uid, fname, kind⟩ := r
    simp only at hr
    subst hr
    rfl
  | a :: rest, h => by
    obtain ⟨hau, v, hav⟩ := h a (List.mem_cons_self _ _)
    have ih := simplifyLoop_renames_then_remove ext u r hr hru rest
      (fun b hb => h b (List.mem_cons_of_mem _ hb))
    rw [List.cons_append, simplifyLoop]
    simp only [ih, List.head?_cons, Option.map_some', Option.getD_some]
    have hstep := simplifyRename_over_remove ext a
      (r.setFieldName ((rest.head?.map fun a => a.fieldName).getD r.fieldName)) v hav
      (by simpa [Action.setFieldName] using hr)
    rw [hau] at hstep
    rw [hstep]
    rfl

/-- C24: for every field UID u, every non-empty list of renames of u (changes of the property
"name", whatever their names) followed by remove(u), the map of simplified actions holds
exactly one action, the RemoveField action, and its recorded field name is the field name of
the first rename of the list: the name the field has in the unmodified schema. -/
theorem renames_then_remove_keep_first_name (ext : External) (u : Int) (first r : Action)
    (more : List Action)
    (hr : r.kind = .removeField) (hru : r.fieldUID = u)
    (hren : ∀ a ∈ first :: more,
      a.fieldUID = u ∧ ∃ v, a.kind = .changeFieldProperty "name".toList v) :
    (simplifyLoop ext (first :: more ++ [r]) []).2
        = [(u, [(":remove:".toList, r.setFieldName first.fieldName)])]
    ∧ allActions (simplifyLoop ext (first :: more ++ [r]) []).2
        = [r.setFieldName first.fieldName]
    ∧ (r.setFieldName first.fieldName).kind = .removeField
    ∧ (r.setFieldName first.fieldName).shouldBeRemoved ext = false := by
  have h := simplifyLoop_renames_then_remove ext u r hr hru (first :: more) hren
  simp only [List.head?_cons, Option.map_some, Option.getD_some] at h
  refine ⟨h, ?_, ?_, ?_⟩
  · rw [h]
    rfl
  · simpa [Action.setFieldName] using hr
  · simp [Action.shouldBeRemoved, Action.setFieldName, hr]

/-- Witness of C24: [rename(1, a -> b), rename(1, b -> c), remove(1 with field name c)]. -/
theorem renames_then_remove_keep_first_name_witness :
    (simplifyLoop exampleExternal
        (renameAction 1 "a".toList "b".toList :: [renameAction 1 "b".toList "c".toList]
          ++ [RemoveFieldAction "c".toList 1]) []).2
        = [(1, [(":remove:".toList,
            (RemoveFieldAction "c".toList 1).setFieldName
              (renameAction 1 "a".toList "b".toList).fieldName)])]
    ∧ allActions (simplifyLoop exampleExternal
        (renameAction 1 "a".toList "b".toList :: [renameAction 1 "b".toList "c".toList]
          ++ [RemoveFieldAction "c".toList 1]) []).2
        = [(RemoveFieldAction "c".toList 1).setFieldName
            (renameAction 1 "a".toList "b".toList).fieldName]
    ∧ ((RemoveFieldAction "c".toList 1).setFieldName
        (renameAction 1 "a".toList "b".toList).fieldName).kind = .removeField
    ∧ ((RemoveFieldAction "c".toList 1).setFieldName
        (renameAction 1 "a".toList "b".toList).fieldName).shouldBeRemoved exampleExternal = false :=
  renames_then_remove_keep_first_name exampleExternal 1 (renameAction 1 "a".toList "b".toList)
    (RemoveFieldAction "c".toList 1) [renameAction 1 "b".toList "c".toList] rfl rfl
    (by
      intro a ha
      simp only [List.mem_cons, List.mem_singleton, List.not_mem_nil, or_false] at ha
      rcases ha with h | h <;> subst h <;> exact ⟨rfl, _, rfl⟩)

/-! ## C25: the source expressions of the copy statement -/

theorem sourceSQLString_spec (ext : External) (conn : KDbConnection) (fieldHash : FieldHash)
    (f : KDbField) :
    sourceSQLString ext conn fieldHash f
      = (specSourceExpression ext conn fieldHash f).getD [] := by
  unfold sourceSQLString specSourceExpression
  by_cases h1 : fieldHash.value f.name = []
  · by_cases h2 : f.defaultValue.isNull = true
    · by_cases h3 : f.isNotNull = true
      · simp [h1, h2, h3]
      · by_cases h4 : f.isNotEmpty = true
        · simp [h1, h2, h3, h4]
        · simp [h1, h2, h3, h4]
    · simp [h1, h2]
  · simp [h1]

theorem specSourceExpression_nonempty (ext : External) (conn : KDbConnection)
    (fieldHash : FieldHash) (f : KDbField) (e : QString)
    (hesc : ∀ s, s ≠ [] → conn.escapeIdentifier s ≠ [])
    (hval : ∀ t v, conn.valueToSQL t v ≠ [])
    (h : specSourceExpression ext conn fieldHash f = some e) : e ≠ [] := by
  unfold specSourceExpression at h
  split_ifs at h with h1 h2 h3 h4
  all_goals
    injection h with h
    subst h
  · exact hesc _ h1
  · exact hval _ _
  · exact hval _ _
  · exact hval _ _

theorem copyColumns_spec (ext : External) (conn : KDbConnection) (fieldHash : FieldHash)
    (hesc : ∀ s, s ≠ [] → conn.escapeIdentifier s ≠ [])
    (hval : ∀ t v, conn.valueToSQL t v ≠ []) :
    ∀ fields : List KDbField,
      copyColumns ext conn fieldHash fields
        = fields.filterMap fun f =>
            (specSourceExpression ext conn fieldHash f).map fun e =>
              (conn.escapeIdentifier f.name, e)
  | [] => rfl
  | f :: rest => by
    have ih := copyColumns_spec ext conn fieldHash hesc hval rest
    unfold copyColumns at ih ⊢
    rw [List.filterMap_cons, List.filterMap_cons, ih, sourceSQLString_spec]
    cases hs : specSourceExpression ext conn fieldHash f with
    | none => simp
    | some e =>
      have hne := specSourceExpression_nonempty ext conn fieldHash f e hesc hval hs
      simp [hne]

/-- C25: when the driver gives a non-empty text for every non-empty identifier and for every
literal, the copy statement built by execute lists, in the order of the fields of the new
table, exactly the fields for which the first-match rule of the specification gives a source
expression, each with its escaped name as destination column and that expression in the
SELECT list; a field for which the rule gives none appears in neither list. -/
theorem copy_statement_source_priority (ext : External) (conn : KDbConnection)
    (newTable oldTable : KDbTableSchema) (fieldHash : FieldHash)
    (hesc : ∀ s, s ≠ [] → conn.escapeIdentifier s ≠ [])
    (hval : ∀ t v, conn.valueToSQL t v ≠ []) :
    copyStatement ext conn newTable fieldHash oldTable
      = insertSelectStatement (conn.escapeIdentifier newTable.name)
          ((newTable.fields.map fun e => e.2).filterMap fun f =>
            (specSourceExpression ext conn fieldHash f).map fun e =>
              (conn.escapeIdentifier f.name, e))
          oldTable.name := by
  rw [copyStatement_eq, copyColumns_spec ext conn fieldHash hesc hval]

theorem exampleConnection_driver :
    (∀ s, s ≠ [] → exampleConnection.escapeIdentifier s ≠ [])
    ∧ ∀ t v, exampleConnection.valueToSQL t v ≠ [] := by
  constructor
  · intro s hs
    exact hs
  · intro t v
    simp only [exampleConnection]
    split <;> simp

/-- Witness of C25: the example table copied into T_tempab with the tracking map of an
unchanged table. -/
theorem copy_statement_source_priority_witness :
    copyStatement exampleExternal exampleConnection
        (exampleTable.setName "T_tempab".toList)
        [("a".toList, "a".toList), ("b".toList, "b".toList)] exampleTable
      = insertSelectStatement
          (exampleConnection.escapeIdentifier (exampleTable.setName "T_tempab".toList).name)
          (((exampleTable.setName "T_tempab".toList).fields.map fun e => e.2).filterMap
            fun f =>
              (specSourceExpression exampleExternal exampleConnection
                [("a".toList, "a".toList), ("b".toList, "b".toList)] f).map fun e =>
                (exampleConnection.escapeIdentifier f.name, e))
          exampleTable.name :=
  copy_statement_source_priority exampleExternal exampleConnection
    (exampleTable.setName "T_tempab".toList) exampleTable
    [("a".toList, "a".toList), ("b".toList, "b".toList)]
    exampleConnection_driver.1 exampleConnection_driver.2

/-! ## C27: a property change applied to the schema -/

theorem updateTableSchemaChange_classified (ext : External) (p : QString) (v : QVariant)
    (table : KDbTableSchema) (ptr : Nat) (f : KDbField) (fieldHash : FieldHash)
    (hc : SchemaAlteringRequired &&& alteringTypeForProperty (toLatin1 p) ≠ 0)
    (hf : table.fieldAt ptr = some f) :
    Action.updateTableSchemaChange ext p v table (some ptr) fieldHash
      = .ok (tristate.ofBool (setFieldProperty ext f (toLatin1 p) v).1,
          table.setFieldAt ptr (setFieldProperty ext f (toLatin1 p) v).2, fieldHash) := by
  unfold Action.updateTableSchemaChange
  rw [if_pos hc]
  simp only [hf]

theorem getElem?_insertIdx_at {α : Type} (l : List α) (x : α) (n : Nat) (hn : n ≤ l.length) :
    (l.insertIdx n x)[n]? = some x := by
  have hlen : n < (l.insertIdx n x).length := by
    rw [List.length_insertIdx n l hn]
    omega
  rw [List.getElem?_eq_getElem hlen, List.getElem_insertIdx_self l x n hn]

/-- C28: when the loop of execute applies an InsertFieldAction with requested index i >= 0 to
a schema holding n fields, the call succeeds and the loop ends with a table that holds the
new field at position min(i, n): the index handed to the table is min(i, n), which is within
0..n, the field list is the old one with the new field put at that position (one field
more, the others in their order), and the loop goes on with the remaining actions from that
state. -/
theorem insert_index_is_clamped (ext : External) (a : Action) (i : Int) (f : KDbField)
    (st : MutationState) (hk : a.kind = .insertField i f) (hi : 0 ≤ i) :
    ∃ st1, updateSchemaLoop ext [some a] st = .ok (.true, st1)
      ∧ (∀ rest, updateSchemaLoop ext (some a :: rest) st = updateSchemaLoop ext rest st1)
      ∧ st1.table = st.table.insertField (min i st.table.fieldCount) f
      ∧ 0 ≤ min i st.table.fieldCount ∧ min i st.table.fieldCount ≤ st.table.fieldCount
      ∧ st1.table.fields
          = st.table.fields.insertIdx (min i.toNat st.table.fields.length)
              (st.table.freshAddress, f)
      ∧ st1.table.fields[min i.toNat st.table.fields.length]? = some (st.table.freshAddress, f)
      ∧ st1.table.fields.length = st.table.fields.length + 1
      ∧ st1.fieldHash = hashRemove st.fieldHash f.name := by
  have hcount : 0 ≤ st.table.fieldCount := by
    unfold KDbTableSchema.fieldCount
    exact Int.natCast_nonneg _
  have hmin0 : 0 ≤ min i st.table.fieldCount := le_min hi hcount
  have hminle : min i st.table.fieldCount ≤ st.table.fieldCount := min_le_right _ _
  have hfields : (st.table.insertField (min i st.table.fieldCount) f).fields
      = st.table.fields.insertIdx (min i.toNat st.table.fields.length)
          (st.table.freshAddress, f) := by
    unfold KDbTableSchema.insertField
    rw [if_neg (by omega)]
    simp only
    congr 1
    unfold KDbTableSchema.fieldCount
    omega
  have hstep : ∀ rest, updateSchemaLoop ext (some a :: rest) st
      = updateSchemaLoop ext rest
        { (if st.lastUID ≠ a.fieldUID then
            { st with currentField := st.table.field ext a.fieldName
                      lastUID := if (st.table.field ext a.fieldName).isSome then a.fieldUID
                                 else -1 }
          else st) with
          table := st.table.insertField (min i st.table.fieldCount) f
          fieldHash := hashRemove st.fieldHash f.name } := by
    intro rest
    rw [updateSchemaLoop]
    by_cases hgt : i > st.table.fieldCount
    · have hmin : min i st.table.fieldCount = st.table.fieldCount :=
        min_eq_right (le_of_lt hgt)
      rw [hmin]
      by_cases hu : st.lastUID = a.fieldUID
      · simp [hu, hk, hgt, Action.updateTableSchema, Action.updateTableSchemaInsert]
      · simp [hu, hk, hgt, Action.updateTableSchema, Action.updateTableSchemaInsert]
    · have hmin : min i st.table.fieldCount = i := min_eq_left (not_lt.1 hgt)
      rw [hmin]
      by_cases hu : st.lastUID = a.fieldUID
      · simp [hu, hk, hgt, Action.updateTableSchema, Action.updateTableSchemaInsert]
      · simp [hu, hk, hgt, Action.updateTableSchema, Action.updateTableSchemaInsert]
  refine ⟨_, ?_, hstep, rfl, hmin0, hminle, hfields, ?_, ?_, rfl⟩
  · rw [hstep []]
    rfl
  · show (st.table.insertField (min i st.table.fieldCount) f).fields[_]? = _
    rw [hfields]
    exact getElem?_insertIdx_at _ _ _ (min_le_right _ _)
  · show (st.table.insertField (min i st.table.fieldCount) f).fields.length = _
    rw [hfields]
    exact List.length_insertIdx _ _ (min_le_right _ _)

/-- Witness of C28: an insert at index 5 into the example table, which has two fields. -/
theorem insert_index_is_clamped_witness :
    (InsertFieldAction 5 exampleInsertedField 3).kind = .insertField 5 exampleInsertedField
    ∧ (0 : Int) ≤ 5
    ∧ ∃ st1, updateSchemaLoop exampleExternal
          [some (InsertFieldAction 5 exampleInsertedField 3)]
          { table := exampleTable, fieldHash := [] } = .ok (.true, st1)
      ∧ (∀ rest, updateSchemaLoop exampleExternal
            (some (InsertFieldAction 5 exampleInsertedField 3) :: rest)
            { table := exampleTable, fieldHash := [] }
          = updateSchemaLoop exampleExternal rest st1)
      ∧ st1.table = exampleTable.insertField (min 5 exampleTable.fieldCount)
          exampleInsertedField
      ∧ 0 ≤ min 5 exampleTable.fieldCount
      ∧ min 5 exampleTable.fieldCount ≤ exampleTable.fieldCount
      ∧ st1.table.fields
          = exampleTable.fields.insertIdx (min (5 : Int).toNat exampleTable.fields.length)
              (exampleTable.freshAddress, exampleInsertedField)
      ∧ st1.table.fields[min (5 : Int).toNat exampleTable.fields.length]?
          = some (exampleTable.freshAddress, exampleInsertedField)
      ∧ st1.table.fields.length = exampleTable.fields.length + 1
      ∧ st1.fieldHash = hashRemove [] exampleInsertedField.name :=
  ⟨rfl, by decide, insert_index_is_clamped exampleExternal
    (InsertFieldAction 5 exampleInsertedField 3) 5 exampleInsertedField
    { table := exampleTable, fieldHash := [] } rfl (by decide)⟩

/-! ## C29: the copy statement after a single remove -/

theorem single_remove_plan (ext : External) (name : QString) (u : Int) :
    simplifyLoop ext (numberActions [RemoveFieldAction name u] 0) []
      = ([numberAction (RemoveFieldAction name u) 0],
         [(u, [(":remove:".toList, numberAction (RemoveFieldAction name u) 0)])]) := rfl

theorem single_remove_planActions (ext : External) (name : QString) (u : Int) :
    planActions ext [(u, [(":remove:".toList, numberAction (RemoveFieldAction name u) 0)])] 1
      = { actionsVector := [some (numberAction (RemoveFieldAction name u) 0)],
          currentActionsCount := 1, requirements := 1, fieldsWithChangedMainSchema := [] } := by
  simp [planActions, planStep, Action.shouldBeRemoved, numberAction, RemoveFieldAction,
    Action.updateAlteringRequirements, PhysicalAlteringRequired, MainSchemaAlteringRequired,
    Action.isChangeFieldProperty]

theorem updateSchemaLoop_single_remove (ext : External) (name : QString) (u : Int)
    (t : KDbTableSchema) (fieldHash : FieldHash) (ptr : Nat) (fc : KDbField)
    (hu : u ≠ -1) (hfound : t.field ext name = some ptr) (hat : t.fieldAt ptr = some fc) :
    updateSchemaLoop ext [some (numberAction (RemoveFieldAction name u) 0)]
        { table := t, fieldHash := fieldHash }
      = .ok (.true, { lastUID := u, currentField := some ptr, table := t.removeField ptr,
                      fieldHash := hashRemove fieldHash fc.name }) := by
  have hu2 : ¬ (-1 : Int) = u := fun h => hu h.symm
  simp [updateSchemaLoop, numberAction, RemoveFieldAction, Action.updateAlteringRequirements,
    Action.updateTableSchema, Action.updateTableSchemaRemove, hu2, hfound, hat]

theorem copyColumns_after_remove (ext : External) (conn : KDbConnection) (fs : List KDbField)
    (kept : List KDbField) (removed : QString)
    (hsub : ∀ f ∈ kept, f ∈ fs)
    (hnew : ∀ f ∈ kept, f.name ≠ removed) (hnames : ∀ f ∈ kept, f.name ≠ [])
    (hesc : ∀ f ∈ kept, conn.escapeIdentifier f.name ≠ []) :
    copyColumns ext conn
        (hashRemove (fs.foldl (fun h f => hashInsert h f.name f.name) []) removed) kept
      = kept.map fun f => (conn.escapeIdentifier f.name, conn.escapeIdentifier f.name) := by
  have hold : ∀ f ∈ kept, sourceSQLString ext conn
      (hashRemove (fs.foldl (fun h f => hashInsert h f.name f.name) []) removed) f
        = conn.escapeIdentifier f.name := by
    intro f hf
    have hv : FieldHash.value
        (hashRemove (fs.foldl (fun h f => hashInsert h f.name f.name) []) removed) f.name
          = f.name := by
      unfold FieldHash.value
      rw [hashValue_hashRemove_ne _ _ _ (fun h => hnew f hf h.symm), hashValue_initialFieldHash]
      have hmem : f.name ∈ fs.map (fun f => f.name) := List.mem_map_of_mem _ (hsub f hf)
      simp [hmem]
    simp [sourceSQLString, hv, hnames f hf]
  rw [copyColumns_of_all]
  · exact List.map_congr_left fun f hf => by rw [hold f hf]
  · intro f hf
    rw [hold f hf]
    simpa using hesc f hf

/-- C29: for a table whose columns have non-empty names, a single remove(u) of an existing
column c whose name no other column has (u is not -1, the value execute starts its field
look-up with): the schema-update loop leaves a clone without the field c and a tracking map
without the key c, and, when the run reaches the data copy (writable connection, commit
mode, a free temporary name, createTable and storeExtendedTableSchemaData succeed), the
new table is created without c and the statement passed to executeSQL lists exactly the
remaining columns, each copied from itself. The driver is assumed to give non-empty text for
these identifiers. -/
theorem single_remove_copy_statement (ext : External) (conn : KDbConnection)
    (t : KDbTableSchema) (u : Int) (name : QString) (ptr : Nat) (fc : KDbField)
    (args : ExecutionArguments) (rands : List Nat) (tmp : QString)
    (hro : conn.isReadOnly = false) (hdb : conn.isDatabaseUsed = true)
    (ht : conn.tableSchema t.name = some t)
    (hmode : args.onlyComputeRequirements = false) (hsim : args.simulate = false)
    (htmp : tempDestTableName conn t.name rands = .ok tmp)
    (hcreate : conn.createTableOk = true) (hstore : conn.storeExtendedTableSchemaDataOk = true)
    (hu : u ≠ -1) (hfound : t.field ext name = some ptr) (hat : t.fieldAt ptr = some fc)
    (hother : ∀ e ∈ t.fields, e.1 ≠ ptr → e.2.name ≠ fc.name)
    (hnames : ∀ e ∈ t.fields, e.2.name ≠ [])
    (hesc : ∀ e ∈ t.fields, conn.escapeIdentifier e.2.name ≠ []) :
    ∃ x c st, KDbAlterTableHandler.execute ext
          { actions := [RemoveFieldAction name u], conn := some conn } t.name args rands = .ok x
      ∧ x.handler.conn = some c
      ∧ updateSchemaLoop ext [some (numberAction (RemoveFieldAction name u) 0)]
          { table := t.setName tmp,
            fieldHash := (t.fields.map fun e => e.2).foldl
              (fun h f => hashInsert h f.name f.name) [] } = .ok (.true, st)
      ∧ st.table = ⟨tmp, t.fields.filter fun e => e.1 != ptr⟩
      ∧ hashValue st.fieldHash fc.name = none
      ∧ StorageCall.createTable st.table ∈ c.calls
      ∧ executedSQL c.calls = executedSQL conn.calls ++
          [insertSelectStatement (conn.escapeIdentifier tmp)
            ((t.fields.filter fun e => e.1 != ptr).map fun e =>
              (conn.escapeIdentifier e.2.name, conn.escapeIdentifier e.2.name))
            t.name] := by
  have hloop := updateSchemaLoop_single_remove ext name u (t.setName tmp)
    ((t.fields.map fun e => e.2).foldl (fun h f => hashInsert h f.name f.name) []) ptr fc hu
    (by simpa [KDbTableSchema.setName, KDbTableSchema.field] using hfound)
    (by simpa [KDbTableSchema.setName, KDbTableSchema.fieldAt] using hat)
  have hlen : (numberActions [RemoveFieldAction name u] 0).length = 1 := rfl
  have hvec : (planActions ext (simplifyLoop ext (numberActions [RemoveFieldAction name u] 0) []).2
      (numberActions [RemoveFieldAction name u] 0).length)
        = { actionsVector := [some (numberAction (RemoveFieldAction name u) 0)],
            currentActionsCount := 1, requirements := 1, fieldsWithChangedMainSchema := [] } := by
    rw [single_remove_plan, hlen, single_remove_planActions]
  have hreq : (planActions ext (simplifyLoop ext (numberActions [RemoveFieldAction name u] 0) []).2
      (numberActions [RemoveFieldAction name u] 0).length).requirements ≠ 0 := by
    rw [hvec]; simp
  rw [execute_commit ext _ conn t.name t args rands hro hdb ht hmode hsim hreq, hvec]
  obtain ⟨x, c, hx, hc, hcalls, _⟩ := commitActions_rebuild ext conn
    (simplifyLoop ext (numberActions [RemoveFieldAction name u] 0) []).1 t
    { actionsVector := [some (numberAction (RemoveFieldAction name u) 0)],
      currentActionsCount := 1, requirements := 1, fieldsWithChangedMainSchema := [] }
    (ExecutionArguments.traced { args with result := .false, requirements := 1 }
      (debugTrace ext [some (numberAction (RemoveFieldAction name u) 0)]))
    rands tmp _ (by simp [PhysicalAlteringRequired]) htmp hloop hcreate hstore
  refine ⟨x, c, _, hx, hc, hloop, rfl, ?_, ?_, ?_⟩
  · exact hashValue_hashRemove_self _ _
  · rw [hcalls]
    simp
  · rw [hcalls, copyStatement_eq]
    have hcols := copyColumns_after_remove ext conn (t.fields.map fun e => e.2)
      ((t.fields.filter fun e => e.1 != ptr).map fun e => e.2) fc.name
      (fun f hf => by
        obtain ⟨e, he, rfl⟩ := List.mem_map.mp hf
        exact List.mem_map_of_mem _ (List.mem_filter.1 he).1)
      (fun f hf => by
        obtain ⟨e, he, rfl⟩ := List.mem_map.mp hf
        have h2 := List.mem_filter.1 he
        exact hother e h2.1 (by simpa using h2.2))
      (fun f hf => by
        obtain ⟨e, he, rfl⟩ := List.mem_map.mp hf
        exact hnames e (List.mem_filter.1 he).1)
      (fun f hf => by
        obtain ⟨e, he, rfl⟩ := List.mem_map.mp hf
        exact hesc e (List.mem_filter.1 he).1)
    simp only [KDbTableSchema.removeField, KDbTableSchema.setName]
    rw [hcols]
    simp only [executedSQL_append, List.map_map]
    by_cases hsql : conn.executeSQLOk = true
    · simp [executedSQL, hsql, Function.comp_def]
    · simp [executedSQL, hsql, Function.comp_def]

/-- Witness of C29: remove(a) on the example table, rand() returning 10 and 11. -/
theorem single_remove_copy_statement_witness :
    ∃ x c st, KDbAlterTableHandler.execute exampleExternal
          { actions := [RemoveFieldAction "a".toList 1], conn := some exampleConnection }
          exampleTable.name {} [10, 11] = .ok x
      ∧ x.handler.conn = some c
      ∧ updateSchemaLoop exampleExternal
          [some (numberAction (RemoveFieldAction "a".toList 1) 0)]
          { table := exampleTable.setName "T_tempab".toList,
            fieldHash := (exampleTable.fields.map fun e => e.2).foldl
              (fun h f => hashInsert h f.name f.name) [] } = .ok (.true, st)
      ∧ st.table = ⟨"T_tempab".toList, exampleTable.fields.filter fun e => e.1 != 0⟩
      ∧ hashValue st.fieldHash
          ({ name := "a".toList, type := .Integer } : KDbField).name = none
      ∧ StorageCall.createTable st.table ∈ c.calls
      ∧ executedSQL c.calls = executedSQL exampleConnection.calls ++
          [insertSelectStatement (exampleConnection.escapeIdentifier "T_tempab".toList)
            ((exampleTable.fields.filter fun e => e.1 != 0).map fun e =>
              (exampleConnection.escapeIdentifier e.2.name,
                exampleConnection.escapeIdentifier e.2.name))
            exampleTable.name] :=
  single_remove_copy_statement exampleExternal exampleConnection exampleTable 1 "a".toList 0
    { name := "a".toList, type := .Integer } {} [10, 11] "T_tempab".toList
    rfl rfl rfl rfl rfl rfl rfl rfl (by decide) rfl rfl (by decide) (by decide) (by decide)

/-! ## C30: the in-place path -/

theorem and_lor_ne_zero (x y m : Nat) (h : x &&& m ≠ 0 ∨ y &&& m ≠ 0) :
    (x ||| y) &&& m ≠ 0 := by
  intro h0
  have hbits : ∀ i, ((x ||| y) &&& m).testBit i = false := by
    intro i
    rw [h0]
    exact Nat.zero_testBit i
  simp only [Nat.testBit_and, Nat.testBit_or] at hbits
  rcases h with h | h
  · apply h
    apply Nat.eq_of_testBit_eq
    intro i
    have := hbits i
    simp only [Nat.testBit_and, Nat.zero_testBit]
    cases hx : x.testBit i <;> cases hm : m.testBit i <;> simp [hx, hm] at this ⊢
  · apply h
    apply Nat.eq_of_testBit_eq
    intro i
    have := hbits i
    simp only [Nat.testBit_and, Nat.zero_testBit]
    cases hy : y.testBit i <;> cases hm : m.testBit i <;> simp [hy, hm] at this ⊢

theorem storeChangedFields_ok (ext : External) (newTable : KDbTableSchema) :
    ∀ (names : List QString) (conn : KDbConnection), conn.storeMainFieldSchemaOk = true →
      storeChangedFields ext newTable names conn
        = (true, { conn with
            calls := conn.calls ++ (names.filterMap fun n =>
              (newTable.field ext n).bind newTable.fieldAt).map StorageCall.storeMainFieldSchema })
  | [], conn, _ => by simp [storeChangedFields]
  | name :: rest, conn, hok => by
    unfold storeChangedFields
    cases hf : (newTable.field ext name).bind newTable.fieldAt with
    | none =>
      simp only
      rw [storeChangedFields_ok ext newTable rest conn hok]
      simp [List.filterMap_cons, hf]
    | some f =>
      simp only
      have h1 : (conn.storeMainFieldSchema f).1 = true := hok
      have h2 : (conn.storeMainFieldSchema f).2.storeMainFieldSchemaOk = true := hok
      rw [h1, storeChangedFields_ok ext newTable rest _ h2]
      simp [List.filterMap_cons, hf, KDbConnection.storeMainFieldSchema]

theorem planStep_foldl_fields (ext : External) :
    ∀ (l : List Action) (st : PlanState),
      (st.fieldsWithChangedMainSchema.Nodup →
        (l.foldl (planStep ext) st).fieldsWithChangedMainSchema.Nodup)
      ∧ (∀ n, n ∈ (l.foldl (planStep ext) st).fieldsWithChangedMainSchema ↔
          n ∈ st.fieldsWithChangedMainSchema
            ∨ ∃ a ∈ l, a.shouldBeRemoved ext = false
                ∧ a.alteringRequirements &&& MainSchemaAlteringRequired ≠ 0
                ∧ a.isChangeFieldProperty = true ∧ a.fieldName = n)
      ∧ ((st.fieldsWithChangedMainSchema ≠ [] →
            st.requirements &&& MainSchemaAlteringRequired ≠ 0) →
          (l.foldl (planStep ext) st).fieldsWithChangedMainSchema ≠ [] →
            (l.foldl (planStep ext) st).requirements &&& MainSchemaAlteringRequired ≠ 0)
  | [], st => ⟨fun h => h, fun n => by simp, fun h => h⟩
  | b :: rest, st => by
    obtain ⟨ih1, ih2, ih3⟩ := planStep_foldl_fields ext rest (planStep ext st b)
    simp only [List.foldl_cons]
    by_cases hr : b.shouldBeRemoved ext = true
    · have hst : (planStep ext st b).fieldsWithChangedMainSchema = st.fieldsWithChangedMainSchema
          ∧ (planStep ext st b).requirements = st.requirements := by
        simp [planStep, hr]
      rw [hst.1] at ih1 ih2 ih3
      rw [hst.2] at ih3
      refine ⟨ih1, ?_, ih3⟩
      intro n
      rw [ih2 n]
      constructor
      · rintro (h | ⟨a, ha, h⟩)
        · exact Or.inl h
        · exact Or.inr ⟨a, List.mem_cons_of_mem _ ha, h⟩
      · rintro (h | ⟨a, ha, h⟩)
        · exact Or.inl h
        · rcases List.mem_cons.1 ha with h1 | h1
          · subst h1
            rw [hr] at h
            cases h.1
          · exact Or.inr ⟨a, h1, h⟩
    · have hr2 : b.shouldBeRemoved ext = false := by simpa using hr
      by_cases hadd : b.alteringRequirements &&& MainSchemaAlteringRequired ≠ 0
          ∧ b.isChangeFieldProperty = true
          ∧ ¬ b.fieldName ∈ st.fieldsWithChangedMainSchema
      · have hst : (planStep ext st b).fieldsWithChangedMainSchema
              = st.fieldsWithChangedMainSchema ++ [b.fieldName]
            ∧ (planStep ext st b).requirements = st.requirements ||| b.alteringRequirements := by
          simp [planStep, hr2, hadd]
        rw [hst.1] at ih1 ih2 ih3
        rw [hst.2] at ih3
        refine ⟨?_, ?_, ?_⟩
        · intro hn
          apply ih1
          rw [List.nodup_append]
          refine ⟨hn, List.nodup_singleton _, ?_⟩
          intro x hx1 hx2
          rw [List.mem_singleton] at hx2
          subst hx2
          exact hadd.2.2 hx1
        · intro n
          rw [ih2 n, List.mem_append, List.mem_singleton]
          constructor
          · rintro ((h | h) | ⟨a, ha, h⟩)
            · exact Or.inl h
            · exact Or.inr ⟨b, List.mem_cons_self _ _, hr2, hadd.1, hadd.2.1, h.symm⟩
            · exact Or.inr ⟨a, List.mem_cons_of_mem _ ha, h⟩
          · rintro (h | ⟨a, ha, h⟩)
            · exact Or.inl (Or.inl h)
            · rcases List.mem_cons.1 ha with h1 | h1
              · subst h1
                exact Or.inl (Or.inr h.2.2.2.symm)
              · exact Or.inr ⟨a, h1, h⟩
        · intro _
          apply ih3
          intro _
          exact and_lor_ne_zero _ _ _ (Or.inr hadd.1)
      · have hst : (planStep ext st b).fieldsWithChangedMainSchema
              = st.fieldsWithChangedMainSchema
            ∧ (planStep ext st b).requirements = st.requirements ||| b.alteringRequirements := by
          simp only [planStep, hr2, Bool.false_eq_true, if_false]
          rw [if_neg hadd]
          exact ⟨rfl, trivial⟩
        rw [hst.1] at ih1 ih2 ih3
        rw [hst.2] at ih3
        refine ⟨ih1, ?_, ?_⟩
        · intro n
          rw [ih2 n]
          constructor
          · rintro (h | ⟨a, ha, h⟩)
            · exact Or.inl h
            · exact Or.inr ⟨a, List.mem_cons_of_mem _ ha, h⟩
          · rintro (h | ⟨a, ha, h⟩)
            · exact Or.inl h
            · rcases List.mem_cons.1 ha with h1 | h1
              · subst h1
                left
                by_contra hnot
                exact hadd ⟨h.2.1, h.2.2.1, by rw [h.2.2.2]; exact hnot⟩
              · exact Or.inr ⟨a, h1, h⟩
        · intro h0
          apply ih3
          intro hne
          exact and_lor_ne_zero _ _ _ (Or.inl (h0 hne))

theorem commitActions_inplace_ok (ext : External) (conn : KDbConnection)
    (actions : List Action) (oldTable : KDbTableSchema) (plan : PlanState)
    (args : ExecutionArguments) (rands : List Nat) (st : MutationState)
    (hphys : plan.requirements &&& PhysicalAlteringRequired = 0)
    (hloop : updateSchemaLoop ext plan.actionsVector
      { table := oldTable,
        fieldHash := (oldTable.fields.map fun e => e.2).foldl
          (fun h f => hashInsert h f.name f.name) [] } = .ok (.true, st))
    (hstore : conn.storeExtendedTableSchemaDataOk = true)
    (hmain : conn.storeMainFieldSchemaOk = true)
    (hfields : plan.fieldsWithChangedMainSchema ≠ [] →
      plan.requirements &&& MainSchemaAlteringRequired ≠ 0) :
    ∃ x c, commitActions ext conn actions oldTable plan args rands = .ok x
      ∧ x.handler.conn = some c ∧ x.args.result = .true
      ∧ x.returned = .oldTable st.table
      ∧ c.calls = conn.calls ++ StorageCall.storeExtendedTableSchemaData st.table ::
          (plan.fieldsWithChangedMainSchema.filterMap fun n =>
            (st.table.field ext n).bind st.table.fieldAt).map StorageCall.storeMainFieldSchema := by
  by_cases hcond : MainSchemaAlteringRequired &&& plan.requirements ≠ 0
      ∧ plan.fieldsWithChangedMainSchema ≠ []
  · have hok : ({ conn with
          tables := KDbConnection.replaceTable conn.tables oldTable.name st.table,
          calls := conn.calls ++ [StorageCall.storeExtendedTableSchemaData st.table],
          storeExtendedTableSchemaDataOk := true } : KDbConnection).storeMainFieldSchemaOk
        = true := hmain
    have hsc := storeChangedFields_ok ext st.table plan.fieldsWithChangedMainSchema _ hok
    simp [commitActions, hphys, hloop, KDbConnection.storeExtendedTableSchemaData, hstore,
      hcond, hsc]
  · have hnil : plan.fieldsWithChangedMainSchema = [] := by
      by_contra hne
      apply hcond
      refine ⟨?_, hne⟩
      rw [Nat.and_comm]
      exact hfields hne
    simp [commitActions, hphys, hloop, KDbConnection.storeExtendedTableSchemaData, hstore,
      hnil]

theorem main_flag_is_change (ext : External) (l : List Action) (n : Int) (a : Action)
    (ha : a ∈ allActions (simplifyLoop ext (numberActions l n) []).2)
    (hm : a.alteringRequirements &&& MainSchemaAlteringRequired ≠ 0) :
    a.isChangeFieldProperty = true := by
  have hreq := requirements_of_entries ext l n a ha
  have hnomove := no_move_in_map ext (numberActions l n) a ha
  obtain ⟨req, ord, uid, fname, kind⟩ := a
  cases kind with
  | changeFieldProperty p v => rfl
  | removeField =>
    simp only [Action.updateAlteringRequirements] at hreq
    simp only at hm
    rw [hreq] at hm
    exact absurd (by decide) hm
  | insertField i f =>
    simp only [Action.updateAlteringRequirements] at hreq
    simp only at hm
    rw [hreq] at hm
    exact absurd (by decide) hm
  | moveFieldPosition i => simp [Action.isMoveFieldPosition] at hnomove

/-- The in-place path in general: in commit mode on a usable connection with a non-zero
aggregate without PhysicalAlteringRequired, when the schema-update loop succeeds and the
connection stores what it is asked to store, execute reports success, returns the original
table object, and its storage calls are storeExtendedTableSchemaData followed by one storeMainFieldSchema for
each recorded field name of the list it collected (for the field of the table with that
name): no createTable, executeSQL or alterTableName. The collected names are pairwise
distinct, and a name is collected exactly when an action of the map that shouldBeRemoved
keeps has it as field name and has MainSchemaAlteringRequired among its requirements; when
distinct collected names denote distinct fields, no field is stored twice. -/
theorem in_place_stores_changed_fields (ext : External) (actions : List Action)
    (conn : KDbConnection) (tableName : QString) (oldTable : KDbTableSchema)
    (args : ExecutionArguments) (rands : List Nat) (st : MutationState)
    (hro : conn.isReadOnly = false) (hdb : conn.isDatabaseUsed = true)
    (ht : conn.tableSchema tableName = some oldTable)
    (hmode : args.onlyComputeRequirements = false) (hsim : args.simulate = false)
    (hreq : aggregateRequirements ext (simplifyLoop ext (numberActions actions 0) []).2 ≠ 0)
    (hphys : aggregateRequirements ext (simplifyLoop ext (numberActions actions 0) []).2
      &&& PhysicalAlteringRequired = 0)
    (hloop : updateSchemaLoop ext (planActions ext (simplifyLoop ext (numberActions actions 0) []).2
        (numberActions actions 0).length).actionsVector
      { table := oldTable,
        fieldHash := (oldTable.fields.map fun e => e.2).foldl
          (fun h f => hashInsert h f.name f.name) [] } = .ok (.true, st))
    (hstore : conn.storeExtendedTableSchemaDataOk = true)
    (hmain : conn.storeMainFieldSchemaOk = true) :
    ∃ (x : Executed) (c : KDbConnection) (names : List QString),
      KDbAlterTableHandler.execute ext { actions := actions, conn := some conn }
          tableName args rands = .ok x
      ∧ x.handler.conn = some c ∧ x.args.result = .true
      ∧ x.returned = .oldTable st.table
      ∧ c.calls = conn.calls ++ StorageCall.storeExtendedTableSchemaData st.table ::
          (names.filterMap fun n =>
            (st.table.field ext n).bind st.table.fieldAt).map StorageCall.storeMainFieldSchema
      ∧ (∀ k ∈ StorageCall.storeExtendedTableSchemaData st.table ::
            (names.filterMap fun n =>
              (st.table.field ext n).bind st.table.fieldAt).map StorageCall.storeMainFieldSchema,
          k.kindName ≠ "createTable" ∧ k.kindName ≠ "executeSQL"
            ∧ k.kindName ≠ "alterTableName")
      ∧ names.Nodup
      ∧ (∀ n, n ∈ names ↔
          ∃ a ∈ allActions (simplifyLoop ext (numberActions actions 0) []).2,
            a.shouldBeRemoved ext = false
              ∧ a.alteringRequirements &&& MainSchemaAlteringRequired ≠ 0
              ∧ a.fieldName = n)
      ∧ ((∀ n1 ∈ names, ∀ n2 ∈ names, st.table.field ext n1 = st.table.field ext n2 → n1 = n2) →
          (names.filterMap fun n => st.table.field ext n).Nodup) := by
  have hpr := planActions_requirements ext (simplifyLoop ext (numberActions actions 0) []).2
    (numberActions actions 0).length
  have hreq2 : (planActions ext (simplifyLoop ext (numberActions actions 0) []).2
      (numberActions actions 0).length).requirements ≠ 0 := by
    rw [hpr]; exact hreq
  have hphys2 : (planActions ext (simplifyLoop ext (numberActions actions 0) []).2
      (numberActions actions 0).length).requirements &&& PhysicalAlteringRequired = 0 := by
    rw [hpr]; exact hphys
  obtain ⟨hnodup, hmem, hflag⟩ := planStep_foldl_fields ext
    (allActions (simplifyLoop ext (numberActions actions 0) []).2)
    { actionsVector := List.replicate (numberActions actions 0).length none }
  rw [← planActions_eq_foldl] at hnodup hmem hflag
  rw [execute_commit ext actions conn tableName oldTable args rands hro hdb ht hmode hsim hreq2]
  obtain ⟨x, c, hx, hc, hres, hret, hcalls⟩ := commitActions_inplace_ok ext conn
    (simplifyLoop ext (numberActions actions 0) []).1 oldTable _
    (ExecutionArguments.traced
      { args with result := .false
                  requirements := (planActions ext (simplifyLoop ext (numberActions actions 0) []).2
                    (numberActions actions 0).length).requirements }
      (debugTrace ext (planActions ext (simplifyLoop ext (numberActions actions 0) []).2
        (numberActions actions 0).length).actionsVector))
    rands st hphys2 hloop hstore hmain (hflag (fun h => absurd rfl h))
  refine ⟨x, c, (planActions ext (simplifyLoop ext (numberActions actions 0) []).2
      (numberActions actions 0).length).fieldsWithChangedMainSchema,
    hx, hc, hres, hret, hcalls, ?_, hnodup List.nodup_nil, ?_, ?_⟩
  · intro k hk
    rcases List.mem_cons.1 hk with h | h
    · subst h
      simp only [StorageCall.kindName]
      decide
    · obtain ⟨f, _, hf⟩ := List.mem_map.1 h
      subst hf
      simp only [StorageCall.kindName]
      decide
  · intro n
    rw [hmem n]
    constructor
    · rintro (h | ⟨a, ha, h1, h2, _, h4⟩)
      · simp at h
      · exact ⟨a, ha, h1, h2, h4⟩
    · rintro ⟨a, ha, h1, h2, h4⟩
      exact Or.inr ⟨a, ha, h1, h2, main_flag_is_change ext actions 0 a ha h2, h4⟩
  · intro hinj
    have hnd := hnodup List.nodup_nil
    generalize (planActions ext (simplifyLoop ext (numberActions actions 0) []).2
      (numberActions actions 0).length).fieldsWithChangedMainSchema = names at hinj hnd
    induction names with
    | nil => simp
    | cons n rest ih =>
      rw [List.nodup_cons] at hnd
      have ih2 := ih (fun a ha b hb => hinj a (List.mem_cons_of_mem _ ha) b
        (List.mem_cons_of_mem _ hb)) hnd.2
      rw [List.filterMap_cons]
      cases hf : st.table.field ext n with
      | none => exact ih2
      | some p =>
        simp only
        rw [List.nodup_cons]
        refine ⟨?_, ih2⟩
        intro hp
        obtain ⟨m, hm, hmp⟩ := List.mem_filterMap.1 hp
        have := hinj n (List.mem_cons_self _ _) m (List.mem_cons_of_mem _ hm)
          (by rw [hf, hmp])
        rw [this] at hnd
        exact hnd.1 hm

/-- Instance of the general statement on the in-place path: a change of the caption of a on
the example table. -/
theorem in_place_stores_changed_fields_witness :
    ∃ (x : Executed) (c : KDbConnection) (names : List QString),
      KDbAlterTableHandler.execute exampleExternal
          { actions := [ChangeFieldPropertyAction "a".toList "caption".toList
                          (.string "X".toList) 1],
            conn := some exampleConnection } "T".toList {} [] = .ok x
      ∧ x.handler.conn = some c ∧ x.args.result = .true
      ∧ x.returned = .oldTable exampleStateAfterCaption.table
      ∧ c.calls = exampleConnection.calls
          ++ StorageCall.storeExtendedTableSchemaData exampleStateAfterCaption.table ::
            (names.filterMap fun n =>
              (exampleStateAfterCaption.table.field exampleExternal n).bind
                exampleStateAfterCaption.table.fieldAt).map StorageCall.storeMainFieldSchema
      ∧ (∀ k ∈ StorageCall.storeExtendedTableSchemaData exampleStateAfterCaption.table ::
            (names.filterMap fun n =>
              (exampleStateAfterCaption.table.field exampleExternal n).bind
                exampleStateAfterCaption.table.fieldAt).map StorageCall.storeMainFieldSchema,
          k.kindName ≠ "createTable" ∧ k.kindName ≠ "executeSQL"
            ∧ k.kindName ≠ "alterTableName")
      ∧ names.Nodup
      ∧ (∀ n, n ∈ names ↔
          ∃ a ∈ allActions (simplifyLoop exampleExternal (numberActions
              [ChangeFieldPropertyAction "a".toList "caption".toList
                (.string "X".toList) 1] 0) []).2,
            a.shouldBeRemoved exampleExternal = false
              ∧ a.alteringRequirements &&& MainSchemaAlteringRequired ≠ 0
              ∧ a.fieldName = n)
      ∧ ((∀ n1 ∈ names, ∀ n2 ∈ names,
            exampleStateAfterCaption.table.field exampleExternal n1 = exampleStateAfterCaption.table.field exampleExternal n2 →
            n1 = n2) →
          (names.filterMap fun n => exampleStateAfterCaption.table.field exampleExternal n).Nodup) :=
  in_place_stores_changed_fields exampleExternal
    [ChangeFieldPropertyAction "a".toList "caption".toList (.string "X".toList) 1]
    exampleConnection "T".toList exampleTable {} [] exampleStateAfterCaption
    rfl rfl rfl rfl rfl (by decide) (by decide) rfl rfl rfl

/-- C30, at the input [change(1 on field "a", caption, X), change(1 on field "A",
description, Y)] on the example table: both changes survive and only the main schema has to
be altered, so execute takes the in-place path and succeeds; it collects the two recorded
names "a" and "A", which the field list resolves to the same field a, and calls
storeMainFieldSchema twice for that one field. -/
theorem in_place_stores_one_field_twice :
    ∃ x c, KDbAlterTableHandler.execute exampleExternal
          { actions := [ChangeFieldPropertyAction "a".toList "caption".toList
                          (.string "X".toList) 1,
                        ChangeFieldPropertyAction "A".toList "description".toList
                          (.string "Y".toList) 1],
            conn := some exampleConnection } "T".toList {} [] = .ok x
      ∧ x.handler.conn = some c
      ∧ x.args.result = .true
      ∧ x.args.requirements = MainSchemaAlteringRequired
      ∧ c.calls = [StorageCall.storeExtendedTableSchemaData
            { name := "T".toList,
              fields := [(0, { name := "a".toList, type := .Integer, caption := "X".toList,
                               description := "Y".toList }),
                         (1, { name := "b".toList, type := .Text, constraints := NotNull })] },
          StorageCall.storeMainFieldSchema
            { name := "a".toList, type := .Integer, caption := "X".toList,
              description := "Y".toList },
          StorageCall.storeMainFieldSchema
            { name := "a".toList, type := .Integer, caption := "X".toList,
              description := "Y".toList }]
      ∧ exampleTable.field exampleExternal "a".toList = some 0
      ∧ exampleTable.field exampleExternal "A".toList = some 0 :=
  ⟨_, _, rfl, rfl, rfl, rfl, rfl, rfl, rfl⟩

/-! ## C31: an insert followed by a rename of the inserted field -/

theorem setFieldProperties_name (ext : External) (d : KDbField) (B : QString) :
    setFieldProperties ext d [("name".toList, .string B)]
      = (true, { d with constraints := ext.constraintsFor d d.constraints, options := 0,
                        name := B }) := rfl

/-- C31: for every field UID u, index, field definition d and name B, the backward pass over
[insert(u, d), rename(u, name of d -> B)] leaves exactly one action in the map, under the key
":insert:": an InsertFieldAction with the same index whose carried field definition is named
B and whose own field name is B. -/
theorem insert_then_rename_gives_insert_of_new_name (ext : External) (u index : Int)
    (d : KDbField) (B : QString) :
    ∃ a f, (simplifyLoop ext
          [InsertFieldAction index d u,
           ChangeFieldPropertyAction d.name "name".toList (.string B) u] []).2
        = [(u, [(":insert:".toList, a)])]
      ∧ a.kind = .insertField index f ∧ f.name = B ∧ a.fieldName = B
      ∧ a.fieldUID = u ∧ a.shouldBeRemoved ext = false := by
  refine ⟨{ fieldUID := u, fieldName := B,
            kind := .insertField index
              { d with constraints := ext.constraintsFor d d.constraints, options := 0,
                       name := B } },
    { d with constraints := ext.constraintsFor d d.constraints, options := 0, name := B },
    ?_, rfl, rfl, rfl, rfl, rfl⟩
  have hset : setFieldProperties ext d [(['n', 'a', 'm', 'e'], .string B)]
      = (true, { d with constraints := ext.constraintsFor d d.constraints, options := 0,
                        name := B }) := setFieldProperties_name ext d B
  simp [simplifyLoop, Action.simplifyActions, InsertFieldAction, ChangeFieldPropertyAction,
    Action.simplifyChangeFieldProperty, Action.simplifyInsertField, hashValue, hashInsert,
    hashRemove, Action.collectChanges, toLatin1, Action.setFieldName, hset,
    QVariant.toString]

/-! ## C32: the temporary name is checked -/

theorem tempNameCandidate_ne (name : QString) (r1 r2 : Nat) :
    tempNameCandidate name r1 r2 ≠ name := by
  intro h
  have hl := congrArg List.length h
  simp [tempNameCandidate] at hl

/-- C32: whenever the name-generation loop of execute ends with a name, that name is the
original name followed by "_temp" and the hexadecimal digits of two results of rand(), it
differs from the original name, and the connection knows no table of that name. -/
theorem temp_name_is_checked (conn : KDbConnection) (name : QString) :
    ∀ (rands : List Nat) (tmp : QString), tempDestTableName conn name rands = .ok tmp →
      (∃ r1 r2, tmp = name ++ "_temp".toList ++ Nat.toDigits 16 r1 ++ Nat.toDigits 16 r2)
        ∧ tmp ≠ name ∧ conn.tableSchema tmp = none
  | [], tmp, h => by simp [tempDestTableName] at h
  | [_], tmp, h => by simp [tempDestTableName] at h
  | r1 :: r2 :: rest, tmp, h => by
    rw [tempDestTableName] at h
    by_cases hfree : (conn.tableSchema (name ++ "_temp".toList ++ Nat.toDigits 16 r1
        ++ Nat.toDigits 16 r2)).isNone = true
    · simp only [hfree, if_true] at h
      injection h with h
      subst h
      refine ⟨⟨r1, r2, rfl⟩, tempNameCandidate_ne name r1 r2, ?_⟩
      exact Option.isNone_iff_eq_none.1 hfree
    · simp only [hfree, if_false] at h
      exact temp_name_is_checked conn name rest tmp h

/-- Witness of C32: the example connection with rand() returning 10 and 11. -/
theorem temp_name_is_checked_witness :
    (∃ r1 r2, "T_tempab".toList
        = "T".toList ++ "_temp".toList ++ Nat.toDigits 16 r1 ++ Nat.toDigits 16 r2)
      ∧ "T_tempab".toList ≠ "T".toList
      ∧ exampleConnection.tableSchema "T_tempab".toList = none :=
  temp_name_is_checked exampleConnection "T".toList [10, 11] "T_tempab".toList rfl

/-! ## C33: the placeholder for a field that must not be empty -/

/-- C33, at the text types: KDb::notEmptyValueForFieldType returns the empty string for Text
and for LongText (the constructor of its cache stores QLatin1String("") for them), while
KDb::emptyValueForFieldType returns " "; for the integer types it returns 0 and for the
floating-point types 0.0. -/
theorem notEmptyValue_of_text_is_empty (ext : External) :
    notEmptyValueForFieldType ext .Text = .string []
    ∧ notEmptyValueForFieldType ext .LongText = .string []
    ∧ (notEmptyValueForFieldType ext .Text).toString.isEmpty = true
    ∧ emptyValueForFieldType ext .Text = .string [' ']
    ∧ (∀ t ∈ [FieldType.Byte, .ShortInteger, .Integer, .BigInteger],
        notEmptyValueForFieldType ext t = .int 0)
    ∧ (∀ t ∈ [FieldType.Float, .Double], notEmptyValueForFieldType ext t = .double 0) := by
  refine ⟨rfl, rfl, rfl, rfl, ?_, ?_⟩
  · intro t ht
    simp only [List.mem_cons, List.mem_singleton, List.not_mem_nil, or_false] at ht
    rcases ht with h | h | h | h <;> subst h <;> rfl
  · intro t ht
    simp only [List.mem_cons, List.mem_singleton, List.not_mem_nil, or_false] at ht
    rcases ht with h | h <;> subst h <;> rfl

/-! ## C34: the classifier table and the first branch of updateTableSchema -/

/-- C34: every entry of the classifier table with PhysicalAlteringRequired also has
MainSchemaAlteringRequired; every non-zero result of alteringTypeForProperty with the
physical flag has the main-schema flag and every non-zero result meets
SchemaAlteringRequired; so for every classified property, name included,
ChangeFieldPropertyAction::updateTableSchema is its first branch, the call of
KDb::setFieldProperty on the field. -/
theorem classified_property_takes_first_branch :
    (∀ e ∈ KDb_alteringTypeForProperty,
      e.2 &&& PhysicalAlteringRequired ≠ 0 → e.2 &&& MainSchemaAlteringRequired ≠ 0)
    ∧ (∀ n : QByteArray, alteringTypeForProperty n &&& PhysicalAlteringRequired ≠ 0 →
        alteringTypeForProperty n &&& MainSchemaAlteringRequired ≠ 0)
    ∧ (∀ n : QByteArray, alteringTypeForProperty n ≠ 0 →
        SchemaAlteringRequired &&& alteringTypeForProperty n ≠ 0)
    ∧ alteringTypeForProperty (toLatin1 "name".toList) ≠ 0
    ∧ (∀ (ext : External) (p : QString) (v : QVariant) (table : KDbTableSchema) (ptr : Nat)
        (f : KDbField) (fieldHash : FieldHash),
        alteringTypeForProperty (toLatin1 p) ≠ 0 → table.fieldAt ptr = some f →
        Action.updateTableSchemaChange ext p v table (some ptr) fieldHash
          = .ok (tristate.ofBool (setFieldProperty ext f (toLatin1 p) v).1,
              table.setFieldAt ptr (setFieldProperty ext f (toLatin1 p) v).2, fieldHash)) := by
  have htable : ∀ e ∈ KDb_alteringTypeForProperty,
      (e.2 &&& PhysicalAlteringRequired ≠ 0 → e.2 &&& MainSchemaAlteringRequired ≠ 0)
        ∧ SchemaAlteringRequired &&& e.2 ≠ 0 := by decide
  have hres : ∀ n : QByteArray,
      (alteringTypeForProperty n &&& PhysicalAlteringRequired ≠ 0 →
        alteringTypeForProperty n &&& MainSchemaAlteringRequired ≠ 0)
      ∧ (alteringTypeForProperty n ≠ 0 →
        SchemaAlteringRequired &&& alteringTypeForProperty n ≠ 0) := by
    intro n
    unfold alteringTypeForProperty
    cases hv : hashValue KDb_alteringTypeForProperty (toLower n) with
    | none =>
      cases hext : isExtendedTableFieldProperty n
      · simp
      · simp only [Option.getD_none, if_true]
        exact ⟨by decide, fun _ => by decide⟩
    | some v =>
      have hnz := alteringTypes_nonzero _ _ hv
      have hmem := htable _ (hashValue_mem _ _ _ hv)
      simp only [Option.getD_some, hnz, if_false]
      exact ⟨hmem.1, fun _ => hmem.2⟩
  refine ⟨fun e he => (htable e he).1, fun n => (hres n).1, fun n => (hres n).2, by decide, ?_⟩
  intro ext p v table ptr f fieldHash hc hf
  exact updateTableSchemaChange_classified ext p v table ptr f fieldHash
    ((hres (toLatin1 p)).2 hc) hf

/-! ## C36: what folding leaves of the submitted definition -/

/-- C36, at the input [insert(1, unsigned integer field d), change(1, caption, X)]: the
insert left in the map carries a definition with caption X whose options are empty, although
the submitted definition has the option Unsigned and no change names it:
KDb::setFieldProperties starts from empty options and stores them unconditionally. -/
theorem folding_clears_unsigned :
    ∃ a f, (simplifyLoop exampleExternal
          [InsertFieldAction 0 { name := "d".toList, type := .Integer, options := Unsigned } 1,
           ChangeFieldPropertyAction "d".toList "caption".toList (.string "X".toList) 1] []).2
        = [(1, [(":insert:".toList, a)])]
      ∧ a.kind = .insertField 0 f
      ∧ f.caption = "X".toList
      ∧ f.options = 0
      ∧ ({ name := "d".toList, type := .Integer, options := Unsigned } : KDbField).options
          = Unsigned
      ∧ Unsigned ≠ 0 := by
  refine ⟨_, _, rfl, rfl, ?_, ?_, ?_, ?_⟩ <;> decide

/-! ## C37: a rename before a change of the property named like the new name -/

/-- C37, at the input [rename(1, a -> caption), change(1 with field name caption, caption,
X)]: the map holds no action under the key "name"; the rename found the caption change under
its new name, took it for a later rename, and was not recorded. -/
theorem rename_lost_to_change_of_same_key :
    (simplifyLoop exampleExternal
        [renameAction 1 "a".toList "caption".toList,
         ChangeFieldPropertyAction "caption".toList "caption".toList (.string "X".toList) 1]
        []).2
      = [(1, [("caption".toList,
                ChangeFieldPropertyAction "a".toList "caption".toList (.string "X".toList) 1)])]
    ∧ (hashValue (simplifyLoop exampleExternal
        [renameAction 1 "a".toList "caption".toList,
         ChangeFieldPropertyAction "caption".toList "caption".toList (.string "X".toList) 1]
        []).2 1).bind (fun d => hashValue d "name".toList) = none := by
  decide

/-! ## C38: the two lists of the copy statement -/

theorem copyColumns_eq_map_filter (ext : External) (conn : KDbConnection)
    (fieldHash : FieldHash) :
    ∀ fields : List KDbField,
      copyColumns ext conn fieldHash fields
        = (fields.filter fun f => !(sourceSQLString ext conn fieldHash f).isEmpty).map
            fun f => (conn.escapeIdentifier f.name, sourceSQLString ext conn fieldHash f)
  | [] => rfl
  | f :: rest => by
    have ih := copyColumns_eq_map_filter ext conn fieldHash rest
    unfold copyColumns at ih ⊢
    rw [List.filterMap_cons, List.filter_cons, ih]
    cases hs : (sourceSQLString ext conn fieldHash f).isEmpty <;> simp [hs]

/-- C38: the copy statement built by execute is "INSERT INTO" the new table, the list of the
escaped names of the kept fields, "SELECT", the list of their source expressions and "FROM"
the old table, where the kept fields are the fields of the new table with a non-empty source
expression, in the field order of the new table; both lists have one item per kept field,
the i-th expression being that of the i-th listed column. -/
theorem copy_statement_lists_match (ext : External) (conn : KDbConnection)
    (newTable oldTable : KDbTableSchema) (fieldHash : FieldHash) :
    ∃ kept : List KDbField,
      kept = (newTable.fields.map fun e => e.2).filter
        (fun f => !(sourceSQLString ext conn fieldHash f).isEmpty)
      ∧ kept.Sublist (newTable.fields.map fun e => e.2)
      ∧ copyStatement ext conn newTable fieldHash oldTable
        = "INSERT INTO ".toList ++ conn.escapeIdentifier newTable.name ++ " (".toList
          ++ commaSeparated (kept.map fun f => conn.escapeIdentifier f.name)
          ++ ") SELECT ".toList
          ++ commaSeparated (kept.map fun f => sourceSQLString ext conn fieldHash f)
          ++ " FROM ".toList ++ oldTable.name
      ∧ (kept.map fun f => conn.escapeIdentifier f.name).length
          = (kept.map fun f => sourceSQLString ext conn fieldHash f).length
      ∧ ∀ (i : Nat) (f : KDbField), kept[i]? = some f →
          (kept.map fun f => conn.escapeIdentifier f.name)[i]?
              = some (conn.escapeIdentifier f.name)
          ∧ (kept.map fun f => sourceSQLString ext conn fieldHash f)[i]?
              = some (sourceSQLString ext conn fieldHash f) := by
  refine ⟨_, rfl, List.filter_sublist _, ?_, by simp, ?_⟩
  · rw [copyStatement_eq, copyColumns_eq_map_filter]
    simp [insertSelectStatement, List.map_map, Function.comp_def]
  · intro i f hf
    simp [List.getElem?_map, hf]

/-! ## C35: actions that shouldBeRemoved leaves out -/

theorem planStep_vector_length (ext : External) (st : PlanState) (b : Action) :
    (planStep ext st b).actionsVector.length = st.actionsVector.length := by
  unfold planStep
  split <;> simp

theorem planStep_foldl_slot_untouched (ext : External) (i : Nat) :
    ∀ (l : List Action) (st : PlanState),
      (∀ b ∈ l, b.order.toNat ≠ i) →
      (l.foldl (planStep ext) st).actionsVector[i]? = st.actionsVector[i]?
  | [], _, _ => rfl
  | b :: rest, st, h => by
    rw [List.foldl_cons, planStep_foldl_slot_untouched ext i rest _
      (fun c hc => h c (List.mem_cons_of_mem _ hc))]
    have hb := h b (List.mem_cons_self _ _)
    unfold planStep
    split
    · rfl
    · simp only
      rw [List.getElem?_set, if_neg hb]

theorem planStep_foldl_sets (ext : External) :
    ∀ (l : List Action) (st : PlanState) (a : Action),
      (l.map Action.order).Nodup → (∀ b ∈ l, 0 ≤ b.order) → a ∈ l →
      a.shouldBeRemoved ext = false → a.order.toNat < st.actionsVector.length →
      (l.foldl (planStep ext) st).actionsVector[a.order.toNat]? = some (some a)
  | [], _, _, _, _, ha, _, _ => by simp at ha
  | b :: rest, st, a, hnd, hnn, ha, hkeep, hlt => by
    rw [List.map_cons, List.nodup_cons] at hnd
    rw [List.foldl_cons]
    by_cases hab : a = b
    · subst hab
      rw [planStep_foldl_slot_untouched]
      · unfold planStep
        simp only [hkeep, Bool.false_eq_true, if_false]
        rw [List.getElem?_set, if_pos rfl, if_pos hlt]
      · intro c hc heq
        apply hnd.1
        have h1 := hnn c (List.mem_cons_of_mem _ hc)
        have h2 := hnn a (List.mem_cons_self _ _)
        have : c.order = a.order := by omega
        rw [← this]
        exact List.mem_map_of_mem _ hc
    · have har : a ∈ rest := by
        rcases List.mem_cons.1 ha with h | h
        · exact absurd h hab
        · exact h
      exact planStep_foldl_sets ext rest _ a hnd.2
        (fun c hc => hnn c (List.mem_cons_of_mem _ hc)) har hkeep
        (by rw [planStep_vector_length]; exact hlt)

theorem planStep_foldl_requirements_filter (ext : External) :
    ∀ (l : List Action) (st : PlanState),
      (l.foldl (planStep ext) st).requirements
        = st.requirements ||| ((l.filter fun a => !a.shouldBeRemoved ext).map
            fun a => a.alteringRequirements).foldr (fun r acc => r ||| acc) 0
  | [], st => by simp
  | b :: rest, st => by
    rw [List.foldl_cons, planStep_foldl_requirements_filter ext rest]
    by_cases hr : b.shouldBeRemoved ext = true
    · simp [planStep, hr]
    · simp [planStep, hr, Nat.lor_assoc]

/-- C35: shouldBeRemoved of a ChangeFieldPropertyAction is the case-insensitive comparison
of QString (QString::compare with Qt::CaseInsensitive) of the recorded field name with the
text of the new value, whatever the property is; an action of the map stands in the vector of
sorted actions (at the slot of its order) exactly when shouldBeRemoved keeps it, and the
requirements of the plan are the OR over the kept actions only. In particular, "title" and
"Title" being equal in that comparison, for change(1 on field "title", caption, "Title") the
plan is empty and the requirements are 0, although the action itself requires a main-schema
change. -/
theorem change_to_field_name_is_left_out (ext : External) (actions : List Action) :
    (∀ (a : Action) (p : QString) (v : QVariant), a.kind = .changeFieldProperty p v →
      a.shouldBeRemoved ext = ext.caseInsensitiveEqual a.fieldName v.toString)
    ∧ (∀ a ∈ allActions (simplifyLoop ext (numberActions actions 0) []).2,
        (planActions ext (simplifyLoop ext (numberActions actions 0) []).2
            (numberActions actions 0).length).actionsVector[a.order.toNat]? = some (some a)
          ↔ a.shouldBeRemoved ext = false)
    ∧ (planActions ext (simplifyLoop ext (numberActions actions 0) []).2
          (numberActions actions 0).length).requirements
        = (((allActions (simplifyLoop ext (numberActions actions 0) []).2).filter
              fun a => !a.shouldBeRemoved ext).map
            fun a => a.alteringRequirements).foldr (fun r acc => r ||| acc) 0
    ∧ (ext.caseInsensitiveEqual "title".toList "Title".toList = true →
        (∃ x, KDbAlterTableHandler.execute ext
            { actions := [ChangeFieldPropertyAction "title".toList "caption".toList
                            (.string "Title".toList) 1],
              conn := some exampleConnection } "T".toList
            { onlyComputeRequirements := true } [] = .ok x
          ∧ x.args.requirements = 0 ∧ x.args.result = .true)
        ∧ (planActions ext (simplifyLoop ext (numberActions
              [ChangeFieldPropertyAction "title".toList "caption".toList
                (.string "Title".toList) 1] 0) []).2 1).actionsVector = [none]
        ∧ (numberActions [ChangeFieldPropertyAction "title".toList "caption".toList
              (.string "Title".toList) 1] 0).map (fun a => a.alteringRequirements)
            = [MainSchemaAlteringRequired])
    ∧ exampleExternal.caseInsensitiveEqual "title".toList "Title".toList = true := by
  have hsingle : (simplifyLoop ext (numberActions
      [ChangeFieldPropertyAction "title".toList "caption".toList (.string "Title".toList) 1]
      0) [])
      = ([numberAction (ChangeFieldPropertyAction "title".toList "caption".toList
            (.string "Title".toList) 1) 0],
         [(1, [("caption".toList, numberAction (ChangeFieldPropertyAction "title".toList
            "caption".toList (.string "Title".toList) 1) 0)])]) := rfl
  have hplan : ext.caseInsensitiveEqual "title".toList "Title".toList = true →
      planActions ext [(1, [("caption".toList, numberAction (ChangeFieldPropertyAction
        "title".toList "caption".toList (.string "Title".toList) 1) 0)])] 1
      = { actionsVector := [none], currentActionsCount := 1 } := by
    intro htitle
    simp only [String.toList] at htitle
    simp [planActions, planStep, Action.shouldBeRemoved, numberAction,
      ChangeFieldPropertyAction, Action.updateAlteringRequirements, QVariant.toString, htitle]
  obtain ⟨hnodup, hprov⟩ := simplifyLoop_orders ext actions 0
  refine ⟨?_, ?_, ?_, fun htitle => ⟨?_, ?_, by decide⟩, by decide⟩
  rotate_left 3
  · refine ⟨_, rfl, ?_, rfl⟩
    show (planActions ext (simplifyLoop ext (numberActions
      [ChangeFieldPropertyAction "title".toList "caption".toList (.string "Title".toList) 1]
      0) []).2 1).requirements = 0
    rw [hsingle, hplan htitle]
  · rw [hsingle, hplan htitle]
  · intro a p v hk
    simp [Action.shouldBeRemoved, hk]
  · intro a ha
    rw [planActions_eq_foldl]
    constructor
    · intro h
      rcases (planStep_foldl_vector ext _ _).2 _ a h with h1 | ⟨_, _, h3⟩
      · rw [List.getElem?_replicate] at h1
        split at h1 <;> cases h1
      · exact h3
    · intro hkeep
      refine planStep_foldl_sets ext _ _ a hnodup ?_ ha hkeep ?_
      · intro b hb
        obtain ⟨i, c, _, ho, _⟩ := hprov b hb
        rw [ho]
        omega
      · obtain ⟨i, c, hc, ho, _⟩ := hprov a ha
        have hi : i < actions.length := by
          have := List.getElem?_eq_some_iff.1 hc
          exact this.1
        simp only [List.length_replicate, numberActions_length]
        rw [ho]
        simp
        exact hi
  · rw [planActions_eq_foldl, planStep_foldl_requirements_filter]
    simp

/-! ## C39: a second pass over the surviving actions -/

theorem hashValue_hashInsert {K V : Type} [DecidableEq K] (h : List (K × V)) (k k2 : K) (v : V) :
    hashValue (hashInsert h k v) k2 = if k = k2 then some v else hashValue h k2 := by
  by_cases hk : k = k2
  · subst hk
    rw [if_pos rfl, hashValue_hashInsert_self]
  · rw [if_neg hk, hashValue_hashInsert_ne _ _ _ _ hk]

theorem hashValue_hashRemove {K V : Type} [DecidableEq K] (h : List (K × V)) (k k2 : K) :
    hashValue (hashRemove h k) k2 = if k = k2 then none else hashValue h k2 := by
  by_cases hk : k = k2
  · subst hk
    rw [if_pos rfl, hashValue_hashRemove_self]
  · rw [if_neg hk, hashValue_hashRemove_ne _ _ _ hk]

theorem hashValue_renameAll (n : QString) :
    ∀ (d : ActionDict) (k : QByteArray),
      hashValue (Action.renameAll d n) k = (hashValue d k).map fun a => a.setFieldName n
  | [], _ => rfl
  | (k1, a) :: rest, k => by
    have ih := hashValue_renameAll n rest k
    simp only [Action.renameAll, List.map_cons, hashValue] at ih ⊢
    by_cases hk : k1 = k
    · simp [hk]
    · simp only [hk, if_false]
      exact ih

theorem keys_renameAll (d : ActionDict) (n : QString) :
    (Action.renameAll d n).map Prod.fst = d.map Prod.fst := by
  simp [Action.renameAll, List.map_map, Function.comp_def]

theorem mem_keys_hashInsert {K V : Type} [DecidableEq K] (k : K) (v : V) (x : K) :
    ∀ h : List (K × V), x ∈ (hashInsert h k v).map Prod.fst → x = k ∨ x ∈ h.map Prod.fst
  | [], hx => by
    simp [hashInsert] at hx
    exact Or.inl hx
  | (k1, v1) :: rest, hx => by
    by_cases hk : k1 = k
    · simp only [hashInsert, hk, if_true, List.map_cons, List.mem_cons] at hx ⊢
      rcases hx with hx | hx
      · exact Or.inl hx
      · exact Or.inr (Or.inr hx)
    · simp only [hashInsert, hk, if_false, List.map_cons, List.mem_cons] at hx ⊢
      rcases hx with hx | hx
      · exact Or.inr (Or.inl hx)
      · rcases mem_keys_hashInsert k v x rest hx with h | h
        · exact Or.inl h
        · exact Or.inr (Or.inr h)

theorem keys_hashInsert_nodup {K V : Type} [DecidableEq K] (k : K) (v : V) :
    ∀ h : List (K × V), (h.map Prod.fst).Nodup → ((hashInsert h k v).map Prod.fst).Nodup
  | [], _ => by simp [hashInsert]
  | (k1, v1) :: rest, hnd => by
    rw [List.map_cons, List.nodup_cons] at hnd
    by_cases hk : k1 = k
    · simp only [hashInsert, hk, if_true, List.map_cons, List.nodup_cons]
      exact ⟨hk ▸ hnd.1, hnd.2⟩
    · simp only [hashInsert, hk, if_false, List.map_cons, List.nodup_cons]
      refine ⟨fun hmem => ?_, keys_hashInsert_nodup k v rest hnd.2⟩
      rcases mem_keys_hashInsert k v k1 rest hmem with h | h
      · exact hk h
      · exact hnd.1 h

theorem keys_hashRemove_nodup {K V : Type} [DecidableEq K] (k : K) (h : List (K × V))
    (hnd : (h.map Prod.fst).Nodup) : ((hashRemove h k).map Prod.fst).Nodup :=
  hnd.sublist ((List.filter_sublist _).map _)

theorem hashValue_of_mem {K V : Type} [DecidableEq K] (k : K) (v : V) :
    ∀ h : List (K × V), (h.map Prod.fst).Nodup → (k, v) ∈ h → hashValue h k = some v
  | [], _, hm => by simp at hm
  | (k1, v1) :: rest, hnd, hm => by
    rw [List.map_cons, List.nodup_cons] at hnd
    rcases List.mem_cons.1 hm with h | h
    · cases h
      simp [hashValue]
    · have hne : k1 ≠ k := by
        intro hk
        subst hk
        exact hnd.1 (List.mem_map.2 ⟨_, h, rfl⟩)
      simp only [hashValue, hne, if_false]
      exact hashValue_of_mem k v rest hnd.2 h

theorem eq_nil_of_hashValue_none {K V : Type} [DecidableEq K] :
    ∀ h : List (K × V), (∀ k, hashValue h k = none) → h = []
  | [], _ => rfl
  | (k1, v1) :: rest, hv => by
    have := hv k1
    simp [hashValue] at this

theorem lookupAction_hashInsert (fa : ActionDictDict) (u u2 : Int) (d : ActionDict)
    (k : QByteArray) :
    lookupAction (hashInsert fa u d) u2 k
      = if u = u2 then hashValue d k else lookupAction fa u2 k := by
  unfold lookupAction
  rw [hashValue_hashInsert]
  split <;> rfl

theorem mem_allActions (fa : ActionDictDict) (a : Action) :
    a ∈ allActions fa ↔ ∃ u d k, (u, d) ∈ fa ∧ (k, a) ∈ d := by
  simp only [allActions, dictActions, List.mem_flatMap, List.mem_map, Prod.exists]
  constructor
  · rintro ⟨u, d, hd, k, b, hk, rfl⟩
    exact ⟨u, d, k, hd, hk⟩
  · rintro ⟨u, d, k, hd, hk⟩
    exact ⟨u, d, hd, k, a, hk, rfl⟩

theorem mem_allActions_of_hashValue (fa : ActionDictDict) (u : Int) (d : ActionDict)
    (k : QByteArray) (a : Action) (hd : hashValue fa u = some d) (ha : hashValue d k = some a) :
    a ∈ allActions fa :=
  (mem_allActions fa a).2 ⟨u, d, k, hashValue_mem _ _ _ hd, hashValue_mem _ _ _ ha⟩

theorem mem_allActions_of_lookup (fa : ActionDictDict) (u : Int) (k : QByteArray) (a : Action)
    (h : lookupAction fa u k = some a) : a ∈ allActions fa := by
  unfold lookupAction at h
  cases hd : hashValue fa u with
  | none => simp [hd] at h
  | some d =>
    simp only [hd, Option.some_bind] at h
    exact mem_allActions_of_hashValue fa u d k a hd h

/-! ### The shape of a dictionary is kept by every update of the pass -/

theorem DictOk_nil (u : Int) : DictOk u [] := by
  refine ⟨by simp, ?_⟩
  intro k a h
  simp [hashValue] at h

theorem DictOk_renameAll (u : Int) (d : ActionDict) (n : QString) (h : DictOk u d) :
    DictOk u (Action.renameAll d n) := by
  obtain ⟨hnd, hd⟩ := h
  refine ⟨by rw [keys_renameAll]; exact hnd, ?_⟩
  intro k a ha
  rw [hashValue_renameAll] at ha
  cases ha0 : hashValue d k with
  | none => simp [ha0] at ha
  | some a0 =>
    simp only [ha0, Option.map_some', Option.some.injEq] at ha
    subst ha
    obtain ⟨h1, h2, h3, h4, h5⟩ := hd k a0 ha0
    refine ⟨h1, h2, h3, ?_, ?_⟩
    · intro k2 b hb hne
      rw [hashValue_renameAll] at hb
      cases hb0 : hashValue d k2 with
      | none => simp [hb0] at hb
      | some b0 =>
        simp only [hb0, Option.map_some', Option.some.injEq] at hb
        subst hb
        exact h4 k2 b0 hb0 hne
    · intro v b hk hb hc
      rw [hashValue_renameAll] at hb
      cases hb0 : hashValue d (toLatin1 v.toString) with
      | none => simp [hb0] at hb
      | some b0 =>
        simp only [hb0, Option.map_some', Option.some.injEq] at hb
        subst hb
        exact h5 v b0 hk hb0 hc

theorem DictOk_hashRemove (u : Int) (d : ActionDict) (key : QByteArray) (h : DictOk u d) :
    DictOk u (hashRemove d key) := by
  obtain ⟨hnd, hd⟩ := h
  refine ⟨keys_hashRemove_nodup key d hnd, ?_⟩
  intro k a ha
  rw [hashValue_hashRemove] at ha
  split at ha
  · cases ha
  · obtain ⟨h1, h2, h3, h4, h5⟩ := hd k a ha
    refine ⟨h1, h2, h3, ?_, ?_⟩
    · intro k2 b hb hne
      rw [hashValue_hashRemove] at hb
      split at hb
      · cases hb
      · exact h4 k2 b hb hne
    · intro v b hk hb hc
      rw [hashValue_hashRemove] at hb
      split at hb
      · cases hb
      · exact h5 v b hk hb hc

theorem DictOk_hashInsert (u : Int) (d : ActionDict) (key : QByteArray) (this : Action)
    (h : DictOk u d) (huid : this.fieldUID = u) (hkey : this.key = key)
    (hmove : this.isMoveFieldPosition = false) (hins : this.isInsertField = false)
    (hbound : ∀ k b, hashValue d k = some b → k ≠ key → this.order < b.order)
    (hrem : key ≠ ":remove:".toList → hashValue d ":remove:".toList = none)
    (hren : ∀ v b, this.kind = .changeFieldProperty "name".toList v →
      hashValue d (toLatin1 v.toString) = some b → toLatin1 v.toString ≠ key →
      b.isChangeFieldProperty = false) :
    DictOk u (hashInsert d key this) := by
  obtain ⟨hnd, hd⟩ := h
  refine ⟨keys_hashInsert_nodup key this d hnd, ?_⟩
  intro k a ha
  rw [hashValue_hashInsert] at ha
  by_cases hk : key = k
  · subst hk
    rw [if_pos rfl] at ha
    cases ha
    refine ⟨huid, hkey, hmove, ?_, ?_⟩
    · intro k2 b hb hne
      rw [hashValue_hashInsert, if_neg (Ne.symm hne)] at hb
      refine ⟨fun _ => hbound k2 b hb hne, fun hi => ?_⟩
      rw [hins] at hi
      cases hi
    · intro v b hkind hb hc
      rw [hashValue_hashInsert] at hb
      by_cases ht : key = toLatin1 v.toString
      · rw [if_pos ht] at hb
        cases hb
        exact le_refl _
      · rw [if_neg ht] at hb
        have := hren v b hkind hb (Ne.symm ht)
        rw [this] at hc
        cases hc
  · rw [if_neg hk] at ha
    obtain ⟨h1, h2, h3, h4, h5⟩ := hd k a ha
    refine ⟨h1, h2, h3, ?_, ?_⟩
    · intro k2 b hb hne
      rw [hashValue_hashInsert] at hb
      by_cases hk2 : key = k2
      · rw [if_pos hk2] at hb
        cases hb
        refine ⟨fun hkr => ?_, fun _ => hbound k a ha (Ne.symm hk)⟩
        subst hkr
        rw [hrem hk] at ha
        cases ha
      · rw [if_neg hk2] at hb
        exact h4 k2 b hb hne
    · intro v b hkind hb hc
      rw [hashValue_hashInsert] at hb
      by_cases ht : key = toLatin1 v.toString
      · rw [if_pos ht] at hb
        cases hb
        exact le_of_lt (hbound k a ha (Ne.symm hk))
      · rw [if_neg ht] at hb
        exact h5 v b hkind hb hc

theorem DictOk_only (u : Int) (d : ActionDict) (key : QByteArray)
    (hnd : (d.map Prod.fst).Nodup) (honly : ∀ k, k ≠ key → hashValue d k = none)
    (hval : ∀ a, hashValue d key = some a →
      a.fieldUID = u ∧ a.key = key ∧ a.isMoveFieldPosition = false) :
    DictOk u d := by
  refine ⟨hnd, ?_⟩
  intro k a ha
  by_cases hk : k = key
  · subst hk
    obtain ⟨h1, h2, h3⟩ := hval a ha
    refine ⟨h1, h2, h3, ?_, ?_⟩
    · intro k2 b hb hne
      rw [honly k2 hne] at hb
      cases hb
    · intro v b _ hb _
      by_cases ht : toLatin1 v.toString = k
      · rw [ht, ha] at hb
        cases hb
        exact le_refl _
      · rw [honly _ ht] at hb
        cases hb
  · rw [honly k hk] at ha
    cases ha

theorem MapOk_nil : MapOk [] := by
  refine ⟨by simp, ?_⟩
  intro u d h
  simp [hashValue] at h

theorem MapOk_hashInsert (fa : ActionDictDict) (u : Int) (d : ActionDict)
    (hnd : (fa.map Prod.fst).Nodup)
    (hother : ∀ u2 d2, u2 ≠ u → hashValue fa u2 = some d2 → DictOk u2 d2)
    (hd : DictOk u d) : MapOk (hashInsert fa u d) := by
  refine ⟨keys_hashInsert_nodup u d fa hnd, ?_⟩
  intro u2 d2 h2
  rw [hashValue_hashInsert] at h2
  by_cases hu : u = u2
  · rw [if_pos hu] at h2
    cases h2
    exact hu ▸ hd
  · rw [if_neg hu] at h2
    exact hother u2 d2 (Ne.symm hu) h2

theorem MapOk_update (fa : ActionDictDict) (u : Int) (d : ActionDict)
    (h : MapOk fa) (hd : DictOk u d) : MapOk (hashInsert fa u d) :=
  MapOk_hashInsert fa u d h.1 (fun u2 d2 _ h2 => h.2 u2 d2 h2) hd

theorem collectChanges_keys_nodup :
    ∀ (d : ActionDict) (fn : QString) (vals : List (QByteArray × QVariant)) (kept : ActionDict),
      (kept.map Prod.fst).Nodup →
      ((Action.collectChanges d fn vals kept).2.2.map Prod.fst).Nodup
  | [], _, _, _, h => h
  | (key, a) :: rest, fn, vals, kept, h => by
    unfold Action.collectChanges
    split
    · exact collectChanges_keys_nodup rest _ _ kept h
    · exact collectChanges_keys_nodup rest _ _ _ (keys_hashInsert_nodup key a kept h)

theorem collectChanges_lookup (k : QByteArray) (b : Action) :
    ∀ (d : ActionDict) (fn : QString) (vals : List (QByteArray × QVariant)) (kept : ActionDict),
      hashValue (Action.collectChanges d fn vals kept).2.2 k = some b →
      hashValue kept k = some b ∨ ((k, b) ∈ d ∧ b.isChangeFieldProperty = false)
  | [], _, _, _, h => Or.inl h
  | (key, a) :: rest, fn, vals, kept, h => by
    unfold Action.collectChanges at h
    split at h
    · rcases collectChanges_lookup k b rest _ _ kept h with h1 | h1
      · exact Or.inl h1
      · exact Or.inr ⟨List.mem_cons_of_mem _ h1.1, h1.2⟩
    · rename_i hkind
      rcases collectChanges_lookup k b rest _ _ _ h with h1 | h1
      · rw [hashValue_hashInsert] at h1
        by_cases hk : key = k
        · rw [if_pos hk] at h1
          cases h1
          subst hk
          refine Or.inr ⟨List.mem_cons_self _ _, ?_⟩
          unfold Action.isChangeFieldProperty
          split
          · rename_i p v hp
            exact absurd hp (hkind p v)
          · rfl
        · rw [if_neg hk] at h1
          exact Or.inl h1
      · exact Or.inr ⟨List.mem_cons_of_mem _ h1.1, h1.2⟩

theorem simplifyChangeFieldProperty_MapOk (act : Action) (p : QString) (v : QVariant)
    (fa : ActionDictDict) (hkind : act.kind = .changeFieldProperty p v)
    (h : MapOk fa) (hbound : ∀ b ∈ allActions fa, act.order < b.order) :
    MapOk (Action.simplifyChangeFieldProperty act p v fa).2 := by
  have hkey : act.key = toLatin1 p := by simp [Action.key, hkind]
  have hmove : act.isMoveFieldPosition = false := by simp [Action.isMoveFieldPosition, hkind]
  have hins : act.isInsertField = false := by simp [Action.isInsertField, hkind]
  cases hd : hashValue fa act.fieldUID with
  | none =>
    have hres : (Action.simplifyChangeFieldProperty act p v fa).2
        = hashInsert fa act.fieldUID (hashInsert [] (toLatin1 p) act) := by
      simp only [Action.simplifyChangeFieldProperty, hd, Option.none_bind, Option.isSome_none,
        Option.getD_none, Bool.false_eq_true, if_false]
      split_ifs <;> rfl
    rw [hres]
    refine MapOk_update _ _ _ h (DictOk_hashInsert _ [] _ act (DictOk_nil _) rfl hkey hmove hins
      ?_ ?_ ?_)
    · intro k b hb; simp [hashValue] at hb
    · intro _; rfl
    · intro v b _ hb; simp [hashValue] at hb
  | some d =>
    have hdok := h.2 _ _ hd
    have hb2 : ∀ k b, hashValue d k = some b → k ≠ toLatin1 p → act.order < b.order :=
      fun k b hb _ => hbound b (mem_allActions_of_hashValue fa _ d k b hd hb)
    have hren := MapOk_update fa act.fieldUID _ h (DictOk_renameAll _ d act.fieldName hdok)
    unfold Action.simplifyChangeFieldProperty
    simp only [hd, Option.some_bind, Option.getD_some]
    by_cases hp : p = "name".toList
    · rw [if_pos hp]
      split
      · exact hren
      · rename_i hcast
        split_ifs with hrm
        · exact hren
        · refine MapOk_update _ _ _ h (DictOk_hashInsert _ d _ act hdok rfl hkey hmove hins
            hb2 ?_ ?_)
          · intro _
            simpa using hrm
          · intro v2 b hk2 hb _
            rw [hkind] at hk2
            injection hk2 with _ hv
            subst hv
            rw [hb] at hcast
            simp only [Option.some_bind] at hcast
            unfold Action.isChangeFieldProperty
            split
            · rename_i hk3
              rw [hk3] at hcast
              simp at hcast
            · rfl
    · rw [if_neg hp]
      split_ifs with hrm hnone
      · exact h
      · refine MapOk_update _ _ _ h (DictOk_hashInsert _ d _ act hdok rfl hkey hmove hins
          hb2 ?_ ?_)
        · intro _
          simpa using hrm
        · intro v2 b hk2 _ _
          rw [hkind] at hk2
          injection hk2 with hp2 _
          exact absurd hp2 hp
      · exact h

theorem simplifyRemoveField_MapOk (act : Action) (fa : ActionDictDict)
    (hkind : act.kind = .removeField)
    (h : MapOk fa) (hbound : ∀ b ∈ allActions fa, act.order < b.order) :
    MapOk (Action.simplifyRemoveField act fa).2 := by
  have hkey : act.key = ":remove:".toList := by simp [Action.key, hkind]
  have hmove : act.isMoveFieldPosition = false := by simp [Action.isMoveFieldPosition, hkind]
  have hins : act.isInsertField = false := by simp [Action.isInsertField, hkind]
  unfold Action.simplifyRemoveField
  simp only
  refine MapOk_update _ _ _ h (DictOk_hashInsert _ _ _ act ?_ rfl hkey hmove hins ?_ ?_ ?_)
  · cases hd : hashValue fa act.fieldUID with
    | none => exact DictOk_nil _
    | some d => exact h.2 _ _ hd
  · intro k b hb _
    cases hd : hashValue fa act.fieldUID with
    | none => rw [hd] at hb; simp [hashValue] at hb
    | some d =>
      rw [hd] at hb
      exact hbound b (mem_allActions_of_hashValue fa _ d k b hd hb)
  · intro hne
    exact absurd rfl hne
  · intro v b hk
    rw [hkind] at hk
    cases hk

theorem MapOk_fold (fa : ActionDictDict) (uid : Int) (d : ActionDict) (fn : QString)
    (newAction : Action) (h : MapOk fa) (hd : hashValue fa uid = some d)
    (hrm : hashValue d ":remove:".toList = none)
    (huid : newAction.fieldUID = uid) (hkey : newAction.key = ":insert:".toList)
    (hmove : newAction.isMoveFieldPosition = false) :
    MapOk (hashInsert
      (hashInsert (hashRemove fa uid) uid (Action.collectChanges d fn [] []).2.2) uid
      (hashInsert (Action.collectChanges d fn [] []).2.2 ":insert:".toList newAction)) := by
  have hdok := h.2 _ _ hd
  refine MapOk_hashInsert _ _ _
    (keys_hashInsert_nodup _ _ _ (keys_hashRemove_nodup _ _ h.1)) ?_
    (DictOk_only _ _ ":insert:".toList (keys_hashInsert_nodup _ _ _ ?_) ?_ ?_)
  · intro u2 d2 hu h2
    rw [hashValue_hashInsert, if_neg (Ne.symm hu), hashValue_hashRemove,
      if_neg (Ne.symm hu)] at h2
    exact h.2 u2 d2 h2
  · exact collectChanges_keys_nodup _ _ _ _ (by simp)
  · intro k hk
    rw [hashValue_hashInsert, if_neg (Ne.symm hk)]
    cases hb : hashValue (Action.collectChanges d fn [] []).2.2 k with
    | none => rfl
    | some b =>
      exfalso
      rcases collectChanges_lookup k b d _ _ _ hb with h1 | ⟨hmem, hnc⟩
      · simp [hashValue] at h1
      · have hbd := hashValue_of_mem k b d hdok.1 hmem
        obtain ⟨_, hbk, hbm, _, _⟩ := hdok.2 k b hbd
        unfold Action.key at hbk
        unfold Action.isChangeFieldProperty at hnc
        unfold Action.isMoveFieldPosition at hbm
        cases hkb : b.kind with
        | changeFieldProperty p v => rw [hkb] at hnc; simp at hnc
        | removeField =>
          rw [hkb] at hbk
          simp only at hbk
          subst hbk
          rw [hbd] at hrm
          cases hrm
        | insertField j g =>
          rw [hkb] at hbk
          exact hk hbk.symm
        | moveFieldPosition j => rw [hkb] at hbm; simp at hbm
  · intro a ha
    rw [hashValue_hashInsert_self] at ha
    cases ha
    exact ⟨huid, hkey, hmove⟩

theorem simplifyInsertField_MapOk (ext : External) (act : Action) (i : Int) (f : KDbField)
    (fa : ActionDictDict) (hkind : act.kind = .insertField i f) (h : MapOk fa) :
    MapOk (Action.simplifyInsertField ext act i f fa).2 := by
  have hkey : act.key = ":insert:".toList := by simp [Action.key, hkind]
  have hmove : act.isMoveFieldPosition = false := by simp [Action.isMoveFieldPosition, hkind]
  cases hd : hashValue fa act.fieldUID with
  | none =>
    have hres : (Action.simplifyInsertField ext act i f fa).2
        = hashInsert fa act.fieldUID (hashInsert [] ":insert:".toList act) := by
      simp [Action.simplifyInsertField, hd]
    rw [hres]
    refine MapOk_update _ _ _ h (DictOk_only _ _ ":insert:".toList
      (keys_hashInsert_nodup _ _ _ (by simp)) ?_ ?_)
    · intro k hk
      rw [hashValue_hashInsert, if_neg (Ne.symm hk)]
      rfl
    · intro a ha
      rw [hashValue_hashInsert_self] at ha
      cases ha
      exact ⟨rfl, hkey, hmove⟩
  | some d =>
    have hdok := h.2 _ _ hd
    unfold Action.simplifyInsertField
    simp only [hd, Option.some_bind, Option.getD_some]
    by_cases hrm : (hashValue d ":remove:".toList).isSome = true
    · rw [if_pos hrm]
      exact MapOk_update _ _ _ h (DictOk_hashRemove _ d _ hdok)
    · rw [if_neg hrm]
      refine MapOk_fold fa act.fieldUID d act.fieldName _ h hd (by simpa using hrm) ?_ ?_ ?_
      · split_ifs <;> rfl
      · simp [Action.key]
      · simp [Action.isMoveFieldPosition]

theorem simplifyActions_MapOk (ext : External) (act : Action) (fa : ActionDictDict)
    (h : MapOk fa) (hbound : ∀ b ∈ allActions fa, act.order < b.order) :
    MapOk (act.simplifyActions ext fa).2 := by
  unfold Action.simplifyActions
  split
  · rename_i p v hk
    exact simplifyChangeFieldProperty_MapOk act p v fa hk h hbound
  · rename_i hk
    exact simplifyRemoveField_MapOk act fa hk h hbound
  · rename_i i f hk
    exact simplifyInsertField_MapOk ext act i f fa hk h
  · exact h

theorem simplifyLoop_MapOk (ext : External) :
    ∀ l : List Action, l.Pairwise (fun a b => a.order < b.order) →
      MapOk (simplifyLoop ext l []).2
  | [], _ => MapOk_nil
  | a :: rest, hp => by
    rw [List.pairwise_cons] at hp
    simp only [simplifyLoop]
    refine simplifyActions_MapOk ext a _ (simplifyLoop_MapOk ext rest hp.2) ?_
    intro b hb
    have := simplifyLoop_all ext (fun c => ∃ b ∈ rest, c.order = b.order)
      (fun c nm hc => hc) (fun c nm i f g _ hc => hc) rest []
      (fun b hb _ => ⟨b, hb, rfl⟩) (by simp [allActions]) b hb
    obtain ⟨c, hc, hcb⟩ := this
    rw [hcb]
    exact hp.1 c hc

/-! ### What a call records when nothing recorded stands in its way -/

theorem lookupAction_store (fa : ActionDictDict) (uid : Int) (key : QByteArray) (act : Action)
    (u : Int) (k : QByteArray) :
    lookupAction (hashInsert fa uid (hashInsert ((hashValue fa uid).getD []) key act)) u k
      = if uid = u ∧ key = k then some act else lookupAction fa u k := by
  rw [lookupAction_hashInsert, hashValue_hashInsert]
  by_cases hu : uid = u
  · subst hu
    by_cases hk : key = k
    · simp [hk]
    · simp only [hk, if_false, and_false, if_true]
      unfold lookupAction
      cases hashValue fa uid <;> rfl
  · simp [hu]

theorem simplifyChangeFieldProperty_records (act : Action) (p : QString) (v : QVariant)
    (fa : ActionDictDict)
    (hrm : lookupAction fa act.fieldUID ":remove:".toList = none)
    (hname : p = "name".toList → ∀ b, lookupAction fa act.fieldUID (toLatin1 v.toString) = some b →
      b.isChangeFieldProperty = false)
    (hother : p ≠ "name".toList → lookupAction fa act.fieldUID (toLatin1 p) = none) :
    (Action.simplifyChangeFieldProperty act p v fa).2
      = hashInsert fa act.fieldUID
          (hashInsert ((hashValue fa act.fieldUID).getD []) (toLatin1 p) act) := by
  unfold lookupAction at hrm hname hother
  cases hd : hashValue fa act.fieldUID with
  | none =>
    simp only [Action.simplifyChangeFieldProperty, hd, Option.none_bind, Option.isSome_none,
      Option.getD_none, Bool.false_eq_true, if_false]
    split_ifs <;> rfl
  | some d =>
    rw [hd] at hrm hname hother
    simp only [Option.some_bind] at hrm hname hother
    unfold Action.simplifyChangeFieldProperty
    simp only [hd, Option.some_bind, Option.getD_some, hrm, Option.isSome_none,
      Bool.false_eq_true, if_false]
    by_cases hp : p = "name".toList
    · rw [if_pos hp]
      have hcast : ((hashValue d (toLatin1 v.toString)).bind fun r =>
          match r.kind with
          | .changeFieldProperty _ otherValue => some otherValue
          | _ => none) = none := by
        cases hb : hashValue d (toLatin1 v.toString) with
        | none => rfl
        | some b =>
          have hnc := hname hp b hb
          unfold Action.isChangeFieldProperty at hnc
          simp only [Option.some_bind]
          split
          · rename_i hk
            rw [hk] at hnc
            simp at hnc
          · rfl
      rw [hcast]
    · rw [if_neg hp]
      simp [hother hp]

theorem simplifyInsertField_records (ext : External) (act : Action) (i : Int) (f : KDbField)
    (fa : ActionDictDict) (hkind : act.kind = .insertField i f)
    (hnone : ∀ k, lookupAction fa act.fieldUID k = none) (u : Int) (k : QByteArray) :
    lookupAction (Action.simplifyInsertField ext act i f fa).2 u k
      = if act.fieldUID = u ∧ ":insert:".toList = k then some act else lookupAction fa u k := by
  cases hd : hashValue fa act.fieldUID with
  | none =>
    have hres : (Action.simplifyInsertField ext act i f fa).2
        = hashInsert fa act.fieldUID
            (hashInsert ((hashValue fa act.fieldUID).getD []) ":insert:".toList act) := by
      simp [Action.simplifyInsertField, hd]
    rw [hres, lookupAction_store]
  | some d =>
    have hdnil : d = [] := by
      apply eq_nil_of_hashValue_none
      intro k2
      have := hnone k2
      unfold lookupAction at this
      rw [hd] at this
      exact this
    subst hdnil
    have hact : ({ act with fieldName := act.fieldName, kind := .insertField i f } : Action)
        = act := by
      obtain ⟨req, ord, uid, fname, kind⟩ := act
      simp only at hkind
      subst hkind
      rfl
    have hres : (Action.simplifyInsertField ext act i f fa).2
        = hashInsert (hashInsert (hashRemove fa act.fieldUID) act.fieldUID []) act.fieldUID
            (hashInsert [] ":insert:".toList act) := by
      simp [Action.simplifyInsertField, hd, hashValue, Action.collectChanges,
        Action.setFieldName, hact]
    rw [hres, lookupAction_hashInsert, hashValue_hashInsert]
    by_cases hu : act.fieldUID = u
    · subst hu
      by_cases hk : ":insert:".toList = k
      · subst hk
        simp
      · simp only [hk, if_false, and_false, if_true, hnone]
        rfl
    · simp only [hu, if_false, false_and]
      rw [lookupAction_hashInsert, if_neg hu]
      unfold lookupAction
      rw [hashValue_hashRemove, if_neg hu]

theorem simplifyActions_records (ext : External) (act : Action) (fa : ActionDictDict)
    (hcond : match act.kind with
      | .changeFieldProperty p v =>
        lookupAction fa act.fieldUID ":remove:".toList = none
        ∧ (p = "name".toList → ∀ b, lookupAction fa act.fieldUID (toLatin1 v.toString) = some b →
            b.isChangeFieldProperty = false)
        ∧ (p ≠ "name".toList → lookupAction fa act.fieldUID (toLatin1 p) = none)
      | .removeField => True
      | .insertField _ _ => ∀ k, lookupAction fa act.fieldUID k = none
      | .moveFieldPosition _ => False)
    (u : Int) (k : QByteArray) :
    lookupAction (act.simplifyActions ext fa).2 u k
      = if act.fieldUID = u ∧ act.key = k then some act else lookupAction fa u k := by
  unfold Action.simplifyActions Action.key
  split
  · rename_i p v hk
    rw [hk] at hcond
    simp only at hcond
    rw [simplifyChangeFieldProperty_records act p v fa hcond.1 hcond.2.1 hcond.2.2,
      lookupAction_store]
  · simp only [Action.simplifyRemoveField]
    rw [lookupAction_store]
  · rename_i i f hk
    rw [hk] at hcond
    simp only at hcond
    exact simplifyInsertField_records ext act i f fa hk hcond u k
  · rename_i i hk
    rw [hk] at hcond
    exact hcond.elim

theorem find_some_spec {α : Type} (p : α → Bool) :
    ∀ (l : List α) (b : α), l.find? p = some b → b ∈ l ∧ p b = true
  | [], _, h => by simp at h
  | a :: rest, b, h => by
    rw [List.find?_cons] at h
    cases hp : p a with
    | true =>
      rw [hp] at h
      cases h
      exact ⟨List.mem_cons_self _ _, hp⟩
    | false =>
      rw [hp] at h
      obtain ⟨h1, h2⟩ := find_some_spec p rest b h
      exact ⟨List.mem_cons_of_mem _ h1, h2⟩

theorem simplifyLoop_lookup (ext : External) :
    ∀ l : List Action, l.Pairwise Action.recordedBefore →
      (∀ a ∈ l, a.isMoveFieldPosition = false) →
      ∀ (u : Int) (k : QByteArray),
        lookupAction (simplifyLoop ext l []).2 u k
          = l.find? fun a => decide (a.fieldUID = u ∧ a.key = k)
  | [], _, _, u, k => rfl
  | a :: rest, hp, hm, u, k => by
    rw [List.pairwise_cons] at hp
    have ih := simplifyLoop_lookup ext rest hp.2 (fun b hb => hm b (List.mem_cons_of_mem _ hb))
    have hfind : ∀ (k2 : QByteArray) (b : Action),
        lookupAction (simplifyLoop ext rest []).2 a.fieldUID k2 = some b →
        b ∈ rest ∧ b.fieldUID = a.fieldUID ∧ b.key = k2 := by
      intro k2 b hb
      rw [ih] at hb
      obtain ⟨h1, h2⟩ := find_some_spec _ rest b hb
      simp only [decide_eq_true_eq] at h2
      exact ⟨h1, h2.1, h2.2⟩
    have hnone : ∀ k2, (∀ b ∈ rest, b.fieldUID = a.fieldUID → b.key ≠ k2) →
        lookupAction (simplifyLoop ext rest []).2 a.fieldUID k2 = none := by
      intro k2 h
      cases hb : lookupAction (simplifyLoop ext rest []).2 a.fieldUID k2 with
      | none => rfl
      | some b =>
        obtain ⟨h1, h2, h3⟩ := hfind k2 b hb
        exact absurd h3 (h b h1 h2)
    simp only [simplifyLoop]
    rw [simplifyActions_records ext a _ ?_ u k, List.find?_cons, ih]
    · by_cases hc : a.fieldUID = u ∧ a.key = k
      · simp [hc]
      · simp [hc]
    · have hrec := hp.1
      unfold Action.recordedBefore at hrec
      cases hk : a.kind with
      | changeFieldProperty p v =>
        simp only [hk] at hrec ⊢
        refine ⟨hnone _ (fun b hb hu => (hrec b hb hu).1), ?_, ?_⟩
        · intro hpn b hb
          obtain ⟨h1, h2, h3⟩ := hfind _ b hb
          have := (hrec b h1 h2).2
          rw [if_pos hpn] at this
          exact this h3
        · intro hpn
          refine hnone _ (fun b hb hu => ?_)
          have := (hrec b hb hu).2
          rw [if_neg hpn] at this
          exact this
      | removeField => trivial
      | insertField i f =>
        simp only [hk] at hrec ⊢
        intro k2
        exact hnone k2 (fun b hb hu => (hrec b hb hu).elim)
      | moveFieldPosition i =>
        have := hm a (List.mem_cons_self _ _)
        simp [Action.isMoveFieldPosition, hk] at this

/-! ### The surviving actions of a well-shaped map are recorded again as they stand -/

theorem lookup_of_mem (fa : ActionDictDict) (a : Action) (h : MapOk fa)
    (ha : a ∈ allActions fa) :
    ∃ d, hashValue fa a.fieldUID = some d ∧ hashValue d a.key = some a ∧ DictOk a.fieldUID d
      ∧ a.isMoveFieldPosition = false := by
  obtain ⟨u, d, k, hd, hk⟩ := (mem_allActions fa a).1 ha
  have hd2 := hashValue_of_mem u d fa h.1 hd
  have hdok := h.2 u d hd2
  have hk2 := hashValue_of_mem k a d hdok.1 hk
  obtain ⟨h1, h2, h3, _, _⟩ := hdok.2 k a hk2
  subst h1
  subst h2
  exact ⟨d, hd2, hk2, hdok, h3⟩

theorem lookupAction_of_mem (fa : ActionDictDict) (a : Action) (h : MapOk fa)
    (ha : a ∈ allActions fa) : lookupAction fa a.fieldUID a.key = some a := by
  obtain ⟨d, h1, h2, _, _⟩ := lookup_of_mem fa a h ha
  unfold lookupAction
  rw [h1]
  exact h2

theorem recordedBefore_of_MapOk (fa : ActionDictDict) (a b : Action) (h : MapOk fa)
    (ha : a ∈ allActions fa) (hb : b ∈ allActions fa) (hlt : a.order < b.order) :
    a.recordedBefore b := by
  intro hu
  obtain ⟨d, hda, hka, hdok, hma⟩ := lookup_of_mem fa a h ha
  obtain ⟨d2, hdb, hkb, _, _⟩ := lookup_of_mem fa b h hb
  rw [hu, hda] at hdb
  cases hdb
  have hne : b.key = a.key → False := by
    intro he
    rw [he, hka] at hkb
    cases hkb
    exact lt_irrefl _ hlt
  obtain ⟨_, ha2, _, _, ha5⟩ := hdok.2 _ a hka
  obtain ⟨_, _, _, hb4, _⟩ := hdok.2 _ b hkb
  have hnotrem : b.key ≠ ":remove:".toList := by
    intro hr
    by_cases he : a.key = b.key
    · exact hne he.symm
    · exact lt_asymm hlt ((hb4 a.key a hka he).1 hr)
  cases hk : a.kind with
  | changeFieldProperty p v =>
    simp only
    refine ⟨hnotrem, ?_⟩
    have hkey : a.key = toLatin1 p := by simp [Action.key, hk]
    by_cases hp : p = "name".toList
    · rw [if_pos hp]
      intro hbk
      cases hc : b.isChangeFieldProperty with
      | false => rfl
      | true =>
        exfalso
        rw [hp] at hk
        rw [hbk] at hkb
        exact absurd (ha5 v b hk hkb hc) (not_le.2 hlt)
    · rw [if_neg hp]
      intro he
      exact hne (he.trans hkey.symm)
  | removeField => trivial
  | insertField i f =>
    simp only
    obtain ⟨_, _, _, ha4, _⟩ := hdok.2 _ a hka
    have hi : a.isInsertField = true := by simp [Action.isInsertField, hk]
    by_cases he : b.key = a.key
    · exact hne he
    · exact lt_asymm hlt ((ha4 b.key b hkb he).2 hi)
  | moveFieldPosition i => trivial

theorem numberActions_pairwise :
    ∀ (l : List Action) (n : Int),
      (numberActions l n).Pairwise (fun a b => a.order < b.order)
      ∧ ∀ a ∈ numberActions l n, n ≤ a.order
  | [], _ => by simp [numberActions]
  | a :: rest, n => by
    obtain ⟨ih1, ih2⟩ := numberActions_pairwise rest (n + 1)
    simp only [numberActions, List.pairwise_cons, List.mem_cons, forall_eq_or_imp,
      numberAction_order, le_refl, true_and]
    refine ⟨⟨fun b hb => ?_, ih1⟩, fun b hb => ?_⟩
    · have := ih2 b hb
      omega
    · have := ih2 b hb
      omega

theorem survivingActions_sorted (fa : ActionDictDict)
    (hnd : ((allActions fa).map Action.order).Nodup) :
    (survivingActions fa).Pairwise (fun a b => a.order < b.order) := by
  haveI : IsTotal Action (fun a b => a.order ≤ b.order) := ⟨fun a b => le_total _ _⟩
  haveI : IsTrans Action (fun a b => a.order ≤ b.order) := ⟨fun a b c => le_trans⟩
  have hs : (survivingActions fa).Pairwise (fun a b => a.order ≤ b.order) :=
    List.sorted_insertionSort (fun (a b : Action) => a.order ≤ b.order) (allActions fa)
  have hperm : (survivingActions fa).Perm (allActions fa) :=
    List.perm_insertionSort (fun (a b : Action) => a.order ≤ b.order) (allActions fa)
  have hnd2 : ((survivingActions fa).map Action.order).Nodup :=
    (hperm.map Action.order).nodup_iff.2 hnd
  have hne : (survivingActions fa).Pairwise (fun a b => a.order ≠ b.order) := by
    rw [List.Nodup, List.pairwise_map] at hnd2
    exact hnd2
  exact (hs.and hne).imp (fun h => lt_of_le_of_ne h.1 h.2)

theorem mem_survivingActions (fa : ActionDictDict) (a : Action) :
    a ∈ survivingActions fa ↔ a ∈ allActions fa :=
  (List.perm_insertionSort (fun (a b : Action) => a.order ≤ b.order) (allActions fa)).mem_iff

theorem second_pass_lookup (ext : External) (fa : ActionDictDict) (h : MapOk fa)
    (hnd : ((allActions fa).map Action.order).Nodup) (u : Int) (k : QByteArray) :
    lookupAction (simplifyLoop ext (survivingActions fa) []).2 u k = lookupAction fa u k := by
  have hsorted := survivingActions_sorted fa hnd
  have hrec : (survivingActions fa).Pairwise Action.recordedBefore :=
    hsorted.imp_of_mem (fun {a b} ha hb hlt =>
      recordedBefore_of_MapOk fa a b h ((mem_survivingActions fa a).1 ha)
        ((mem_survivingActions fa b).1 hb) hlt)
  have hmv : ∀ a ∈ survivingActions fa, a.isMoveFieldPosition = false := by
    intro a ha
    obtain ⟨_, _, _, _, hm⟩ := lookup_of_mem fa a h ((mem_survivingActions fa a).1 ha)
    exact hm
  rw [simplifyLoop_lookup ext _ hrec hmv]
  cases hf : (survivingActions fa).find? (fun a => decide (a.fieldUID = u ∧ a.key = k)) with
  | none =>
    cases hl : lookupAction fa u k with
    | none => rfl
    | some a =>
      exfalso
      have ha := mem_allActions_of_lookup fa u k a hl
      obtain ⟨d, h1, h2, hdok, _⟩ := lookup_of_mem fa a h ha
      have hmem := (mem_survivingActions fa a).2 ha
      rw [List.find?_eq_none] at hf
      have := hf a hmem
      simp only [decide_eq_true_eq, not_and] at this
      unfold lookupAction at hl
      cases hd : hashValue fa u with
      | none => rw [hd] at hl; cases hl
      | some d0 =>
        rw [hd] at hl
        simp only [Option.some_bind] at hl
        obtain ⟨hu, hk, _⟩ := (h.2 u d0 hd).2 k a hl
        exact this hu hk
  | some b =>
    obtain ⟨hb, hpb⟩ := find_some_spec _ _ b hf
    simp only [decide_eq_true_eq] at hpb
    have := lookupAction_of_mem fa b h ((mem_survivingActions fa b).1 hb)
    rw [hpb.1, hpb.2] at this
    exact this.symm

/-- C39: simplification is idempotent. For every action list, the backward pass run on the
actions that the first pass left in the map, taken in ascending order, records under every
field UID and key the very action the first pass left there (same field name, new value and
field definition), and nothing under the other keys; the two maps hold the same actions. A
field whose insert was cancelled by a later remove keeps an empty dictionary after the first
pass and has none after the second: neither records an action for it. -/
theorem simplification_is_idempotent (ext : External) (actions : List Action) :
    (∀ (u : Int) (k : QByteArray),
      lookupAction (simplifyLoop ext
          (survivingActions (simplifyLoop ext (numberActions actions 0) []).2) []).2 u k
        = lookupAction (simplifyLoop ext (numberActions actions 0) []).2 u k)
    ∧ ∀ a : Action,
        a ∈ allActions (simplifyLoop ext
          (survivingActions (simplifyLoop ext (numberActions actions 0) []).2) []).2
        ↔ a ∈ allActions (simplifyLoop ext (numberActions actions 0) []).2 := by
  obtain ⟨hnd, _⟩ := simplifyLoop_orders ext actions 0
  have hok := simplifyLoop_MapOk ext (numberActions actions 0) (numberActions_pairwise actions 0).1
  have hlook := second_pass_lookup ext _ hok hnd
  have hok2 := simplifyLoop_MapOk ext _ (survivingActions_sorted _ hnd)
  refine ⟨hlook, fun a => ⟨fun ha => ?_, fun ha => ?_⟩⟩
  · have h1 := lookupAction_of_mem _ a hok2 ha
    rw [hlook] at h1
    exact mem_allActions_of_lookup _ _ _ _ h1
  · have h1 := lookupAction_of_mem _ a hok ha
    rw [← hlook] at h1
    exact mem_allActions_of_lookup _ _ _ _ h1

end KDb
